import Mathlib

/-!
# A verification development for `simple-flash-store`

This file gives a shallow embedding of the Rust sources of
`simple-flash-store` (`src/lib.rs`) and proves properties of the store.

Modelling conventions:

* Machine bytes and addresses (`u8`, `usize`) are `Nat`; byte values are
  kept below 256 by hypotheses where it matters.  Bitwise `!x` on `u8`
  becomes `x ^^^ 255`.
* The flash device (the `FlashTrait` implementor) is a byte list `data`
  together with a log of the issued mutating operations (`write` /
  `erase_page`), mirroring the reference mock used by the crate's tests:
  `read` returns the stored bytes, `write` stores the bytes verbatim,
  `erase_page` fills a page with `ERASED_VALUE`.  Flash access never
  fails in this model.
* Loops (`while position < SIZE`) become fuel-indexed recursions; the
  public entry points supply fuel `SIZE + 1`, which is proved sufficient.
  `none` means the fuel ran out, a Rust `panic!`/`assert!`/`unreachable!`
  was hit, or `step_by` was called with step 0; every claim shows the
  relevant calls return `some`.
-/

/-- The device geometry: the four associated constants of `FlashTrait`. -/
structure Geom where
  SIZE : Nat
  PAGE_SIZE : Nat
  WORD_SIZE : Nat
  ERASED_VALUE : Nat
deriving DecidableEq

/-- `HEADER_SIZE` from lib.rs (line 74). -/
def HEADER_SIZE : Nat := 4

/-- The slot granularity `Flash::WORD_SIZE.max(HEADER_SIZE)` used by
`FlashStore::round` (lib.rs line 97). -/
def Geom.slot (g : Geom) : Nat := max g.WORD_SIZE HEADER_SIZE

/-- `FlashStore::round` (lib.rs lines 96-99): round `offset` up to the next
multiple of `WORD_SIZE.max(HEADER_SIZE)`. -/
def Geom.round (g : Geom) (offset : Nat) : Nat :=
  ((offset - 1) / g.slot + 1) * g.slot

/-- The geometry assumptions under which the store is used: the slot size is a
common multiple of `WORD_SIZE` and `HEADER_SIZE` and divides `PAGE_SIZE`,
`PAGE_SIZE` divides `SIZE` (`FlashTrait` requires `SIZE` to be a multiple of
`PAGE_SIZE`), pages are nonempty, and the erased byte is a byte.  A word size
of 3 (rejected by `FlashStore::new`) violates `slot % WORD_SIZE = 0`. -/
def ValidGeom (g : Geom) : Prop :=
  g.slot % g.WORD_SIZE = 0 ∧ g.slot % HEADER_SIZE = 0 ∧
  g.PAGE_SIZE % g.slot = 0 ∧ g.SIZE % g.PAGE_SIZE = 0 ∧
  0 < g.PAGE_SIZE ∧ g.ERASED_VALUE < 256

instance (g : Geom) : Decidable (ValidGeom g) := by
  unfold ValidGeom; infer_instance

/-- `FlashStore::parse_header` (lib.rs lines 83-87) on the four bytes read
from flash: the file number is `(!header[0]) ^ ERASED_VALUE`, the size is the
24-bit little-endian value of bytes 1..3. -/
def parse_header (g : Geom) (header : List Nat) : Nat × Nat :=
  ((header.getD 0 0 ^^^ 255) ^^^ g.ERASED_VALUE,
   header.getD 1 0 + 256 * header.getD 2 0 + 65536 * header.getD 3 0)

/-- `FlashStore::make_header` (lib.rs lines 89-93); its `assert!(size <= 0xFFFFFF)`
is modelled at the call site (`appendRecord`). -/
def make_header (g : Geom) (number : Nat) (size : Nat) : List Nat :=
  [(number ^^^ 255) ^^^ g.ERASED_VALUE, size % 256, size / 256 % 256, size / 65536 % 256]

/-- A mutating operation issued to the flash abstraction. -/
inductive FlashOp where
  | write (address : Nat) (data : List Nat)
  | erasePage (address : Nat)
deriving DecidableEq

/-- The flash device: its byte contents plus the log of issued mutating
operations (reads are pure and not logged). -/
structure FlashDev where
  data : List Nat
  log : List FlashOp
deriving DecidableEq

/-- The byte of a device at index `i` (0 when out of range; all accesses in
reachable states are in range). -/
def byteAt (data : List Nat) (i : Nat) : Nat := data.getD i 0

/-- `FlashTrait::read`: `len` bytes starting at `address`. -/
def flashReadBytes (data : List Nat) (address len : Nat) : List Nat :=
  (data.drop address).take len

/-- Overwrite `data[address ..< address + bytes.length]` with `bytes`. -/
def storeBytes (data : List Nat) (address : Nat) (bytes : List Nat) : List Nat :=
  data.take address ++ bytes ++ data.drop (address + bytes.length)

/-- `FlashTrait::write`: store the bytes and log the operation. -/
def FlashDev.write (dev : FlashDev) (address : Nat) (bytes : List Nat) : FlashDev :=
  ⟨storeBytes dev.data address bytes, dev.log ++ [FlashOp.write address bytes]⟩

/-- `FlashTrait::erase_page`: fill the page with `ERASED_VALUE` and log it. -/
def FlashDev.erasePage (g : Geom) (dev : FlashDev) (address : Nat) : FlashDev :=
  ⟨storeBytes dev.data address (List.replicate g.PAGE_SIZE g.ERASED_VALUE),
   dev.log ++ [FlashOp.erasePage address]⟩

/-- `FlashStoreError` (lib.rs lines 54-60). -/
inductive FlashStoreError where
  | NotFound
  | BufferTooSmall
  | CorruptData
  | NoSpaceLeft
  | FlashAccessError
deriving DecidableEq

/-- `FindResult` (lib.rs lines 66-72). -/
inductive FindResult where
  | Found (offset size : Nat)
  | NotFound (endPos : Nat)
deriving DecidableEq

/-- `FlashStore::read_header` (lib.rs lines 101-105). -/
def read_header (g : Geom) (data : List Nat) (position : Nat) : Nat × Nat :=
  parse_header g (flashReadBytes data position HEADER_SIZE)

/-- The value `find` returns when the loop stops at `position`
(lib.rs lines 133-136). -/
def findResultOf (found : Option (Nat × Nat)) (position : Nat) : FindResult :=
  match found with
  | some (p, s) => FindResult.Found p s
  | none => FindResult.NotFound position

/-- The scan loop of `FlashStore::find` (lib.rs lines 111-131), fuel-indexed.
`found` carries the last matching `(offset, size)` seen so far. -/
def findLoop (g : Geom) (data : List Nat) (file_number : Nat) :
    Nat → Nat → Option (Nat × Nat) → Option (Except FlashStoreError FindResult)
  | 0, _, _ => none
  | fuel + 1, position, found =>
    if position < g.SIZE then
      let nr := read_header g data position
      if nr.1 = 255 then
        some (Except.ok (findResultOf found position))
      else
        let found' := if nr.1 = file_number then some (position, nr.2) else found
        if position + HEADER_SIZE + nr.2 > g.SIZE then
          some (Except.error FlashStoreError.CorruptData)
        else
          findLoop g data file_number fuel (position + g.round (HEADER_SIZE + nr.2)) found'
    else
      some (Except.ok (findResultOf found position))

/-- `FlashStore::find` (lib.rs lines 107-137). `none` as the argument stands
for Rust's `None`, which the source replaces by the sentinel `0xFF`. -/
def find (g : Geom) (data : List Nat) (file_number : Option Nat) :
    Option (Except FlashStoreError FindResult) :=
  findLoop g data (file_number.getD 255) (g.SIZE + 1) 0 none

/-- `FlashStore::end_of_store` (lib.rs lines 139-146); the `unreachable!()`
arm is modelled as `none`. -/
def end_of_store (g : Geom) (data : List Nat) : Option (Except FlashStoreError Nat) :=
  match find g data none with
  | none => none
  | some (Except.error e) => some (Except.error e)
  | some (Except.ok (FindResult.NotFound position)) => some (Except.ok position)
  | some (Except.ok (FindResult.Found _ _)) => none

/-- `FlashStore::read_file` (lib.rs lines 149-166).  The caller's buffer is
represented by its length; the returned value is the `&buffer[0..size]` view,
i.e. the payload bytes read from flash.  The `assert!(file_number != 0xFF)`
panic is modelled as `none`. -/
def read_file (g : Geom) (data : List Nat) (file_number : Nat) (buffer_len : Nat) :
    Option (Except FlashStoreError (List Nat)) :=
  if file_number = 255 then none
  else
    match find g data (some file_number) with
    | none => none
    | some (Except.error e) => some (Except.error e)
    | some (Except.ok (FindResult.Found position size)) =>
      if buffer_len < size then some (Except.error FlashStoreError.BufferTooSmall)
      else some (Except.ok (flashReadBytes data (position + HEADER_SIZE) size))
    | some (Except.ok (FindResult.NotFound _)) =>
      some (Except.error FlashStoreError.NotFound)

/-- The scan loop of `FlashStore::used_space_except` (lib.rs lines 172-188).
The stack array `sizes: [usize; 255]` is modelled as a function `Nat → Nat`. -/
def usedLoop (g : Geom) (data : List Nat) :
    Nat → Nat → (Nat → Nat) → Option (Except FlashStoreError (Nat → Nat))
  | 0, _, _ => none
  | fuel + 1, position, sizes =>
    if position < g.SIZE then
      let nr := read_header g data position
      if nr.1 = 255 then
        some (Except.ok sizes)
      else if position + HEADER_SIZE + nr.2 > g.SIZE then
        some (Except.error FlashStoreError.CorruptData)
      else
        usedLoop g data fuel (position + g.round (HEADER_SIZE + nr.2))
          (Function.update sizes nr.1 (g.round (HEADER_SIZE + nr.2)))
    else
      some (Except.ok sizes)

/-- `sizes.iter().sum()` over the 255-entry array. -/
def arraySum (sizes : Nat → Nat) : Nat := ((List.range 255).map sizes).sum

/-- `FlashStore::used_space_except` (lib.rs lines 169-195). -/
def used_space_except (g : Geom) (data : List Nat) (file_number : Option Nat) :
    Option (Except FlashStoreError Nat) :=
  match usedLoop g data (g.SIZE + 1) 0 (fun _ => 0) with
  | none => none
  | some (Except.error e) => some (Except.error e)
  | some (Except.ok sizes) =>
    match file_number with
    | some n => some (Except.ok (arraySum (Function.update sizes n 0)))
    | none => some (Except.ok (arraySum sizes))

/-- `FlashStore::used_space` (lib.rs lines 198-200). -/
def used_space (g : Geom) (data : List Nat) : Option (Except FlashStoreError Nat) :=
  used_space_except g data none

/-- The scan loop of `FlashStore::generate_file_index` (lib.rs lines 206-222).
The array `positions: [usize; 255]` initialised with the sentinel `usize::MAX`
("no record") is modelled as a function `Nat → Option Nat` starting at `none`;
`read_pointer` never equals the sentinel, so the comparison in the compactor
is faithful. -/
def indexLoop (g : Geom) (data : List Nat) :
    Nat → Nat → (Nat → Option Nat) → Option (Except FlashStoreError (Nat → Option Nat))
  | 0, _, _ => none
  | fuel + 1, position, positions =>
    if position < g.SIZE then
      let nr := read_header g data position
      if nr.1 = 255 then
        some (Except.ok positions)
      else if position + HEADER_SIZE + nr.2 > g.SIZE then
        some (Except.error FlashStoreError.CorruptData)
      else
        indexLoop g data fuel (position + g.round (HEADER_SIZE + nr.2))
          (Function.update positions nr.1 (some position))
    else
      some (Except.ok positions)

/-- `FlashStore::generate_file_index` (lib.rs lines 203-225). -/
def generate_file_index (g : Geom) (data : List Nat) :
    Option (Except FlashStoreError (Nat → Option Nat)) :=
  indexLoop g data (g.SIZE + 1) 0 (fun _ => none)

/-- The pages visited by `(0..Flash::SIZE).step_by(Flash::PAGE_SIZE)`
(lib.rs lines 238 and 322): `0, PAGE_SIZE, 2 * PAGE_SIZE, …` below `SIZE`.
(`step_by(0)` panics in Rust; here `PAGE_SIZE = 0` yields the empty list and
is excluded by `ValidGeom`.) -/
def pagesList (g : Geom) : List Nat :=
  List.range' 0 ((g.SIZE + g.PAGE_SIZE - 1) / g.PAGE_SIZE) g.PAGE_SIZE

/-- The inner `while read_pointer < page + PAGE_SIZE` loop of
`FlashStore::compact_flash_except` (lib.rs lines 249-275), fuel-indexed.
The state is `(dev, read_pointer, write_pointer, remaining_bytes_to_copy)`;
`page_buffer` is the RAM snapshot of the current page.  The
`assert!(remaining_bytes_to_copy == 0)` at the top of the body is modelled
as `none` when violated. -/
def compactInner (g : Geom) (page_buffer : List Nat) (page : Nat)
    (file_index : Nat → Option Nat) (except_file_number : Nat) :
    Nat → FlashDev → Nat → Nat → Nat → Option (FlashDev × Nat × Nat × Nat)
  | 0, _, _, _, _ => none
  | fuel + 1, dev, read_pointer, write_pointer, remaining_bytes_to_copy =>
    if read_pointer < page + g.PAGE_SIZE then
      if remaining_bytes_to_copy ≠ 0 then none
      else
        let remaining_page := page_buffer.drop (read_pointer - page)
        let nr := parse_header g (remaining_page.take HEADER_SIZE)
        if nr.1 = 255 then
          some (dev, g.SIZE, write_pointer, remaining_bytes_to_copy)
        else
          let entry_size := g.round (HEADER_SIZE + nr.2)
          let entry_size_on_this_page := min entry_size remaining_page.length
          let entry_size_on_next_page := entry_size - entry_size_on_this_page
          if file_index nr.1 ≠ some read_pointer ∨ nr.1 = except_file_number then
            compactInner g page_buffer page file_index except_file_number fuel
              dev (read_pointer + entry_size) write_pointer remaining_bytes_to_copy
          else
            compactInner g page_buffer page file_index except_file_number fuel
              (dev.write write_pointer (remaining_page.take entry_size_on_this_page))
              (read_pointer + entry_size)
              (write_pointer + entry_size_on_this_page)
              entry_size_on_next_page
    else
      some (dev, read_pointer, write_pointer, remaining_bytes_to_copy)

/-- The body of the page loop of `FlashStore::compact_flash_except`
(lib.rs lines 238-276), iterated over the list of pages: read the page into
the RAM buffer, erase it, replay a pending straddling tail, then run the
inner record loop. -/
def compactPages (g : Geom) (file_index : Nat → Option Nat) (except_file_number : Nat) :
    List Nat → FlashDev → Nat → Nat → Nat → Option (FlashDev × Nat × Nat × Nat)
  | [], dev, read_pointer, write_pointer, remaining_bytes_to_copy =>
    some (dev, read_pointer, write_pointer, remaining_bytes_to_copy)
  | page :: rest, dev, read_pointer, write_pointer, remaining_bytes_to_copy =>
    let page_buffer := flashReadBytes dev.data page g.PAGE_SIZE
    let dev1 := FlashDev.erasePage g dev page
    let st :=
      if 0 < remaining_bytes_to_copy then
        let copy_from_this_page := min remaining_bytes_to_copy g.PAGE_SIZE
        (dev1.write write_pointer (page_buffer.take copy_from_this_page),
         write_pointer + copy_from_this_page,
         remaining_bytes_to_copy - copy_from_this_page)
      else (dev1, write_pointer, remaining_bytes_to_copy)
    match compactInner g page_buffer page file_index except_file_number
        (g.PAGE_SIZE + 1) st.1 read_pointer st.2.1 st.2.2 with
    | none => none
    | some (dev2, rp, wp, rem) =>
      compactPages g file_index except_file_number rest dev2 rp wp rem

/-- `FlashStore::compact_flash_except` (lib.rs lines 228-279): build the file
index, then rewrite the device page by page; returns the new end-of-store
(the final `write_pointer`). -/
def compact_flash_except (g : Geom) (dev : FlashDev) (except_file_number : Nat) :
    Option (FlashDev × Except FlashStoreError Nat) :=
  match generate_file_index g dev.data with
  | none => none
  | some (Except.error e) => some (dev, Except.error e)
  | some (Except.ok file_index) =>
    match compactPages g file_index except_file_number (pagesList g) dev 0 0 0 with
    | none => none
    | some (dev', _, write_pointer, _) => some (dev', Except.ok write_pointer)

/-- The appending tail of `FlashStore::write_file` (lib.rs lines 294-316):
build the header and issue the write(s), splicing the header into the first
word when `WORD_SIZE > HEADER_SIZE`.  `make_header`'s
`assert!(size <= 0xFFFFFF)` is modelled as `none`; the zero bytes in the
word buffer come from `let mut temp = [0u8; 32]`. -/
def appendRecord (g : Geom) (dev : FlashDev) (end_of_store file_number : Nat)
    (buffer : List Nat) : Option (FlashDev × Except FlashStoreError Unit) :=
  if buffer.length > 0xFFFFFF then none
  else
    let header := make_header g file_number buffer.length
    if g.WORD_SIZE > HEADER_SIZE then
      if g.WORD_SIZE < buffer.length + HEADER_SIZE then
        let word_buffer := header ++ buffer.take (g.WORD_SIZE - HEADER_SIZE)
        some (((dev.write end_of_store word_buffer).write
                 (end_of_store + g.WORD_SIZE)
                 (buffer.drop (g.WORD_SIZE - HEADER_SIZE))),
              Except.ok ())
      else
        let word_buffer :=
          header ++ buffer ++ List.replicate (g.WORD_SIZE - HEADER_SIZE - buffer.length) 0
        some (dev.write end_of_store word_buffer, Except.ok ())
    else
      some ((dev.write end_of_store header).write (end_of_store + header.length) buffer,
            Except.ok ())

/-- `FlashStore::write_file` (lib.rs lines 282-319).  Returns the device
(with its operation log) paired with the call's result; the
`assert!(file_number != 0xFF)` panic is modelled as `none`. -/
def write_file (g : Geom) (dev : FlashDev) (file_number : Nat) (buffer : List Nat) :
    Option (FlashDev × Except FlashStoreError Unit) :=
  if file_number = 255 then none
  else
    match end_of_store g dev.data with
    | none => none
    | some (Except.error e) => some (dev, Except.error e)
    | some (Except.ok eos) =>
      if eos + HEADER_SIZE + buffer.length > g.SIZE then
        match used_space_except g dev.data (some file_number) with
        | none => none
        | some (Except.error e) => some (dev, Except.error e)
        | some (Except.ok used) =>
          if HEADER_SIZE + buffer.length > g.SIZE - used then
            some (dev, Except.error FlashStoreError.NoSpaceLeft)
          else
            match compact_flash_except g dev file_number with
            | none => none
            | some (dev', Except.error e) => some (dev', Except.error e)
            | some (dev', Except.ok new_eos) =>
              appendRecord g dev' new_eos file_number buffer
      else appendRecord g dev eos file_number buffer

/-- `FlashStore::initialize_flash` (lib.rs lines 321-326): erase every page. -/
def initialize_flash (g : Geom) (dev : FlashDev) : FlashDev :=
  (pagesList g).foldl (fun d page => FlashDev.erasePage g d page) dev

deriving instance DecidableEq for Except

/-- A logical record: a file number with its payload bytes. -/
structure FileRec where
  num : Nat
  payload : List Nat
deriving DecidableEq

/-- The slot footprint of a record: `round(HEADER_SIZE + payload length)`. -/
def entrySize (g : Geom) (r : FileRec) : Nat := g.round (HEADER_SIZE + r.payload.length)

/-- The position reached after scanning past `recs` starting at `p`. -/
def scanEnd (g : Geom) : Nat → List FileRec → Nat
  | p, [] => p
  | p, r :: rs => scanEnd g (p + entrySize g r) rs

/-- What `find`'s `found` accumulator holds after scanning `recs` from `p`:
the offset and declared size of the last record whose number is `fn`. -/
def scanFound (g : Geom) (fn : Nat) : Nat → List FileRec → Option (Nat × Nat) → Option (Nat × Nat)
  | _, [], acc => acc
  | p, r :: rs, acc =>
    scanFound g fn (p + entrySize g r) rs
      (if r.num = fn then some (p, r.payload.length) else acc)

/-- The payload of the most recent (last-listed) record with number `n`. -/
def latestPayload (recs : List FileRec) (n : Nat) : Option (List Nat) :=
  recs.foldl (fun acc r => if r.num = n then some r.payload else acc) none

/-- The records compaction keeps, in order: the last record of each file
number, omitting number `ex` entirely. -/
def dedupLatest (ex : Nat) : List FileRec → List FileRec
  | [] => []
  | r :: rs =>
    if r.num = ex ∨ rs.any (fun q => q.num == r.num) then dedupLatest ex rs
    else r :: dedupLatest ex rs

/-- The store contents `data` lay out the records `recs` contiguously from
position `p`: each record's header and payload are on flash (padding bytes
within a slot are arbitrary), and everything from the layout's end to `SIZE`
is erased.  This is the representation invariant the store operations
maintain. -/
inductive Laid (g : Geom) (data : List Nat) : Nat → List FileRec → Prop
  | nil (p : Nat) (hp : p ≤ g.SIZE)
      (herased : ∀ i, p ≤ i → i < g.SIZE → byteAt data i = g.ERASED_VALUE) :
      Laid g data p []
  | cons (p : Nat) (r : FileRec) (rs : List FileRec)
      (hnum : r.num ≤ 254) (hlen : r.payload.length ≤ 0xFFFFFF)
      (hfit : p + HEADER_SIZE + r.payload.length ≤ g.SIZE)
      (hhdr : flashReadBytes data p HEADER_SIZE = make_header g r.num r.payload.length)
      (hpay : flashReadBytes data (p + HEADER_SIZE) r.payload.length = r.payload)
      (hrest : Laid g data (p + entrySize g r) rs) :
      Laid g data p (r :: rs)

/-- `data` is a well-formed device holding exactly the records `recs`. -/
def Represents (g : Geom) (data : List Nat) (recs : List FileRec) : Prop :=
  data.length = g.SIZE ∧ Laid g data 0 recs

/-- A record as the scanner sees it: its offset and decoded header. -/
structure Entry where
  pos : Nat
  num : Nat
  size : Nat
deriving DecidableEq

/-- Specification-side description of one scanner walk (the shape shared by
`find`, `used_space_except` and `generate_file_index`), written from the
spec's words: starting at `p` the scan parses the headers of `entries` in
order, each in bounds, and stops at `e` — either the offset of the first
erased-looking header (decoded number `0xFF`) or `SIZE` when the last record
ends exactly at the device boundary.  Nothing beyond the stop offset is
considered. -/
inductive SpecScan (g : Geom) (data : List Nat) : Nat → List Entry → Nat → Prop
  | stop (p : Nat) (hlt : p < g.SIZE) (h255 : (read_header g data p).1 = 255) :
      SpecScan g data p [] p
  | edge (p : Nat) (he : p = g.SIZE) : SpecScan g data p [] p
  | cons (p : Nat) (entries : List Entry) (e : Nat)
      (hlt : p < g.SIZE) (h255 : (read_header g data p).1 ≠ 255)
      (hfit : p + HEADER_SIZE + (read_header g data p).2 ≤ g.SIZE)
      (hrest : SpecScan g data (p + g.round (HEADER_SIZE + (read_header g data p).2)) entries e) :
      SpecScan g data p
        (⟨p, (read_header g data p).1, (read_header g data p).2⟩ :: entries) e

/-- Specification-side description of a corrupt device, from the spec's
words: walking from `p`, before any erased-looking header the scan reaches a
parsed record at some offset `q` whose declared length overruns the device
(`q + 4 + L > SIZE`). -/
inductive SpecScanBad (g : Geom) (data : List Nat) : Nat → Prop
  | here (p : Nat) (hlt : p < g.SIZE) (h255 : (read_header g data p).1 ≠ 255)
      (hbad : p + HEADER_SIZE + (read_header g data p).2 > g.SIZE) : SpecScanBad g data p
  | later (p : Nat) (hlt : p < g.SIZE) (h255 : (read_header g data p).1 ≠ 255)
      (hfit : p + HEADER_SIZE + (read_header g data p).2 ≤ g.SIZE)
      (hrest : SpecScanBad g data (p + g.round (HEADER_SIZE + (read_header g data p).2))) :
      SpecScanBad g data p

/-- The last `(offset, size)` among scanned entries whose number is `fn`
(the spec's "the last offset/length whose number equals n"). -/
def specLastMatch (fn : Nat) (entries : List Entry) : Option (Nat × Nat) :=
  entries.foldl (fun acc en => if en.num = fn then some (en.pos, en.size) else acc) none

/-- The entries the scanner sees for a record layout starting at `p`. -/
def toEntries (g : Geom) : Nat → List FileRec → List Entry
  | _, [] => []
  | p, r :: rs => ⟨p, r.num, r.payload.length⟩ :: toEntries g (p + entrySize g r) rs

/-- The live payload of file `n` as the source reads it: locate the latest
record via `find` and take its payload bytes (`read_file`'s read). -/
def livePayload (g : Geom) (data : List Nat) (n : Nat) : Option (List Nat) :=
  match find g data (some n) with
  | some (Except.ok (FindResult.Found p s)) => some (flashReadBytes data (p + HEADER_SIZE) s)
  | _ => none

/-- Whether one flash operation respects the alignment contract of
`FlashTrait`: writes at multiples of `WORD_SIZE`, erases at multiples of
`PAGE_SIZE`. -/
def alignedOp (g : Geom) : FlashOp → Bool
  | FlashOp.write a _ => a % g.WORD_SIZE == 0
  | FlashOp.erasePage a => a % g.PAGE_SIZE == 0

/-- Every operation in the log respects the alignment contract. -/
def AlignedLog (g : Geom) (log : List FlashOp) : Prop :=
  log.all (alignedOp g) = true

/-- Valid operation sequences of the store facade, together with the abstract
file map they produce: `initialize_flash` on a fresh device of the right
size, followed by successful `write_file` calls with legal file numbers
(≤ 254) and payload lengths (≤ 0xFFFFFF; larger ones panic in
`make_header`). -/
inductive ReachW (g : Geom) : FlashDev → (Nat → Option (List Nat)) → Prop
  | init (data : List Nat) (hlen : data.length = g.SIZE) :
      ReachW g (initialize_flash g ⟨data, []⟩) (fun _ => none)
  | write (dev : FlashDev) (m : Nat → Option (List Nat)) (file_number : Nat)
      (buffer : List Nat) (dev' : FlashDev)
      (hr : ReachW g dev m) (hn : file_number ≤ 254) (hlen : buffer.length ≤ 0xFFFFFF)
      (hw : write_file g dev file_number buffer = some (dev', Except.ok ())) :
      ReachW g dev' (Function.update m file_number (some buffer))

/-- A device state reachable by valid operations. -/
def Reach (g : Geom) (dev : FlashDev) : Prop := ∃ m, ReachW g dev m

/-- What the `used_space_except` scan leaves in its `sizes` array after
walking `recs` from position `p`. -/
def specSizes (g : Geom) : Nat → List FileRec → (Nat → Nat) → (Nat → Nat)
  | _, [], sizes => sizes
  | p, r :: rs, sizes =>
    specSizes g (p + entrySize g r) rs (Function.update sizes r.num (entrySize g r))

/-- What the `generate_file_index` scan leaves in its `positions` array after
walking `recs` from position `p`. -/
def specIndex (g : Geom) : Nat → List FileRec → (Nat → Option Nat) → (Nat → Option Nat)
  | _, [], positions => positions
  | p, r :: rs, positions =>
    specIndex g (p + entrySize g r) rs (Function.update positions r.num (some p))

/-- The records the compactor keeps while walking `recs` from position `p`,
deciding exactly as the source does: discard when the file index does not
point at this record (a stale version) or when the number is `ex`. -/
def keptList (g : Geom) (fi : Nat → Option Nat) (ex : Nat) : Nat → List FileRec → List FileRec
  | _, [] => []
  | p, r :: rs =>
    if fi r.num ≠ some p ∨ r.num = ex then keptList g fi ex (p + entrySize g r) rs
    else r :: keptList g fi ex (p + entrySize g r) rs

/-- The bytes compaction emits: the concatenated original slot contents of
the kept records. -/
def keptBytes (g : Geom) (data0 : List Nat) (fi : Nat → Option Nat) (ex : Nat) :
    Nat → List FileRec → List Nat
  | _, [] => []
  | p, r :: rs =>
    if fi r.num ≠ some p ∨ r.num = ex then keptBytes g data0 fi ex (p + entrySize g r) rs
    else flashReadBytes data0 p (entrySize g r) ++
      keptBytes g data0 fi ex (p + entrySize g r) rs

/-- Zero the array entries of every file number occurring in `recs`. -/
def zeroNums : List FileRec → (Nat → Nat) → (Nat → Nat)
  | [], sizes => sizes
  | r :: rs, sizes => zeroNums rs (Function.update sizes r.num 0)

/-! ## Basic arithmetic and codec lemmas -/

theorem Geom.four_le_slot (g : Geom) : 4 ≤ g.slot := le_max_right _ _

theorem Geom.slot_pos (g : Geom) : 0 < g.slot :=
  lt_of_lt_of_le (by norm_num) g.four_le_slot

theorem Geom.slot_le_round (g : Geom) (o : Nat) : g.slot ≤ g.round o := by
  unfold Geom.round
  exact Nat.le_mul_of_pos_left _ (Nat.succ_pos _)

theorem Geom.round_pos (g : Geom) (o : Nat) : 0 < g.round o :=
  lt_of_lt_of_le g.slot_pos (g.slot_le_round o)

theorem Geom.le_round (g : Geom) (o : Nat) : o ≤ g.round o := by
  unfold Geom.round
  have hs := g.slot_pos
  have hdm := Nat.div_add_mod (o - 1) g.slot
  have hlt : (o - 1) % g.slot < g.slot := Nat.mod_lt _ hs
  rw [Nat.add_mul, Nat.one_mul, Nat.mul_comm ((o - 1) / g.slot) g.slot]
  generalize hA : g.slot * ((o - 1) / g.slot) = A at *
  generalize hB : (o - 1) % g.slot = B at *
  omega

theorem Geom.slot_dvd_round (g : Geom) (o : Nat) : g.slot ∣ g.round o :=
  Dvd.intro_left _ rfl

theorem Geom.round_le (g : Geom) {o m : Nat} (ho : 0 < o) (h1 : o ≤ m)
    (h2 : g.slot ∣ m) : g.round o ≤ m := by
  unfold Geom.round
  obtain ⟨k, rfl⟩ := h2
  have hs := g.slot_pos
  have hdiv : (o - 1) / g.slot < k := by
    rw [Nat.div_lt_iff_lt_mul hs]
    exact lt_of_lt_of_le (Nat.sub_lt ho one_pos) (h1.trans_eq (Nat.mul_comm g.slot k))
  calc ((o - 1) / g.slot + 1) * g.slot ≤ k * g.slot :=
        Nat.mul_le_mul_right _ (Nat.succ_le_of_lt hdiv)
  _ = g.slot * k := Nat.mul_comm _ _

theorem Geom.round_eq_of_dvd (g : Geom) (o : Nat) (ho : 0 < o) (h : g.slot ∣ o) :
    g.round o = o :=
  le_antisymm (g.round_le ho le_rfl h) (g.le_round o)

theorem xor_xor_cancel (a b : Nat) : (a ^^^ b) ^^^ b = a := by
  rw [Nat.xor_assoc, Nat.xor_self, Nat.xor_zero]

theorem xor_swap_cancel (n a b : Nat) : (((n ^^^ a) ^^^ b) ^^^ a) ^^^ b = n := by
  have h1 : ((n ^^^ a) ^^^ b) ^^^ a = (n ^^^ a) ^^^ (b ^^^ a) := Nat.xor_assoc _ _ _
  rw [h1, Nat.xor_comm b a, ← Nat.xor_assoc, xor_xor_cancel, xor_xor_cancel]

theorem parse_make_header (g : Geom) (n s : Nat) (hs : s ≤ 0xFFFFFF) :
    parse_header g (make_header g n s) = (n, s) := by
  unfold parse_header make_header
  refine Prod.ext ?_ ?_
  · exact xor_swap_cancel n 255 g.ERASED_VALUE
  · show s % 256 + 256 * (s / 256 % 256) + 65536 * (s / 65536 % 256) = s
    omega

theorem parse_header_erased (g : Geom) (bytes : List Nat)
    (h0 : bytes.getD 0 0 = g.ERASED_VALUE) : (parse_header g bytes).1 = 255 := by
  unfold parse_header
  show ((bytes.getD 0 0 ^^^ 255) ^^^ g.ERASED_VALUE) = 255
  rw [h0, Nat.xor_comm _ 255, Nat.xor_assoc, Nat.xor_self, Nat.xor_zero]

/-- C6: record codec round trip and erased sentinel.  For every geometry
(hence every value of `ERASED_VALUE`, 0xFF, 0x00 or otherwise), every file
number `n` and every size `s ≤ 0xFFFFFF`, decoding an encoded header returns
exactly `(n, s)`; and a header of four `ERASED_VALUE` bytes decodes to the
end-of-store sentinel number `0xFF`. -/
theorem codec_roundtrip_and_erased_sentinel (g : Geom) (n s : Nat) (hs : s ≤ 0xFFFFFF) :
    parse_header g (make_header g n s) = (n, s) ∧
    (parse_header g (List.replicate 4 g.ERASED_VALUE)).1 = 255 :=
  ⟨parse_make_header g n s hs, parse_header_erased g _ rfl⟩

theorem codec_roundtrip_and_erased_sentinel_witness :
    7 ≤ 0xFFFFFF ∧
    (parse_header ⟨1024, 128, 4, 0xFF⟩ (make_header ⟨1024, 128, 4, 0xFF⟩ 42 7) = (42, 7) ∧
     (parse_header ⟨1024, 128, 4, 0xFF⟩ (List.replicate 4 0xFF)).1 = 255) :=
  ⟨by norm_num, codec_roundtrip_and_erased_sentinel ⟨1024, 128, 4, 0xFF⟩ 42 7 (by norm_num)⟩

/-! ## Termination of the scan loops -/

theorem findLoop_isSome (g : Geom) (data : List Nat) (fn : Nat) :
    ∀ (fuel pos : Nat) (found : Option (Nat × Nat)), g.SIZE ≤ pos + fuel →
      (findLoop g data fn (fuel + 1) pos found).isSome := by
  intro fuel
  induction fuel with
  | zero =>
    intro pos found h
    simp only [findLoop]
    split
    · omega
    · simp
  | succ fuel ih =>
    intro pos found h
    show (findLoop g data fn (fuel + 1 + 1) pos found).isSome
    simp only [findLoop]
    split
    · split
      · simp
      · split
        · simp
        · refine ih _ _ ?_
          have h1 := g.slot_le_round (HEADER_SIZE + (read_header g data pos).2)
          have h2 := g.four_le_slot
          omega
    · simp

theorem usedLoop_isSome (g : Geom) (data : List Nat) :
    ∀ (fuel pos : Nat) (sizes : Nat → Nat), g.SIZE ≤ pos + fuel →
      (usedLoop g data (fuel + 1) pos sizes).isSome := by
  intro fuel
  induction fuel with
  | zero =>
    intro pos sizes h
    simp only [usedLoop]
    split
    · omega
    · simp
  | succ fuel ih =>
    intro pos sizes h
    show (usedLoop g data (fuel + 1 + 1) pos sizes).isSome
    simp only [usedLoop]
    split
    · split
      · simp
      · split
        · simp
        · refine ih _ _ ?_
          have h1 := g.slot_le_round (HEADER_SIZE + (read_header g data pos).2)
          have h2 := g.four_le_slot
          omega
    · simp

theorem indexLoop_isSome (g : Geom) (data : List Nat) :
    ∀ (fuel pos : Nat) (positions : Nat → Option Nat), g.SIZE ≤ pos + fuel →
      (indexLoop g data (fuel + 1) pos positions).isSome := by
  intro fuel
  induction fuel with
  | zero =>
    intro pos positions h
    simp only [indexLoop]
    split
    · omega
    · simp
  | succ fuel ih =>
    intro pos positions h
    show (indexLoop g data (fuel + 1 + 1) pos positions).isSome
    simp only [indexLoop]
    split
    · split
      · simp
      · split
        · simp
        · refine ih _ _ ?_
          have h1 := g.slot_le_round (HEADER_SIZE + (read_header g data pos).2)
          have h2 := g.four_le_slot
          omega
    · simp

theorem find_isSome (g : Geom) (data : List Nat) (fn : Option Nat) :
    (find g data fn).isSome :=
  findLoop_isSome g data _ g.SIZE 0 none (by omega)

theorem used_space_except_isSome (g : Geom) (data : List Nat) (fn : Option Nat) :
    (used_space_except g data fn).isSome := by
  unfold used_space_except
  have h := usedLoop_isSome g data g.SIZE 0 (fun _ => 0) (by omega)
  rcases hu : usedLoop g data (g.SIZE + 1) 0 (fun _ => 0) with _ | r
  · rw [hu] at h; simp at h
  · rcases r with e | sizes
    · simp
    · rcases fn with _ | n <;> simp

theorem generate_file_index_isSome (g : Geom) (data : List Nat) :
    (generate_file_index g data).isSome :=
  indexLoop_isSome g data g.SIZE 0 (fun _ => none) (by omega)

/-- C10 (implicit): every scan loop terminates on every device content.
Each non-breaking iteration advances `position` by `round(HEADER_SIZE + size)`,
which is at least the slot granularity `max(WORD_SIZE, 4) > 0`; consequently
the fuelled loops never exhaust the `SIZE + 1` fuel the entry points
`find`, `used_space_except` and `generate_file_index` supply, i.e. every
such call returns a result (`isSome`). -/
theorem scan_loops_terminate (g : Geom) (data : List Nat) :
    (∀ s : Nat, max g.WORD_SIZE 4 ≤ g.round (HEADER_SIZE + s) ∧
       0 < g.round (HEADER_SIZE + s)) ∧
    (∀ fn : Option Nat, (find g data fn).isSome ∧
       (used_space_except g data fn).isSome) ∧
    (generate_file_index g data).isSome := by
  refine ⟨fun s => ⟨?_, g.round_pos _⟩, fun fn => ⟨find_isSome g data fn,
    used_space_except_isSome g data fn⟩, generate_file_index_isSome g data⟩
  have h := g.slot_le_round (HEADER_SIZE + s)
  simpa [Geom.slot, HEADER_SIZE] using h

/-! ## Byte-level slice lemmas -/

theorem list_ext_byteAt {l1 l2 : List Nat} (hlen : l1.length = l2.length)
    (h : ∀ i, i < l1.length → byteAt l1 i = byteAt l2 i) : l1 = l2 := by
  apply List.ext_getElem hlen
  intro i h1 h2
  have hi := h i h1
  unfold byteAt at hi
  rw [List.getD_eq_getElem?_getD, List.getD_eq_getElem?_getD,
    List.getElem?_eq_getElem h1, List.getElem?_eq_getElem h2] at hi
  simpa using hi

theorem byteAt_flashReadBytes (data : List Nat) (a n i : Nat) (h : i < n) :
    byteAt (flashReadBytes data a n) i = byteAt data (a + i) := by
  unfold byteAt flashReadBytes
  rw [List.getD_eq_getElem?_getD, List.getD_eq_getElem?_getD,
    List.getElem?_take, List.getElem?_drop]
  simp [h]

theorem length_flashReadBytes (data : List Nat) (a n : Nat) :
    (flashReadBytes data a n).length = min n (data.length - a) := by
  simp [flashReadBytes]

theorem length_flashReadBytes_of_le (data : List Nat) (a n : Nat)
    (h : a + n ≤ data.length) : (flashReadBytes data a n).length = n := by
  rw [length_flashReadBytes]; omega

theorem byteAt_replicate (n v i : Nat) :
    byteAt (List.replicate n v) i = if i < n then v else 0 := by
  unfold byteAt
  rw [List.getD_eq_getElem?_getD, List.getElem?_replicate]
  split <;> simp_all

theorem length_storeBytes (data bytes : List Nat) (a : Nat)
    (h : a + bytes.length ≤ data.length) :
    (storeBytes data a bytes).length = data.length := by
  simp only [storeBytes, List.length_append, List.length_take, List.length_drop]
  omega

theorem getElem?_storeBytes (data bytes : List Nat) (a i : Nat)
    (hin : a + bytes.length ≤ data.length) :
    (storeBytes data a bytes)[i]? =
      if i < a then data[i]?
      else if i < a + bytes.length then bytes[i - a]?
      else data[i]? := by
  unfold storeBytes
  have hta : (data.take a).length = a := by
    simp only [List.length_take]; omega
  have htb : (data.take a ++ bytes).length = a + bytes.length := by
    simp only [List.length_append, hta]
  rw [List.getElem?_append, htb]
  by_cases h2 : i < a + bytes.length
  · rw [if_pos h2, List.getElem?_append, hta]
    by_cases h1 : i < a
    · rw [if_pos h1, if_pos h1, List.getElem?_take, if_pos h1]
    · rw [if_neg h1, if_neg h1, if_pos h2]
  · rw [if_neg h2, if_neg (by omega), if_neg (by omega), List.getElem?_drop]
    congr 1
    omega

theorem byteAt_storeBytes_lt (data bytes : List Nat) (a i : Nat)
    (hin : a + bytes.length ≤ data.length) (h : i < a) :
    byteAt (storeBytes data a bytes) i = byteAt data i := by
  unfold byteAt
  rw [List.getD_eq_getElem?_getD, List.getD_eq_getElem?_getD,
    getElem?_storeBytes data bytes a i hin, if_pos h]

theorem byteAt_storeBytes_mid (data bytes : List Nat) (a i : Nat)
    (hin : a + bytes.length ≤ data.length) (h1 : a ≤ i) (h2 : i < a + bytes.length) :
    byteAt (storeBytes data a bytes) i = byteAt bytes (i - a) := by
  unfold byteAt
  rw [List.getD_eq_getElem?_getD, List.getD_eq_getElem?_getD,
    getElem?_storeBytes data bytes a i hin, if_neg (by omega), if_pos h2]

theorem byteAt_storeBytes_ge (data bytes : List Nat) (a i : Nat)
    (hin : a + bytes.length ≤ data.length) (h : a + bytes.length ≤ i) :
    byteAt (storeBytes data a bytes) i = byteAt data i := by
  unfold byteAt
  rw [List.getD_eq_getElem?_getD, List.getD_eq_getElem?_getD,
    getElem?_storeBytes data bytes a i hin, if_neg (by omega), if_neg (by omega)]

/-! ## Characterising the scanner -/

theorem findLoop_succ (g : Geom) (data : List Nat) (fn fuel pos : Nat)
    (acc : Option (Nat × Nat)) :
    findLoop g data fn (fuel + 1) pos acc =
      if pos < g.SIZE then
        if (read_header g data pos).1 = 255 then
          some (Except.ok (findResultOf acc pos))
        else if pos + HEADER_SIZE + (read_header g data pos).2 > g.SIZE then
          some (Except.error FlashStoreError.CorruptData)
        else
          findLoop g data fn fuel (pos + g.round (HEADER_SIZE + (read_header g data pos).2))
            (if (read_header g data pos).1 = fn then some (pos, (read_header g data pos).2)
             else acc)
      else some (Except.ok (findResultOf acc pos)) := rfl

theorem specScan_le (g : Geom) (data : List Nat) {p : Nat} {entries : List Entry}
    {e : Nat} (h : SpecScan g data p entries e) :
    p + entries.length ≤ e ∧ e ≤ g.SIZE := by
  induction h with
  | stop p hlt h255 => exact ⟨by simp, le_of_lt hlt⟩
  | edge p he => exact ⟨by simp, le_of_eq he⟩
  | cons p entries e hlt h255 hfit hrest ih =>
    have h1 := g.slot_le_round (HEADER_SIZE + (read_header g data p).2)
    have h2 := g.four_le_slot
    refine ⟨?_, ih.2⟩
    have := ih.1
    simp only [List.length_cons]
    omega

theorem specScan_pos_ge (g : Geom) (data : List Nat) {p : Nat} {entries : List Entry}
    {e : Nat} (h : SpecScan g data p entries e) :
    ∀ en ∈ entries, p ≤ en.pos := by
  induction h with
  | stop p hlt h255 => intro en hen; simp at hen
  | edge p he => intro en hen; simp at hen
  | cons p entries e hlt h255 hfit hrest ih =>
    intro en hen
    have h1 := g.slot_le_round (HEADER_SIZE + (read_header g data p).2)
    have h2 := g.four_le_slot
    rcases List.mem_cons.mp hen with rfl | hmem
    · exact le_rfl
    · have := ih en hmem
      omega

theorem specScan_pairwise (g : Geom) (data : List Nat) {p : Nat} {entries : List Entry}
    {e : Nat} (h : SpecScan g data p entries e) :
    entries.Pairwise (fun a b => a.pos < b.pos) := by
  induction h with
  | stop p hlt h255 => exact List.Pairwise.nil
  | edge p he => exact List.Pairwise.nil
  | cons p entries e hlt h255 hfit hrest ih =>
    refine List.Pairwise.cons ?_ ih
    intro en hen
    have h1 := g.slot_le_round (HEADER_SIZE + (read_header g data p).2)
    have h2 := g.four_le_slot
    have := specScan_pos_ge g data hrest en hen
    show p < en.pos
    omega

theorem findLoop_specScan (g : Geom) (data : List Nat) (fn : Nat) {p : Nat}
    {entries : List Entry} {e : Nat} (h : SpecScan g data p entries e) :
    ∀ (fuel : Nat) (acc : Option (Nat × Nat)), entries.length ≤ fuel →
      findLoop g data fn (fuel + 1) p acc =
        some (Except.ok (findResultOf
          (entries.foldl (fun a en => if en.num = fn then some (en.pos, en.size) else a) acc)
          e)) := by
  induction h with
  | stop p hlt h255 =>
    intro fuel acc _
    rw [findLoop_succ, if_pos hlt, if_pos h255]
    rfl
  | edge p he =>
    intro fuel acc _
    rw [findLoop_succ, if_neg (by omega)]
    rfl
  | cons p entries e hlt h255 hfit hrest ih =>
    intro fuel acc hfuel
    cases fuel with
    | zero => simp at hfuel
    | succ f =>
      rw [findLoop_succ, if_pos hlt, if_neg h255, if_neg (by omega)]
      rw [ih f (if (read_header g data p).1 = fn then some (p, (read_header g data p).2)
          else acc) (by simpa using hfuel)]
      rfl

theorem find_specScan (g : Geom) (data : List Nat) {entries : List Entry} {e : Nat}
    (h : SpecScan g data 0 entries e) (fn : Option Nat) :
    find g data fn =
      some (Except.ok (findResultOf (specLastMatch (fn.getD 255) entries) e)) := by
  have hle := specScan_le g data h
  unfold find specLastMatch
  exact findLoop_specScan g data (fn.getD 255) h g.SIZE none (by omega)

/-- C7: scanner `find` semantics.  On a non-corrupt device — one whose scan
parses `entries` and stops at `e`, the offset of the first erased-looking
header (or `SIZE` when a record ends exactly at the device boundary);
nothing beyond the stop offset is considered by `SpecScan` — `find (some n)`
returns `Found (p, L)` where `(p, L)` is the offset/declared length of the
last (hence, by the strictly increasing offsets, the greatest-offset) entry
whose decoded number is `n`, and `NotFound e` when no entry matches. -/
theorem find_semantics (g : Geom) (data : List Nat) (entries : List Entry) (e : Nat)
    (h : SpecScan g data 0 entries e) (fn : Nat) :
    find g data (some fn) =
      some (Except.ok (findResultOf (specLastMatch fn entries) e)) ∧
    entries.Pairwise (fun a b => a.pos < b.pos) :=
  ⟨find_specScan g data h (some fn), specScan_pairwise g data h⟩

theorem find_semantics_witness :
    find ⟨1024, 128, 4, 0xFF⟩
        (storeBytes (List.replicate 1024 255) 0 [1, 1, 0, 0, 9, 9, 9, 9, 1, 2, 0, 0, 7, 8])
        (some 1) = some (Except.ok (FindResult.Found 8 2)) ∧
    ([⟨0, 1, 1⟩, ⟨8, 1, 2⟩] : List Entry).Pairwise (fun a b => a.pos < b.pos) := by
  have h := find_semantics ⟨1024, 128, 4, 0xFF⟩
    (storeBytes (List.replicate 1024 255) 0 [1, 1, 0, 0, 9, 9, 9, 9, 1, 2, 0, 0, 7, 8])
    [⟨0, 1, 1⟩, ⟨8, 1, 2⟩] 16
    (SpecScan.cons 0 [⟨8, 1, 2⟩] 16 (by decide) (by decide) (by decide)
      (SpecScan.cons 8 [] 16 (by decide) (by decide) (by decide)
        (SpecScan.stop 16 (by decide) (by decide)))) 1
  exact ⟨h.1.trans (by decide), h.2⟩

/-! ## Corruption detection -/

theorem findLoop_specScanBad (g : Geom) (data : List Nat) (fn : Nat) {p : Nat}
    (h : SpecScanBad g data p) :
    ∀ (fuel : Nat) (acc : Option (Nat × Nat)), g.SIZE ≤ p + 4 * fuel →
      findLoop g data fn fuel p acc = some (Except.error FlashStoreError.CorruptData) := by
  induction h with
  | here p hlt h255 hbad =>
    intro fuel acc hfuel
    cases fuel with
    | zero => omega
    | succ f =>
      rw [findLoop_succ, if_pos hlt, if_neg h255, if_pos hbad]
  | later p hlt h255 hfit hrest ih =>
    intro fuel acc hfuel
    cases fuel with
    | zero => omega
    | succ f =>
      rw [findLoop_succ, if_pos hlt, if_neg h255, if_neg (by omega)]
      refine ih f _ ?_
      have h1 := g.slot_le_round (HEADER_SIZE + (read_header g data p).2)
      have h2 := g.four_le_slot
      omega

theorem find_specScanBad (g : Geom) (data : List Nat) (h : SpecScanBad g data 0)
    (fn : Option Nat) :
    find g data fn = some (Except.error FlashStoreError.CorruptData) :=
  findLoop_specScanBad g data (fn.getD 255) h (g.SIZE + 1) none (by omega)

/-- C4: corruption detection and atomicity.  If, before the first
erased-looking header, the scan reaches a parsed record whose declared
length overruns the device (`SpecScanBad` at offset 0), then every
`read_file` and every `write_file` (for any legal file number) returns
`CorruptData`; moreover `write_file` returns the *unchanged* device — in
particular its operation log is as before, so no flash write or erase was
issued before the error. -/
theorem corrupt_data_detection (g : Geom) (dev : FlashDev)
    (hbad : SpecScanBad g dev.data 0) :
    (∀ n bufLen, n ≠ 255 →
       read_file g dev.data n bufLen = some (Except.error FlashStoreError.CorruptData)) ∧
    (∀ n buffer, n ≠ 255 →
       write_file g dev n buffer = some (dev, Except.error FlashStoreError.CorruptData)) := by
  constructor
  · intro n bufLen hn
    unfold read_file
    rw [if_neg hn, find_specScanBad g dev.data hbad (some n)]
  · intro n buffer hn
    unfold write_file end_of_store
    rw [if_neg hn, find_specScanBad g dev.data hbad none]

theorem corrupt_data_detection_witness :
    read_file ⟨1024, 128, 4, 0xFF⟩
        (storeBytes (List.replicate 1024 255) 0 [42, 253, 3, 0]) 42 2048 =
      some (Except.error FlashStoreError.CorruptData) ∧
    write_file ⟨1024, 128, 4, 0xFF⟩
        ⟨storeBytes (List.replicate 1024 255) 0 [42, 253, 3, 0], []⟩ 1 [0] =
      some (⟨storeBytes (List.replicate 1024 255) 0 [42, 253, 3, 0], []⟩,
        Except.error FlashStoreError.CorruptData) := by
  have h := corrupt_data_detection ⟨1024, 128, 4, 0xFF⟩
    ⟨storeBytes (List.replicate 1024 255) 0 [42, 253, 3, 0], []⟩
    (SpecScanBad.here 0 (by decide) (by decide) (by decide))
  exact ⟨h.1 42 2048 (by decide), h.2 1 [0] (by decide)⟩

/-! ## The appender's write policy for WORD_SIZE > 4 -/

/-- C5: when `WORD_SIZE > 4`, appending a record with payload `data` issues
exactly one write of one `WORD_SIZE`-sized buffer (header, whole payload,
then padding) when `4 + len(data) ≤ WORD_SIZE`, and exactly two writes
otherwise: the first of the `WORD_SIZE` buffer holding the header and the
payload prefix, the second at `end_of_store + WORD_SIZE` holding
`data[WORD_SIZE−4..]`.  The operation log records exactly the issued
writes, so "no second write" is the log equality of the first branch. -/
theorem appender_write_policy (g : Geom) (dev : FlashDev) (eos n : Nat)
    (data : List Nat) (hws : HEADER_SIZE < g.WORD_SIZE)
    (hlen : data.length ≤ 0xFFFFFF) :
    (HEADER_SIZE + data.length ≤ g.WORD_SIZE →
      ∃ dev', appendRecord g dev eos n data = some (dev', Except.ok ()) ∧
        dev'.log = dev.log ++ [FlashOp.write eos
          (make_header g n data.length ++ data ++
            List.replicate (g.WORD_SIZE - HEADER_SIZE - data.length) 0)] ∧
        (make_header g n data.length ++ data ++
          List.replicate (g.WORD_SIZE - HEADER_SIZE - data.length) 0).length
            = g.WORD_SIZE) ∧
    (g.WORD_SIZE < HEADER_SIZE + data.length →
      ∃ dev', appendRecord g dev eos n data = some (dev', Except.ok ()) ∧
        dev'.log = dev.log ++
          [FlashOp.write eos
             (make_header g n data.length ++ data.take (g.WORD_SIZE - HEADER_SIZE)),
           FlashOp.write (eos + g.WORD_SIZE) (data.drop (g.WORD_SIZE - HEADER_SIZE))] ∧
        (make_header g n data.length ++
          data.take (g.WORD_SIZE - HEADER_SIZE)).length = g.WORD_SIZE) := by
  have hmh : (make_header g n data.length).length = 4 := rfl
  constructor
  · intro hfits
    have heq : appendRecord g dev eos n data =
        some (dev.write eos (make_header g n data.length ++ data ++
          List.replicate (g.WORD_SIZE - HEADER_SIZE - data.length) 0), Except.ok ()) := by
      unfold appendRecord
      rw [if_neg (by omega), if_pos hws, if_neg (by omega)]
    refine ⟨_, heq, rfl, ?_⟩
    simp only [List.length_append, hmh, List.length_replicate]
    simp only [HEADER_SIZE] at hfits hws ⊢
    omega
  · intro hbig
    have heq : appendRecord g dev eos n data =
        some ((dev.write eos (make_header g n data.length ++
            data.take (g.WORD_SIZE - HEADER_SIZE))).write (eos + g.WORD_SIZE)
            (data.drop (g.WORD_SIZE - HEADER_SIZE)), Except.ok ()) := by
      unfold appendRecord
      rw [if_neg (by omega), if_pos hws, if_pos (by omega)]
    refine ⟨_, heq, ?_, ?_⟩
    · simp [FlashDev.write, List.append_assoc]
    · simp only [List.length_append, hmh, List.length_take]
      simp only [HEADER_SIZE] at hbig hws ⊢
      omega

theorem appender_write_policy_witness :
    ∃ dev', appendRecord ⟨1024, 128, 16, 0xFF⟩ ⟨List.replicate 1024 255, []⟩ 0 1 [85] =
        some (dev', Except.ok ()) ∧
      dev'.log = ([] : List FlashOp) ++ [FlashOp.write 0
        (make_header ⟨1024, 128, 16, 0xFF⟩ 1 ([85] : List Nat).length ++ [85] ++
          List.replicate (16 - HEADER_SIZE - ([85] : List Nat).length) 0)] ∧
      (make_header ⟨1024, 128, 16, 0xFF⟩ 1 ([85] : List Nat).length ++ [85] ++
        List.replicate (16 - HEADER_SIZE - ([85] : List Nat).length) 0).length = 16 :=
  (appender_write_policy ⟨1024, 128, 16, 0xFF⟩ ⟨List.replicate 1024 255, []⟩ 0 1 [85]
    (by decide) (by decide)).1 (by decide)

/-! ## The compactor's cursor invariant -/

theorem compactInner_cursor (g : Geom) (pb : List Nat) (page : Nat)
    (fi : Nat → Option Nat) (ex : Nat) :
    ∀ (fuel : Nat) (dev : FlashDev) (rp wp rem : Nat) (dev' : FlashDev)
      (rp' wp' rem' : Nat),
      compactInner g pb page fi ex fuel dev rp wp rem = some (dev', rp', wp', rem') →
      page + g.PAGE_SIZE ≤ g.SIZE →
      wp + rem ≤ rp →
      wp' + rem' ≤ rp' ∧ wp ≤ wp' ∧ rp ≤ rp' ∧
        ∃ ops, dev'.log = dev.log ++ ops ∧
          ∀ a bs, FlashOp.write a bs ∈ ops → wp ≤ a ∧ a + bs.length ≤ wp' := by
  intro fuel
  induction fuel with
  | zero =>
    intro dev rp wp rem dev' rp' wp' rem' heq _ _
    simp [compactInner] at heq
  | succ f ih =>
    intro dev rp wp rem dev' rp' wp' rem' heq hpage hinv
    simp only [compactInner] at heq
    split at heq
    · rename_i hlt
      split at heq
      · exact absurd heq (by simp)
      · rename_i hrem0
        have hrem : rem = 0 := by simpa using hrem0
        split at heq
        · simp only [Option.some.injEq, Prod.mk.injEq] at heq
          obtain ⟨rfl, rfl, rfl, rfl⟩ := heq
          exact ⟨by omega, le_rfl, by omega, [], by simp, by simp⟩
        · set nr := parse_header g (List.take HEADER_SIZE (List.drop (rp - page) pb)) with hnr
          set es := g.round (HEADER_SIZE + nr.2) with hes
          set rpl := (List.drop (rp - page) pb).length with hrpl
          set X := es ⊓ rpl with hX
          have hmin1 : X ≤ es := inf_le_left
          have hmin2 : X ≤ rpl := inf_le_right
          split at heq
          · obtain ⟨ha, hb, hc, ops, hlog, hops⟩ :=
              ih _ _ _ _ _ _ _ _ heq hpage (by omega)
            exact ⟨ha, hb, by omega, ops, hlog, hops⟩
          · obtain ⟨ha, hb, hc, ops, hlog, hops⟩ :=
              ih _ _ _ _ _ _ _ _ heq hpage (by omega)
            refine ⟨ha, by omega, by omega,
              FlashOp.write wp (List.take X (List.drop (rp - page) pb)) :: ops, ?_, ?_⟩
            · rw [hlog]
              simp [FlashDev.write]
            · intro a bs hmem
              rcases List.mem_cons.mp hmem with hop | hmem2
              · obtain ⟨rfl, rfl⟩ := FlashOp.write.inj hop
                refine ⟨le_rfl, ?_⟩
                rw [List.length_take, ← hrpl, min_eq_left hmin2]
                exact hb
              · obtain ⟨h1, h2⟩ := hops a bs hmem2
                exact ⟨by omega, h2⟩
    · simp only [Option.some.injEq, Prod.mk.injEq] at heq
      obtain ⟨rfl, rfl, rfl, rfl⟩ := heq
      exact ⟨hinv, le_rfl, le_rfl, [], by simp, by simp⟩

theorem compactPages_cursor (g : Geom) (fi : Nat → Option Nat) (ex : Nat) :
    ∀ (pages : List Nat) (dev : FlashDev) (rp wp rem : Nat) (dev' : FlashDev)
      (rp' wp' rem' : Nat),
      compactPages g fi ex pages dev rp wp rem = some (dev', rp', wp', rem') →
      (∀ page ∈ pages, page + g.PAGE_SIZE ≤ g.SIZE) →
      wp + rem ≤ rp →
      wp' + rem' ≤ rp' ∧ wp ≤ wp' ∧ rp ≤ rp' ∧
        ∃ ops, dev'.log = dev.log ++ ops ∧
          ∀ a bs, FlashOp.write a bs ∈ ops → wp ≤ a ∧ a + bs.length ≤ wp' := by
  intro pages
  induction pages with
  | nil =>
    intro dev rp wp rem dev' rp' wp' rem' heq _ hinv
    simp only [compactPages, Option.some.injEq, Prod.mk.injEq] at heq
    obtain ⟨rfl, rfl, rfl, rfl⟩ := heq
    exact ⟨hinv, le_rfl, le_rfl, [], by simp, by simp⟩
  | cons page rest ih =>
    intro dev rp wp rem dev' rp' wp' rem' heq hpages hinv
    have hpage : page + g.PAGE_SIZE ≤ g.SIZE := hpages page (List.mem_cons_self _ _)
    have hrest : ∀ q ∈ rest, q + g.PAGE_SIZE ≤ g.SIZE :=
      fun q hq => hpages q (List.mem_cons_of_mem _ hq)
    simp only [compactPages] at heq
    by_cases hr : 0 < rem
    · rw [if_pos hr] at heq
      dsimp only at heq
      split at heq
      · exact absurd heq (by simp)
      · rename_i x dev2 rp2 wp2 rem2 hci
        have hc : rem ⊓ g.PAGE_SIZE ≤ rem := inf_le_left
        obtain ⟨ha1, hb1, hc1, ops1, hlog1, hops1⟩ :=
          compactInner_cursor g _ page fi ex _ _ _ _ _ _ _ _ _ hci hpage (by omega)
        obtain ⟨ha2, hb2, hc2, ops2, hlog2, hops2⟩ :=
          ih _ _ _ _ _ _ _ _ heq hrest ha1
        refine ⟨ha2, by omega, by omega,
          FlashOp.erasePage page :: FlashOp.write wp
            ((flashReadBytes dev.data page g.PAGE_SIZE).take (rem ⊓ g.PAGE_SIZE)) ::
            (ops1 ++ ops2), ?_, ?_⟩
        · rw [hlog2, hlog1]
          simp [FlashDev.write, FlashDev.erasePage]
        · intro a bs hmem
          rcases List.mem_cons.mp hmem with hop | hmem2
          · exact absurd hop (by simp)
          · rcases List.mem_cons.mp hmem2 with hop | hmem3
            · obtain ⟨rfl, rfl⟩ := FlashOp.write.inj hop
              have htake : ((flashReadBytes dev.data page g.PAGE_SIZE).take
                  (rem ⊓ g.PAGE_SIZE)).length ≤ rem ⊓ g.PAGE_SIZE := by
                rw [List.length_take]
                exact min_le_left _ _
              exact ⟨le_rfl, by omega⟩
            · rcases List.mem_append.mp hmem3 with hmem4 | hmem4
              · obtain ⟨h1, h2⟩ := hops1 a bs hmem4
                exact ⟨by omega, by omega⟩
              · obtain ⟨h1, h2⟩ := hops2 a bs hmem4
                exact ⟨by omega, by omega⟩
    · rw [if_neg hr] at heq
      dsimp only at heq
      split at heq
      · exact absurd heq (by simp)
      · rename_i x dev2 rp2 wp2 rem2 hci
        obtain ⟨ha1, hb1, hc1, ops1, hlog1, hops1⟩ :=
          compactInner_cursor g _ page fi ex _ _ _ _ _ _ _ _ _ hci hpage hinv
        obtain ⟨ha2, hb2, hc2, ops2, hlog2, hops2⟩ :=
          ih _ _ _ _ _ _ _ _ heq hrest ha1
        refine ⟨ha2, by omega, by omega,
          FlashOp.erasePage page :: (ops1 ++ ops2), ?_, ?_⟩
        · rw [hlog2, hlog1]
          simp [FlashDev.erasePage]
        · intro a bs hmem
          rcases List.mem_cons.mp hmem with hop | hmem2
          · exact absurd hop (by simp)
          · rcases List.mem_append.mp hmem2 with hmem3 | hmem3
            · obtain ⟨h1, h2⟩ := hops1 a bs hmem3
              exact ⟨by omega, by omega⟩
            · obtain ⟨h1, h2⟩ := hops2 a bs hmem3
              exact ⟨by omega, by omega⟩

/-- C8: the compactor's cursor invariant.  Both compaction loops preserve
`write_pointer + remaining_bytes_to_copy ≤ read_pointer` — the recursive
calls are exactly the loop iterations, so the inequality (in particular
`write_pointer ≤ read_pointer`) holds at every iteration — and every write
either loop issues covers only `[wp, wp')`, a region at or below the final
read pointer; a kept record read at offset `read_pointer` is rewritten at
the then-current `write_pointer ≤ read_pointer`, so its new location is at
most its old one. -/
theorem compactor_cursor_invariant (g : Geom) (pb : List Nat) (page : Nat)
    (fi : Nat → Option Nat) (ex : Nat) (fuel : Nat) (dev : FlashDev)
    (rp wp rem : Nat) (dev' : FlashDev) (rp' wp' rem' : Nat) :
    (compactInner g pb page fi ex fuel dev rp wp rem = some (dev', rp', wp', rem') →
      page + g.PAGE_SIZE ≤ g.SIZE → wp + rem ≤ rp →
      wp' + rem' ≤ rp' ∧ wp' ≤ rp' ∧ wp ≤ wp' ∧ rp ≤ rp' ∧
        ∃ ops, dev'.log = dev.log ++ ops ∧
          ∀ a bs, FlashOp.write a bs ∈ ops →
            wp ≤ a ∧ a + bs.length ≤ wp' ∧ a + bs.length ≤ rp') ∧
    (∀ pages : List Nat,
      compactPages g fi ex pages dev rp wp rem = some (dev', rp', wp', rem') →
      (∀ q ∈ pages, q + g.PAGE_SIZE ≤ g.SIZE) → wp + rem ≤ rp →
      wp' + rem' ≤ rp' ∧ wp' ≤ rp' ∧ wp ≤ wp' ∧ rp ≤ rp' ∧
        ∃ ops, dev'.log = dev.log ++ ops ∧
          ∀ a bs, FlashOp.write a bs ∈ ops →
            wp ≤ a ∧ a + bs.length ≤ wp' ∧ a + bs.length ≤ rp') := by
  constructor
  · intro heq hpage hinv
    obtain ⟨ha, hb, hc, ops, hlog, hops⟩ :=
      compactInner_cursor g pb page fi ex fuel dev rp wp rem dev' rp' wp' rem' heq
        hpage hinv
    refine ⟨ha, by omega, hb, hc, ops, hlog, ?_⟩
    intro a bs hmem
    obtain ⟨h1, h2⟩ := hops a bs hmem
    exact ⟨h1, h2, by omega⟩
  · intro pages heq hpages hinv
    obtain ⟨ha, hb, hc, ops, hlog, hops⟩ :=
      compactPages_cursor g fi ex pages dev rp wp rem dev' rp' wp' rem' heq
        hpages hinv
    refine ⟨ha, by omega, hb, hc, ops, hlog, ?_⟩
    intro a bs hmem
    obtain ⟨h1, h2⟩ := hops a bs hmem
    exact ⟨h1, h2, by omega⟩

theorem compactor_cursor_invariant_witness :
    (0 : Nat) + 0 ≤ 16 ∧ (0 : Nat) ≤ 16 ∧ (0 : Nat) ≤ 0 ∧ (0 : Nat) ≤ 16 ∧
      ∃ ops, (⟨List.replicate 16 255, []⟩ : FlashDev).log =
          (⟨List.replicate 16 255, []⟩ : FlashDev).log ++ ops ∧
        ∀ a bs, FlashOp.write a bs ∈ ops →
          0 ≤ a ∧ a + bs.length ≤ 0 ∧ a + bs.length ≤ 16 :=
  (compactor_cursor_invariant ⟨16, 8, 4, 255⟩ (List.replicate 8 255) 0
    (fun _ => none) 0 9 ⟨List.replicate 16 255, []⟩ 0 0 0
    ⟨List.replicate 16 255, []⟩ 16 0 0).1 (by decide) (by decide) (by decide)

/-! ## Scanning a well-laid-out device -/

theorem laid_specScan (g : Geom) (data : List Nat) (hlen : data.length = g.SIZE) :
    ∀ {p : Nat} {recs : List FileRec}, Laid g data p recs →
      SpecScan g data p (toEntries g p recs) (scanEnd g p recs) := by
  intro p recs h
  have h4 : HEADER_SIZE = 4 := rfl
  induction h with
  | nil p hp herased =>
    rcases Nat.lt_or_ge p g.SIZE with hlt | hge
    · refine SpecScan.stop p hlt ?_
      unfold read_header
      apply parse_header_erased
      show byteAt (flashReadBytes data p HEADER_SIZE) 0 = g.ERASED_VALUE
      rw [byteAt_flashReadBytes data p HEADER_SIZE 0 (by omega), Nat.add_zero]
      exact herased p le_rfl hlt
    · exact SpecScan.edge p (le_antisymm hp hge)
  | cons p r rs hnum hlen2 hfit hhdr hpay hrest ih =>
    have hdr : read_header g data p = (r.num, r.payload.length) := by
      unfold read_header
      rw [hhdr]
      exact parse_make_header g r.num _ hlen2
    have e1 : toEntries g p (r :: rs) =
        (⟨p, (read_header g data p).1, (read_header g data p).2⟩ : Entry) ::
          toEntries g (p + g.round (HEADER_SIZE + (read_header g data p).2)) rs := by
      rw [hdr]
      rfl
    have e2 : scanEnd g p (r :: rs) =
        scanEnd g (p + g.round (HEADER_SIZE + (read_header g data p).2)) rs := by
      rw [hdr]
      rfl
    rw [e1, e2]
    refine SpecScan.cons p _ _ (by omega)
      (by rw [hdr]; show ¬r.num = 255; omega)
      (by rw [hdr]; show p + HEADER_SIZE + r.payload.length ≤ g.SIZE; exact hfit) ?_
    rw [hdr]
    exact ih

theorem specLastMatch_toEntries (g : Geom) (fn : Nat) :
    ∀ (recs : List FileRec) (p : Nat) (acc : Option (Nat × Nat)),
      (toEntries g p recs).foldl
          (fun a en => if en.num = fn then some (en.pos, en.size) else a) acc
        = scanFound g fn p recs acc := by
  intro recs
  induction recs with
  | nil => intro p acc; rfl
  | cons r rs ih =>
    intro p acc
    show (toEntries g (p + entrySize g r) rs).foldl _ _ = _
    rw [ih]
    rfl

theorem find_represents (g : Geom) {data : List Nat} {recs : List FileRec}
    (hrep : Represents g data recs) (fn : Option Nat) :
    find g data fn =
      some (Except.ok (findResultOf (scanFound g (fn.getD 255) 0 recs none)
        (scanEnd g 0 recs))) := by
  obtain ⟨hlen, hlaid⟩ := hrep
  have hfind := find_specScan g data (laid_specScan g data hlen hlaid) fn
  rw [hfind]
  unfold specLastMatch
  rw [specLastMatch_toEntries]

theorem scanFound_payload (g : Geom) (data : List Nat) (fn : Nat) :
    ∀ {p : Nat} {recs : List FileRec}, Laid g data p recs →
    ∀ (acc : Option (Nat × Nat)) (macc : Option (List Nat)),
      ((acc = none ∧ macc = none) ∨
        (∃ q s pl, acc = some (q, s) ∧ macc = some pl ∧ pl.length = s ∧
          flashReadBytes data (q + HEADER_SIZE) s = pl)) →
      ((scanFound g fn p recs acc = none ∧
          recs.foldl (fun m r => if r.num = fn then some r.payload else m) macc = none) ∨
        (∃ q s pl, scanFound g fn p recs acc = some (q, s) ∧
          recs.foldl (fun m r => if r.num = fn then some r.payload else m) macc = some pl ∧
          pl.length = s ∧ flashReadBytes data (q + HEADER_SIZE) s = pl)) := by
  intro p recs h
  induction h with
  | nil p hp herased => intro acc macc hR; exact hR
  | cons p r rs hnum hlen2 hfit hhdr hpay hrest ih =>
    intro acc macc hR
    show (scanFound g fn (p + entrySize g r) rs _ = none ∧
        rs.foldl _ (if r.num = fn then some r.payload else macc) = none) ∨ _
    apply ih
    by_cases hr : r.num = fn
    · right
      exact ⟨p, r.payload.length, r.payload, by simp [hr], by simp [hr], rfl, hpay⟩
    · rw [if_neg hr, if_neg hr]
      exact hR

theorem read_file_represents (g : Geom) {data : List Nat} {recs : List FileRec}
    (hrep : Represents g data recs) (n : Nat) (hn : n ≠ 255) (bufLen : Nat) :
    read_file g data n bufLen =
      some (match latestPayload recs n with
        | none => Except.error FlashStoreError.NotFound
        | some pl =>
          if bufLen < pl.length then Except.error FlashStoreError.BufferTooSmall
          else Except.ok pl) := by
  have hfind := find_represents g hrep (some n)
  unfold read_file
  rw [if_neg hn, hfind]
  have hR := scanFound_payload g data n hrep.2 none none (Or.inl ⟨rfl, rfl⟩)
  rcases hR with ⟨h1, h2⟩ | ⟨q, s, pl, h1, h2, h3, h4⟩
  · simp only [Option.getD_some]
    rw [h1]
    unfold latestPayload
    rw [h2]
    rfl
  · simp only [Option.getD_some]
    rw [h1]
    unfold latestPayload
    rw [h2]
    show (if bufLen < s then some (Except.error FlashStoreError.BufferTooSmall)
        else some (Except.ok (flashReadBytes data (q + HEADER_SIZE) s))) =
      some (if bufLen < pl.length then Except.error FlashStoreError.BufferTooSmall
        else Except.ok pl)
    rw [h3]
    by_cases hb : bufLen < s
    · rw [if_pos hb, if_pos hb]
    · rw [if_neg hb, if_neg hb, h4]

theorem laid_nums (g : Geom) (data : List Nat) :
    ∀ {p : Nat} {recs : List FileRec}, Laid g data p recs →
      ∀ r ∈ recs, r.num ≤ 254 := by
  intro p recs h
  induction h with
  | nil _ _ _ => intro r hr; simp at hr
  | cons p r rs hnum _ _ _ _ _ ih =>
    intro q hq
    rcases List.mem_cons.mp hq with rfl | hq2
    · exact hnum
    · exact ih q hq2

theorem scanFound_none_of_nums (g : Geom) :
    ∀ (recs : List FileRec) (p : Nat), (∀ r ∈ recs, r.num ≤ 254) →
      scanFound g 255 p recs none = none := by
  intro recs
  induction recs with
  | nil => intro p _; rfl
  | cons r rs ih =>
    intro p hall
    show scanFound g 255 (p + entrySize g r) rs
      (if r.num = 255 then some (p, r.payload.length) else none) = none
    rw [if_neg (by have := hall r (List.mem_cons_self _ _); omega)]
    exact ih _ (fun q hq => hall q (List.mem_cons_of_mem _ hq))

theorem end_of_store_represents (g : Geom) {data : List Nat} {recs : List FileRec}
    (hrep : Represents g data recs) :
    end_of_store g data = some (Except.ok (scanEnd g 0 recs)) := by
  have hfind := find_represents g hrep none
  unfold end_of_store
  rw [hfind]
  show (match some (Except.ok (findResultOf (scanFound g 255 0 recs none)
      (scanEnd g 0 recs))) with
    | none => (none : Option (Except FlashStoreError Nat))
    | some (Except.error e) => some (Except.error e)
    | some (Except.ok (FindResult.NotFound position)) => some (Except.ok position)
    | some (Except.ok (FindResult.Found _ _)) => none) = _
  rw [scanFound_none_of_nums g recs 0 (laid_nums g data hrep.2)]
  rfl

theorem usedLoop_succ (g : Geom) (data : List Nat) (fuel pos : Nat) (sizes : Nat → Nat) :
    usedLoop g data (fuel + 1) pos sizes =
      if pos < g.SIZE then
        if (read_header g data pos).1 = 255 then some (Except.ok sizes)
        else if pos + HEADER_SIZE + (read_header g data pos).2 > g.SIZE then
          some (Except.error FlashStoreError.CorruptData)
        else
          usedLoop g data fuel (pos + g.round (HEADER_SIZE + (read_header g data pos).2))
            (Function.update sizes (read_header g data pos).1
              (g.round (HEADER_SIZE + (read_header g data pos).2)))
      else some (Except.ok sizes) := rfl

theorem indexLoop_succ (g : Geom) (data : List Nat) (fuel pos : Nat)
    (positions : Nat → Option Nat) :
    indexLoop g data (fuel + 1) pos positions =
      if pos < g.SIZE then
        if (read_header g data pos).1 = 255 then some (Except.ok positions)
        else if pos + HEADER_SIZE + (read_header g data pos).2 > g.SIZE then
          some (Except.error FlashStoreError.CorruptData)
        else
          indexLoop g data fuel (pos + g.round (HEADER_SIZE + (read_header g data pos).2))
            (Function.update positions (read_header g data pos).1 (some pos))
      else some (Except.ok positions) := rfl

theorem laid_read_header (g : Geom) (data : List Nat) {p : Nat} {r : FileRec}
    (hlen2 : r.payload.length ≤ 0xFFFFFF)
    (hhdr : flashReadBytes data p HEADER_SIZE = make_header g r.num r.payload.length) :
    read_header g data p = (r.num, r.payload.length) := by
  unfold read_header
  rw [hhdr]
  exact parse_make_header g r.num _ hlen2

theorem laid_read_header_erased (g : Geom) (data : List Nat) {p : Nat}
    (hlen : data.length = g.SIZE) (hlt : p < g.SIZE)
    (herased : ∀ i, p ≤ i → i < g.SIZE → byteAt data i = g.ERASED_VALUE) :
    (read_header g data p).1 = 255 := by
  unfold read_header
  apply parse_header_erased
  show byteAt (flashReadBytes data p HEADER_SIZE) 0 = g.ERASED_VALUE
  rw [byteAt_flashReadBytes data p HEADER_SIZE 0 (by unfold HEADER_SIZE; norm_num),
    Nat.add_zero]
  exact herased p le_rfl hlt

theorem usedLoop_laid (g : Geom) (data : List Nat) (hlen : data.length = g.SIZE) :
    ∀ {p : Nat} {recs : List FileRec}, Laid g data p recs →
      ∀ (fuel : Nat) (sizes : Nat → Nat), recs.length ≤ fuel →
        usedLoop g data (fuel + 1) p sizes =
          some (Except.ok (specSizes g p recs sizes)) := by
  intro p recs h
  induction h with
  | nil p hp herased =>
    intro fuel sizes _
    rw [usedLoop_succ]
    rcases Nat.lt_or_ge p g.SIZE with hlt | hge
    · rw [if_pos hlt, if_pos (laid_read_header_erased g data hlen hlt herased)]
      rfl
    · rw [if_neg (by omega)]
      rfl
  | cons p r rs hnum hlen2 hfit hhdr hpay hrest ih =>
    intro fuel sizes hfuel
    cases fuel with
    | zero => simp at hfuel
    | succ f =>
      have hdr := laid_read_header g data hlen2 hhdr
      rw [usedLoop_succ, if_pos (by have h4 : HEADER_SIZE = 4 := rfl; omega), hdr]
      rw [if_neg (by show ¬r.num = 255; omega), if_neg (by omega)]
      show usedLoop g data (f + 1) (p + entrySize g r) _ = _
      rw [ih f _ (by simpa using hfuel)]
      rfl

theorem indexLoop_laid (g : Geom) (data : List Nat) (hlen : data.length = g.SIZE) :
    ∀ {p : Nat} {recs : List FileRec}, Laid g data p recs →
      ∀ (fuel : Nat) (positions : Nat → Option Nat), recs.length ≤ fuel →
        indexLoop g data (fuel + 1) p positions =
          some (Except.ok (specIndex g p recs positions)) := by
  intro p recs h
  induction h with
  | nil p hp herased =>
    intro fuel positions _
    rw [indexLoop_succ]
    rcases Nat.lt_or_ge p g.SIZE with hlt | hge
    · rw [if_pos hlt, if_pos (laid_read_header_erased g data hlen hlt herased)]
      rfl
    · rw [if_neg (by omega)]
      rfl
  | cons p r rs hnum hlen2 hfit hhdr hpay hrest ih =>
    intro fuel positions hfuel
    cases fuel with
    | zero => simp at hfuel
    | succ f =>
      have hdr := laid_read_header g data hlen2 hhdr
      rw [indexLoop_succ, if_pos (by have h4 : HEADER_SIZE = 4 := rfl; omega), hdr]
      rw [if_neg (by show ¬r.num = 255; omega), if_neg (by omega)]
      show indexLoop g data (f + 1) (p + entrySize g r) _ = _
      rw [ih f _ (by simpa using hfuel)]
      rfl

theorem laid_length_le (g : Geom) (data : List Nat) :
    ∀ {p : Nat} {recs : List FileRec}, Laid g data p recs →
      p + recs.length ≤ g.SIZE := by
  intro p recs h
  induction h with
  | nil p hp _ => simpa using hp
  | cons p r rs _ _ hfit _ _ _ ih =>
    have h1 := g.slot_le_round (HEADER_SIZE + r.payload.length)
    have h2 := g.four_le_slot
    have h3 : entrySize g r = g.round (HEADER_SIZE + r.payload.length) := rfl
    simp only [List.length_cons]
    omega

theorem used_space_except_represents (g : Geom) {data : List Nat} {recs : List FileRec}
    (hrep : Represents g data recs) (fn : Option Nat) :
    used_space_except g data fn =
      some (Except.ok (arraySum (match fn with
        | some n => Function.update (specSizes g 0 recs (fun _ => 0)) n 0
        | none => specSizes g 0 recs (fun _ => 0)))) := by
  have hloop := usedLoop_laid g data hrep.1 hrep.2 g.SIZE (fun _ => 0)
    (by have := laid_length_le g data hrep.2; omega)
  unfold used_space_except
  rw [hloop]
  rcases fn with _ | n <;> rfl

theorem generate_file_index_represents (g : Geom) {data : List Nat}
    {recs : List FileRec} (hrep : Represents g data recs) :
    generate_file_index g data =
      some (Except.ok (specIndex g 0 recs (fun _ => none))) := by
  have hloop := indexLoop_laid g data hrep.1 hrep.2 g.SIZE (fun _ => none)
    (by have := laid_length_le g data hrep.2; omega)
  unfold generate_file_index
  rw [hloop]

/-! ## Bytes of list operations -/

theorem byteAt_take (l : List Nat) (n i : Nat) (h : i < n) :
    byteAt (l.take n) i = byteAt l i := by
  unfold byteAt
  rw [List.getD_eq_getElem?_getD, List.getD_eq_getElem?_getD, List.getElem?_take, if_pos h]

theorem byteAt_drop (l : List Nat) (a i : Nat) :
    byteAt (l.drop a) i = byteAt l (a + i) := by
  unfold byteAt
  rw [List.getD_eq_getElem?_getD, List.getD_eq_getElem?_getD, List.getElem?_drop]

theorem byteAt_append (l1 l2 : List Nat) (i : Nat) :
    byteAt (l1 ++ l2) i = if i < l1.length then byteAt l1 i else byteAt l2 (i - l1.length) := by
  unfold byteAt
  rw [List.getD_eq_getElem?_getD, List.getD_eq_getElem?_getD, List.getD_eq_getElem?_getD,
    List.getElem?_append]
  split <;> rfl

theorem length_make_header (g : Geom) (n s : Nat) : (make_header g n s).length = 4 := rfl

theorem slot_dvd_entrySize (g : Geom) (r : FileRec) : g.slot ∣ entrySize g r :=
  g.slot_dvd_round _

theorem four_le_entrySize (g : Geom) (r : FileRec) :
    HEADER_SIZE + r.payload.length ≤ entrySize g r :=
  g.le_round _

theorem scanEnd_dvd (g : Geom) :
    ∀ (recs : List FileRec) (p : Nat), g.slot ∣ p → g.slot ∣ scanEnd g p recs := by
  intro recs
  induction recs with
  | nil => intro p hp; exact hp
  | cons r rs ih =>
    intro p hp
    exact ih _ (Nat.dvd_add hp (slot_dvd_entrySize g r))

theorem scanEnd_mono (g : Geom) :
    ∀ (recs : List FileRec) (p : Nat), p ≤ scanEnd g p recs := by
  intro recs
  induction recs with
  | nil => intro p; exact le_rfl
  | cons r rs ih =>
    intro p
    exact le_trans (Nat.le_add_right _ _) (ih (p + entrySize g r))

theorem laid_scanEnd_le (g : Geom) (data : List Nat) :
    ∀ {p : Nat} {recs : List FileRec}, Laid g data p recs → scanEnd g p recs ≤ g.SIZE := by
  intro p recs h
  induction h with
  | nil p hp _ => exact hp
  | cons p r rs _ _ _ _ _ _ ih => exact ih

theorem appendRecord_bytes (g : Geom) (dev : FlashDev) (eos n : Nat) (buffer : List Nat)
    (hlen : buffer.length ≤ 0xFFFFFF) (hsize : dev.data.length = g.SIZE)
    (hfit : eos + HEADER_SIZE + buffer.length ≤ g.SIZE)
    (hentry : eos + g.round (HEADER_SIZE + buffer.length) ≤ g.SIZE) :
    ∃ dev', appendRecord g dev eos n buffer = some (dev', Except.ok ()) ∧
      dev'.data.length = g.SIZE ∧
      (∀ i, i < eos → byteAt dev'.data i = byteAt dev.data i) ∧
      flashReadBytes dev'.data eos HEADER_SIZE = make_header g n buffer.length ∧
      flashReadBytes dev'.data (eos + HEADER_SIZE) buffer.length = buffer ∧
      (∀ i, eos + g.round (HEADER_SIZE + buffer.length) ≤ i → i < g.SIZE →
        byteAt dev'.data i = byteAt dev.data i) ∧
      (∃ ops, dev'.log = dev.log ++ ops ∧ ∀ op ∈ ops, ∃ a bs, op = FlashOp.write a bs ∧
        (a = eos ∨ a = eos + g.WORD_SIZE ∨
          (a = eos + HEADER_SIZE ∧ g.WORD_SIZE ≤ HEADER_SIZE))) := by
  have h4 : HEADER_SIZE = 4 := rfl
  have hsl := g.slot_le_round (HEADER_SIZE + buffer.length)
  have hle := g.le_round (HEADER_SIZE + buffer.length)
  have h4s := g.four_le_slot
  by_cases hws : HEADER_SIZE < g.WORD_SIZE
  · have hslot : g.slot = g.WORD_SIZE := by
      unfold Geom.slot
      omega
    by_cases hbig : g.WORD_SIZE < buffer.length + HEADER_SIZE
    · -- two writes: word buffer then the payload tail
      have heq : appendRecord g dev eos n buffer =
          some ((dev.write eos (make_header g n buffer.length ++
              buffer.take (g.WORD_SIZE - HEADER_SIZE))).write (eos + g.WORD_SIZE)
              (buffer.drop (g.WORD_SIZE - HEADER_SIZE)), Except.ok ()) := by
        unfold appendRecord
        rw [if_neg (by omega), if_pos hws, if_pos hbig]
      have hwb1 : (make_header g n buffer.length ++
          buffer.take (g.WORD_SIZE - HEADER_SIZE)).length = g.WORD_SIZE := by
        simp only [List.length_append, length_make_header, List.length_take]
        omega
      have htl : (buffer.drop (g.WORD_SIZE - HEADER_SIZE)).length
          = buffer.length - (g.WORD_SIZE - HEADER_SIZE) := by
        simp only [List.length_drop]
      have hin1 : eos + (make_header g n buffer.length ++
          buffer.take (g.WORD_SIZE - HEADER_SIZE)).length ≤ dev.data.length := by
        rw [hwb1, hsize]
        omega
      have hlen1 : (storeBytes dev.data eos (make_header g n buffer.length ++
          buffer.take (g.WORD_SIZE - HEADER_SIZE))).length = g.SIZE := by
        rw [length_storeBytes _ _ _ hin1, hsize]
      have hin2 : (eos + g.WORD_SIZE) + (buffer.drop (g.WORD_SIZE - HEADER_SIZE)).length
          ≤ (storeBytes dev.data eos (make_header g n buffer.length ++
            buffer.take (g.WORD_SIZE - HEADER_SIZE))).length := by
        rw [hlen1, htl]
        omega
      refine ⟨_, heq, ?_, ?_, ?_, ?_, ?_, ?_⟩
      all_goals try simp only [FlashDev.write]
      · show (storeBytes _ _ _).length = g.SIZE
        rw [length_storeBytes _ _ _ hin2, hlen1]
      · intro i hi
        show byteAt (storeBytes _ (eos + g.WORD_SIZE) _) i = _
        rw [byteAt_storeBytes_lt _ _ _ _ hin2 (by omega),
          byteAt_storeBytes_lt _ _ _ _ hin1 hi]
      · apply list_ext_byteAt
        · rw [length_flashReadBytes_of_le, length_make_header]
          · omega
          · rw [length_storeBytes _ _ _ hin2, hlen1]
            omega
        · intro i hi
          rw [length_flashReadBytes_of_le] at hi
          swap
          · rw [length_storeBytes _ _ _ hin2, hlen1]; omega
          rw [byteAt_flashReadBytes _ _ _ _ hi,
            byteAt_storeBytes_lt _ _ _ _ hin2 (by omega),
            byteAt_storeBytes_mid _ _ _ _ hin1 (by omega) (by rw [hwb1]; omega),
            byteAt_append]
          rw [length_make_header]
          rw [if_pos (by omega)]
          congr 1
          omega
      · apply list_ext_byteAt
        · rw [length_flashReadBytes_of_le]
          rw [length_storeBytes _ _ _ hin2, hlen1]
          omega
        · intro j hj
          rw [length_flashReadBytes_of_le] at hj
          swap
          · rw [length_storeBytes _ _ _ hin2, hlen1]; omega
          rw [byteAt_flashReadBytes _ _ _ _ hj]
          by_cases hcross : HEADER_SIZE + j < g.WORD_SIZE
          · rw [byteAt_storeBytes_lt _ _ _ _ hin2 (by omega),
              byteAt_storeBytes_mid _ _ _ _ hin1 (by omega) (by rw [hwb1]; omega),
              byteAt_append, length_make_header, if_neg (by omega), byteAt_take]
            · congr 1
              omega
            · omega
          · rw [byteAt_storeBytes_mid _ _ _ _ hin2 (by omega) (by rw [htl]; omega),
              byteAt_drop]
            congr 1
            omega
      · intro i hge hi
        show byteAt (storeBytes _ (eos + g.WORD_SIZE) _) i = _
        rw [byteAt_storeBytes_ge _ _ _ _ hin2 (by rw [htl]; omega),
          byteAt_storeBytes_ge _ _ _ _ hin1 (by rw [hwb1]; omega)]
      · refine ⟨[FlashOp.write eos (make_header g n buffer.length ++
            buffer.take (g.WORD_SIZE - HEADER_SIZE)),
          FlashOp.write (eos + g.WORD_SIZE) (buffer.drop (g.WORD_SIZE - HEADER_SIZE))],
          ?_, ?_⟩
        · rw [List.append_assoc]
          rfl
        · intro op hop
          rcases List.mem_cons.mp hop with rfl | hop2
          · exact ⟨eos, _, rfl, Or.inl rfl⟩
          · rcases List.mem_cons.mp hop2 with rfl | hop3
            · exact ⟨eos + g.WORD_SIZE, _, rfl, Or.inr (Or.inl rfl)⟩
            · simp at hop3
    · -- single word-sized write
      have heq : appendRecord g dev eos n buffer =
          some (dev.write eos (make_header g n buffer.length ++ buffer ++
            List.replicate (g.WORD_SIZE - HEADER_SIZE - buffer.length) 0), Except.ok ()) := by
        unfold appendRecord
        rw [if_neg (by omega), if_pos hws, if_neg hbig]
      have hwb : (make_header g n buffer.length ++ buffer ++
          List.replicate (g.WORD_SIZE - HEADER_SIZE - buffer.length) 0).length
          = g.WORD_SIZE := by
        simp only [List.length_append, length_make_header, List.length_replicate]
        omega
      have hin1 : eos + (make_header g n buffer.length ++ buffer ++
          List.replicate (g.WORD_SIZE - HEADER_SIZE - buffer.length) 0).length
          ≤ dev.data.length := by
        rw [hwb, hsize]
        omega
      refine ⟨_, heq, ?_, ?_, ?_, ?_, ?_, ?_⟩
      all_goals try simp only [FlashDev.write]
      · show (storeBytes _ _ _).length = g.SIZE
        rw [length_storeBytes _ _ _ hin1, hsize]
      · intro i hi
        exact byteAt_storeBytes_lt _ _ _ _ hin1 hi
      · apply list_ext_byteAt
        · rw [length_flashReadBytes_of_le, length_make_header]
          · omega
          · rw [length_storeBytes _ _ _ hin1, hsize]
            omega
        · intro i hi
          rw [length_flashReadBytes_of_le] at hi
          swap
          · rw [length_storeBytes _ _ _ hin1, hsize]; omega
          rw [byteAt_flashReadBytes _ _ _ _ hi,
            byteAt_storeBytes_mid _ _ _ _ hin1 (by omega) (by rw [hwb]; omega),
            byteAt_append, byteAt_append]
          simp only [List.length_append, length_make_header]
          rw [if_pos (by omega), if_pos (by omega)]
          congr 1
          omega
      · apply list_ext_byteAt
        · rw [length_flashReadBytes_of_le]
          rw [length_storeBytes _ _ _ hin1, hsize]
          omega
        · intro j hj
          rw [length_flashReadBytes_of_le] at hj
          swap
          · rw [length_storeBytes _ _ _ hin1, hsize]; omega
          rw [byteAt_flashReadBytes _ _ _ _ hj,
            byteAt_storeBytes_mid _ _ _ _ hin1 (by omega) (by rw [hwb]; omega),
            byteAt_append]
          simp only [List.length_append, length_make_header]
          rw [if_pos (by omega), byteAt_append, length_make_header, if_neg (by omega)]
          congr 1
          omega
      · intro i hge hi
        rw [byteAt_storeBytes_ge _ _ _ _ hin1 (by rw [hwb]; omega)]
      · refine ⟨[FlashOp.write eos _], rfl, ?_⟩
        intro op hop
        rcases List.mem_cons.mp hop with rfl | hop2
        · exact ⟨eos, _, rfl, Or.inl rfl⟩
        · simp at hop2
  · -- WORD_SIZE ≤ HEADER_SIZE: header write then payload write
    have heq : appendRecord g dev eos n buffer =
        some ((dev.write eos (make_header g n buffer.length)).write
          (eos + (make_header g n buffer.length).length) buffer, Except.ok ()) := by
      unfold appendRecord
      rw [if_neg (by omega), if_neg hws]
    have hin1 : eos + (make_header g n buffer.length).length ≤ dev.data.length := by
      rw [length_make_header, hsize]
      omega
    have hlen1 : (storeBytes dev.data eos (make_header g n buffer.length)).length
        = g.SIZE := by
      rw [length_storeBytes _ _ _ hin1, hsize]
    have hin2 : (eos + (make_header g n buffer.length).length) + buffer.length
        ≤ (storeBytes dev.data eos (make_header g n buffer.length)).length := by
      rw [hlen1, length_make_header]
      omega
    refine ⟨_, heq, ?_, ?_, ?_, ?_, ?_, ?_⟩
    all_goals try simp only [FlashDev.write]
    · show (storeBytes _ _ _).length = g.SIZE
      rw [length_storeBytes _ _ _ hin2, hlen1]
    · intro i hi
      show byteAt (storeBytes _ _ _) i = _
      rw [byteAt_storeBytes_lt _ _ _ _ hin2 (by rw [length_make_header]; omega),
        byteAt_storeBytes_lt _ _ _ _ hin1 hi]
    · apply list_ext_byteAt
      · rw [length_flashReadBytes_of_le, length_make_header]
        · omega
        · rw [length_storeBytes _ _ _ hin2, hlen1]
          omega
      · intro i hi
        rw [length_flashReadBytes_of_le] at hi
        swap
        · rw [length_storeBytes _ _ _ hin2, hlen1]; omega
        rw [byteAt_flashReadBytes _ _ _ _ hi,
          byteAt_storeBytes_lt _ _ _ _ hin2 (by rw [length_make_header]; omega),
          byteAt_storeBytes_mid _ _ _ _ hin1 (by omega)
            (by rw [length_make_header]; omega)]
        congr 1
        omega
    · apply list_ext_byteAt
      · rw [length_flashReadBytes_of_le]
        rw [length_storeBytes _ _ _ hin2, hlen1]
        omega
      · intro j hj
        rw [length_flashReadBytes_of_le] at hj
        swap
        · rw [length_storeBytes _ _ _ hin2, hlen1]; omega
        rw [byteAt_flashReadBytes _ _ _ _ hj,
          byteAt_storeBytes_mid _ _ _ _ hin2 (by rw [length_make_header]; omega)
            (by rw [length_make_header]; omega)]
        congr 1
        rw [length_make_header]
        omega
    · intro i hge hi
      show byteAt (storeBytes _ _ _) i = _
      rw [byteAt_storeBytes_ge _ _ _ _ hin2 (by rw [length_make_header]; omega),
        byteAt_storeBytes_ge _ _ _ _ hin1 (by rw [length_make_header]; omega)]
    · refine ⟨[FlashOp.write eos (make_header g n buffer.length),
          FlashOp.write (eos + HEADER_SIZE) buffer], ?_, ?_⟩
      · rw [List.append_assoc]
        rfl
      · intro op hop
        rcases List.mem_cons.mp hop with rfl | hop2
        · exact ⟨eos, _, rfl, Or.inl rfl⟩
        · rcases List.mem_cons.mp hop2 with rfl | hop3
          · exact ⟨eos + HEADER_SIZE, _, rfl, Or.inr (Or.inr ⟨rfl, by omega⟩)⟩
          · simp at hop3

theorem ValidGeom.word_dvd_slot {g : Geom} (hg : ValidGeom g) : g.WORD_SIZE ∣ g.slot :=
  Nat.dvd_of_mod_eq_zero hg.1

theorem ValidGeom.slot_dvd_page {g : Geom} (hg : ValidGeom g) : g.slot ∣ g.PAGE_SIZE :=
  Nat.dvd_of_mod_eq_zero hg.2.2.1

theorem ValidGeom.page_dvd_size {g : Geom} (hg : ValidGeom g) : g.PAGE_SIZE ∣ g.SIZE :=
  Nat.dvd_of_mod_eq_zero hg.2.2.2.1

theorem ValidGeom.slot_dvd_size {g : Geom} (hg : ValidGeom g) : g.slot ∣ g.SIZE :=
  dvd_trans hg.slot_dvd_page hg.page_dvd_size

theorem mod_eq_zero_of_dvd {d a : Nat} (h : d ∣ a) : a % d = 0 := by
  obtain ⟨k, rfl⟩ := h
  exact Nat.mul_mod_right d k

theorem flashReadBytes_congr (data data' : List Nat) (a n : Nat)
    (hd : a + n ≤ data.length) (hd' : a + n ≤ data'.length)
    (hagree : ∀ i, a ≤ i → i < a + n → byteAt data' i = byteAt data i) :
    flashReadBytes data' a n = flashReadBytes data a n := by
  apply list_ext_byteAt
  · rw [length_flashReadBytes_of_le _ _ _ hd', length_flashReadBytes_of_le _ _ _ hd]
  · intro i hi
    rw [length_flashReadBytes_of_le _ _ _ hd'] at hi
    rw [byteAt_flashReadBytes _ _ _ _ hi, byteAt_flashReadBytes _ _ _ _ hi]
    exact hagree _ (by omega) (by omega)

theorem scanEnd_append (g : Geom) :
    ∀ (l1 l2 : List FileRec) (p : Nat),
      scanEnd g p (l1 ++ l2) = scanEnd g (scanEnd g p l1) l2 := by
  intro l1
  induction l1 with
  | nil => intro l2 p; rfl
  | cons r rs ih => intro l2 p; exact ih l2 (p + entrySize g r)

theorem laid_erased_tail (g : Geom) (data : List Nat) :
    ∀ {p : Nat} {recs : List FileRec}, Laid g data p recs →
      ∀ i, scanEnd g p recs ≤ i → i < g.SIZE → byteAt data i = g.ERASED_VALUE := by
  intro p recs h
  induction h with
  | nil p hp herased => exact herased
  | cons p r rs _ _ _ _ _ _ ih => exact ih

theorem laid_snoc (g : Geom) (data data' : List Nat)
    (hlen : data.length = g.SIZE) (hlen' : data'.length = g.SIZE) :
    ∀ {p : Nat} {recs : List FileRec}, Laid g data p recs →
      (∀ i, p ≤ i → i < scanEnd g p recs → byteAt data' i = byteAt data i) →
      ∀ {r : FileRec}, Laid g data' (scanEnd g p recs) [r] →
      Laid g data' p (recs ++ [r]) := by
  intro p recs h
  induction h with
  | nil p hp herased =>
    intro _ r hnew
    exact hnew
  | cons p r0 rs hnum hlen2 hfit hhdr hpay hrest ih =>
    intro hagree r hnew
    have h4 : HEADER_SIZE = 4 := rfl
    have hes : HEADER_SIZE + r0.payload.length ≤ entrySize g r0 := four_le_entrySize g r0
    have hmono := scanEnd_mono g rs (p + entrySize g r0)
    have hse : scanEnd g p (r0 :: rs) = scanEnd g (p + entrySize g r0) rs := rfl
    refine Laid.cons p r0 (rs ++ [r]) hnum hlen2 hfit ?_ ?_ (ih ?_ hnew)
    · rw [flashReadBytes_congr data data' p HEADER_SIZE (by omega) (by omega)
        (fun i h1 h2 => hagree i h1 (by omega))]
      exact hhdr
    · rw [flashReadBytes_congr data data' (p + HEADER_SIZE) r0.payload.length
        (by omega) (by omega)
        (fun i h1 h2 => hagree i (by omega) (by omega))]
      exact hpay
    · intro i h1 h2
      refine hagree i (by omega) ?_
      rw [hse]
      exact h2

theorem append_represents (g : Geom) (hg : ValidGeom g) (dev : FlashDev)
    {recs : List FileRec} (hrep : Represents g dev.data recs)
    (n : Nat) (hn : n ≤ 254) (buffer : List Nat) (hlen : buffer.length ≤ 0xFFFFFF)
    (hfit : scanEnd g 0 recs + HEADER_SIZE + buffer.length ≤ g.SIZE) :
    ∃ dev', appendRecord g dev (scanEnd g 0 recs) n buffer = some (dev', Except.ok ()) ∧
      Represents g dev'.data (recs ++ [⟨n, buffer⟩]) ∧
      (∃ ops, dev'.log = dev.log ++ ops ∧ ops.all (alignedOp g) = true) := by
  have h4 : HEADER_SIZE = 4 := rfl
  have hdvd_eos : g.slot ∣ scanEnd g 0 recs := scanEnd_dvd g recs 0 (dvd_zero _)
  have hdvd_size := hg.slot_dvd_size
  have hdvd_sub : g.slot ∣ (g.SIZE - scanEnd g 0 recs) := Nat.dvd_sub' hdvd_size hdvd_eos
  have hentry : scanEnd g 0 recs + g.round (HEADER_SIZE + buffer.length) ≤ g.SIZE := by
    have hr := @Geom.round_le g (HEADER_SIZE + buffer.length)
      (g.SIZE - scanEnd g 0 recs) (by omega) (by omega) hdvd_sub
    omega
  obtain ⟨dev', heq, hsz, hlow, hhdr, hpay, hhigh, ops, hlog, hops⟩ :=
    appendRecord_bytes g dev (scanEnd g 0 recs) n buffer hlen hrep.1 hfit hentry
  have hnewrec : Laid g dev'.data (scanEnd g 0 recs) [⟨n, buffer⟩] := by
    refine Laid.cons _ ⟨n, buffer⟩ [] hn hlen hfit hhdr hpay ?_
    refine Laid.nil _ (by exact hentry) ?_
    intro i h1 h2
    rw [hhigh i h1 h2]
    exact laid_erased_tail g dev.data hrep.2 i
      (le_trans (by have := g.le_round (HEADER_SIZE + buffer.length); omega) h1) h2
  refine ⟨dev', heq, ⟨hsz, ?_⟩, ops, hlog, ?_⟩
  · exact laid_snoc g dev.data dev'.data hrep.1 hsz hrep.2
      (fun i _ h2 => hlow i h2) hnewrec
  · rw [List.all_eq_true]
    intro op hop
    obtain ⟨a, bs, rfl, hcase⟩ := hops op hop
    show (a % g.WORD_SIZE == 0) = true
    rw [Nat.beq_eq_true_eq]
    apply mod_eq_zero_of_dvd
    have hwe : g.WORD_SIZE ∣ scanEnd g 0 recs := dvd_trans hg.word_dvd_slot hdvd_eos
    rcases hcase with rfl | rfl | ⟨rfl, hws⟩
    · exact hwe
    · exact Nat.dvd_add hwe dvd_rfl
    · refine Nat.dvd_add hwe ?_
      have hslot4 : g.slot = HEADER_SIZE := by
        unfold Geom.slot
        omega
      exact hslot4 ▸ hg.word_dvd_slot

/-! ## List accounting: deduplication, sums, payload lookups -/

theorem scanEnd_eq_sum (g : Geom) :
    ∀ (recs : List FileRec) (p : Nat),
      scanEnd g p recs = p + (recs.map (entrySize g)).sum := by
  intro recs
  induction recs with
  | nil => intro p; simp [scanEnd]
  | cons r rs ih =>
    intro p
    show scanEnd g (p + entrySize g r) rs = _
    rw [ih]
    simp only [List.map_cons, List.sum_cons]
    omega

theorem dedupLatest_sublist (ex : Nat) :
    ∀ recs : List FileRec, List.Sublist (dedupLatest ex recs) recs := by
  intro recs
  induction recs with
  | nil => exact List.Sublist.refl _
  | cons r rs ih =>
    show List.Sublist (if r.num = ex ∨ rs.any (fun q => q.num == r.num) = true
      then dedupLatest ex rs else r :: dedupLatest ex rs) (r :: rs)
    split
    · exact List.Sublist.cons _ ih
    · exact List.Sublist.cons₂ _ ih

theorem dedupLatest_mem {ex : Nat} {recs : List FileRec} {r : FileRec}
    (h : r ∈ dedupLatest ex recs) : r ∈ recs :=
  (dedupLatest_sublist ex recs).mem h

theorem dedupLatest_cons_skip {ex : Nat} {r : FileRec} {rs : List FileRec}
    (h : r.num = ex ∨ rs.any (fun q => q.num == r.num) = true) :
    dedupLatest ex (r :: rs) = dedupLatest ex rs := by
  show (if r.num = ex ∨ rs.any (fun q => q.num == r.num) = true then dedupLatest ex rs
    else r :: dedupLatest ex rs) = dedupLatest ex rs
  rw [if_pos h]

theorem dedupLatest_cons_keep {ex : Nat} {r : FileRec} {rs : List FileRec}
    (h : ¬(r.num = ex ∨ rs.any (fun q => q.num == r.num) = true)) :
    dedupLatest ex (r :: rs) = r :: dedupLatest ex rs := by
  show (if r.num = ex ∨ rs.any (fun q => q.num == r.num) = true then dedupLatest ex rs
    else r :: dedupLatest ex rs) = r :: dedupLatest ex rs
  rw [if_neg h]

theorem any_num_iff (rs : List FileRec) (m : Nat) :
    rs.any (fun q => q.num == m) = true ↔ ∃ q ∈ rs, q.num = m := by
  rw [List.any_eq_true]
  simp only [beq_iff_eq]

theorem foldl_latest_skip (n : Nat) :
    ∀ (recs : List FileRec) (acc : Option (List Nat)),
      (∀ r ∈ recs, r.num ≠ n) →
      recs.foldl (fun m r => if r.num = n then some r.payload else m) acc = acc := by
  intro recs
  induction recs with
  | nil => intro acc _; rfl
  | cons r rs ih =>
    intro acc hall
    show rs.foldl _ (if r.num = n then some r.payload else acc) = acc
    rw [if_neg (hall r (List.mem_cons_self _ _))]
    exact ih acc (fun q hq => hall q (List.mem_cons_of_mem _ hq))

theorem foldl_latest_acc_irrel (n : Nat) :
    ∀ (recs : List FileRec) (acc acc' : Option (List Nat)),
      (∃ r ∈ recs, r.num = n) →
      recs.foldl (fun m r => if r.num = n then some r.payload else m) acc =
        recs.foldl (fun m r => if r.num = n then some r.payload else m) acc' := by
  intro recs
  induction recs with
  | nil => intro acc acc' h; simp at h
  | cons r rs ih =>
    intro acc acc' h
    show rs.foldl _ (if r.num = n then some r.payload else acc) =
      rs.foldl _ (if r.num = n then some r.payload else acc')
    by_cases hr : r.num = n
    · rw [if_pos hr]
      rw [if_pos hr]
    · rw [if_neg hr]
      rw [if_neg hr]
      obtain ⟨q, hq, hqn⟩ := h
      rcases List.mem_cons.mp hq with rfl | hq2
      · exact absurd hqn hr
      · exact ih acc acc' ⟨q, hq2, hqn⟩


theorem latestPayload_dedup (ex n : Nat) (hne : n ≠ ex) :
    ∀ recs : List FileRec,
      latestPayload (dedupLatest ex recs) n = latestPayload recs n := by
  intro recs
  induction recs with
  | nil => rfl
  | cons r rs ih =>
    by_cases hskip : r.num = ex ∨ rs.any (fun q => q.num == r.num) = true
    · rw [dedupLatest_cons_skip hskip]
      show latestPayload (dedupLatest ex rs) n =
        rs.foldl _ (if r.num = n then some r.payload else none)
      by_cases hr : r.num = n
      · have hany : ∃ q ∈ rs, q.num = n := by
          rcases hskip with hex | hany
          · exact absurd (hr ▸ hex) hne
          · obtain ⟨q, hq, he⟩ := (any_num_iff rs r.num).mp hany
            exact ⟨q, hq, hr ▸ he⟩
        rw [if_pos hr, foldl_latest_acc_irrel n rs (some r.payload) none hany]
        exact ih
      · rw [if_neg hr]
        exact ih
    · rw [dedupLatest_cons_keep hskip]
      push_neg at hskip
      obtain ⟨hex, hany⟩ := hskip
      have hnone : ∀ q ∈ rs, q.num ≠ r.num := by
        intro q hq hc
        exact absurd ((any_num_iff rs r.num).mpr ⟨q, hq, hc⟩) hany
      show (dedupLatest ex rs).foldl _ (if r.num = n then some r.payload else none) =
        rs.foldl _ (if r.num = n then some r.payload else none)
      by_cases hr : r.num = n
      · have hskip1 : ∀ q ∈ dedupLatest ex rs, q.num ≠ n :=
          fun q hq hc => hnone q (dedupLatest_mem hq) (hc.trans hr.symm)
        have hskip2 : ∀ q ∈ rs, q.num ≠ n :=
          fun q hq hc => hnone q hq (hc.trans hr.symm)
        rw [foldl_latest_skip n _ _ hskip1, foldl_latest_skip n _ _ hskip2]
      · rw [if_neg hr]
        exact ih

theorem dedupLatest_count (ex : Nat) :
    ∀ (recs : List FileRec) (n : Nat),
      ((dedupLatest ex recs).filter (fun r => r.num == n)).length ≤ 1 := by
  intro recs
  induction recs with
  | nil => intro n; simp [dedupLatest]
  | cons r rs ih =>
    intro n
    by_cases hskip : r.num = ex ∨ rs.any (fun q => q.num == r.num) = true
    · rw [dedupLatest_cons_skip hskip]
      exact ih n
    · rw [dedupLatest_cons_keep hskip]
      push_neg at hskip
      obtain ⟨hex, hany⟩ := hskip
      by_cases hr : r.num = n
      · have hnone : ∀ q ∈ dedupLatest ex rs, (q.num == n) = false := by
          intro q hq
          rw [beq_eq_false_iff_ne]
          intro hc
          exact absurd ((any_num_iff rs r.num).mpr
            ⟨q, dedupLatest_mem hq, hc.trans hr.symm⟩) hany
        rw [List.filter_cons_of_pos (by rw [hr]; exact beq_self_eq_true _)]
        have : (dedupLatest ex rs).filter (fun q => q.num == n) = [] :=
          List.filter_eq_nil_iff.mpr (fun q hq => by rw [hnone q hq]; simp)
        rw [this]
        simp
      · rw [List.filter_cons_of_neg (by simp only [beq_iff_eq]; exact hr)]
        exact ih n

theorem foldl_num_skip (f : FileRec → Nat) (m : Nat) :
    ∀ (recs : List FileRec) (a : Nat), (∀ q ∈ recs, q.num ≠ m) →
      recs.foldl (fun v r => if r.num = m then f r else v) a = a := by
  intro recs
  induction recs with
  | nil => intro a _; rfl
  | cons r rs ih =>
    intro a hall
    show rs.foldl _ (if r.num = m then f r else a) = a
    rw [if_neg (hall r (List.mem_cons_self _ _))]
    exact ih a (fun q hq => hall q (List.mem_cons_of_mem _ hq))

theorem foldl_num_acc_irrel (f : FileRec → Nat) (m : Nat) :
    ∀ (recs : List FileRec) (a a' : Nat), (∃ q ∈ recs, q.num = m) →
      recs.foldl (fun v r => if r.num = m then f r else v) a =
        recs.foldl (fun v r => if r.num = m then f r else v) a' := by
  intro recs
  induction recs with
  | nil => intro a a' h; simp at h
  | cons r rs ih =>
    intro a a' h
    show rs.foldl _ (if r.num = m then f r else a) =
      rs.foldl _ (if r.num = m then f r else a')
    by_cases hr : r.num = m
    · rw [if_pos hr]
      rw [if_pos hr]
    · rw [if_neg hr]
      rw [if_neg hr]
      obtain ⟨q, hq, hqn⟩ := h
      rcases List.mem_cons.mp hq with rfl | hq2
      · exact absurd hqn hr
      · exact ih a a' ⟨q, hq2, hqn⟩

theorem specSizes_apply (g : Geom) :
    ∀ (recs : List FileRec) (p : Nat) (sizes : Nat → Nat) (m : Nat),
      specSizes g p recs sizes m =
        recs.foldl (fun v r => if r.num = m then entrySize g r else v) (sizes m) := by
  intro recs
  induction recs with
  | nil => intro p sizes m; rfl
  | cons r rs ih =>
    intro p sizes m
    show specSizes g (p + entrySize g r) rs (Function.update sizes r.num (entrySize g r)) m
      = rs.foldl _ (if r.num = m then entrySize g r else sizes m)
    rw [ih]
    congr 1
    rw [Function.update_apply]
    by_cases hm : m = r.num
    · rw [if_pos hm, if_pos hm.symm]
    · rw [if_neg hm, if_neg (fun hc => hm hc.symm)]

theorem zeroNums_apply :
    ∀ (recs : List FileRec) (sizes : Nat → Nat) (m : Nat),
      zeroNums recs sizes m =
        recs.foldl (fun v r => if r.num = m then 0 else v) (sizes m) := by
  intro recs
  induction recs with
  | nil => intro sizes m; rfl
  | cons r rs ih =>
    intro sizes m
    show zeroNums rs (Function.update sizes r.num 0) m
      = rs.foldl _ (if r.num = m then 0 else sizes m)
    rw [ih]
    congr 1
    rw [Function.update_apply]
    by_cases hm : m = r.num
    · rw [if_pos hm, if_pos hm.symm]
    · rw [if_neg hm, if_neg (fun hc => hm hc.symm)]

theorem sum_map_update_zero :
    ∀ (l : List Nat), l.Nodup → ∀ m0 ∈ l, ∀ f : Nat → Nat,
      (l.map f).sum = f m0 + (l.map (Function.update f m0 0)).sum := by
  intro l
  induction l with
  | nil => intro _ m0 hm0; simp at hm0
  | cons a t ih =>
    intro hnd m0 hm0 f
    have hnd2 := List.nodup_cons.mp hnd
    rcases List.mem_cons.mp hm0 with rfl | hmem
    · simp only [List.map_cons, List.sum_cons, Function.update_same]
      have : t.map (Function.update f m0 0) = t.map f := by
        apply List.map_congr_left
        intro x hx
        exact Function.update_noteq (fun hc => hnd2.1 (by rw [← hc]; exact hx)) _ _
      rw [this]
      omega
    · simp only [List.map_cons, List.sum_cons]
      rw [ih hnd2.2 m0 hmem f,
        Function.update_noteq (fun hc => hnd2.1 (by rw [hc]; exact hmem)) _ _]
      omega

theorem arraySum_congr {f h : Nat → Nat} (he : ∀ m, m < 255 → f m = h m) :
    arraySum f = arraySum h := by
  unfold arraySum
  congr 1
  apply List.map_congr_left
  intro x hx
  exact he x (List.mem_range.mp hx)

theorem arraySum_extract (f : Nat → Nat) (m0 : Nat) (hm0 : m0 < 255) :
    arraySum f = f m0 + arraySum (Function.update f m0 0) :=
  sum_map_update_zero (List.range 255) (List.nodup_range 255) m0
    (List.mem_range.mpr hm0) f

theorem arraySum_specSizes (g : Geom) :
    ∀ (recs : List FileRec) (sizes : Nat → Nat) (ex p : Nat),
      (∀ r ∈ recs, r.num ≤ 254) →
      arraySum (Function.update (specSizes g p recs sizes) ex 0) =
        ((dedupLatest ex recs).map (entrySize g)).sum +
          arraySum (Function.update (zeroNums recs sizes) ex 0) := by
  intro recs
  induction recs with
  | nil =>
    intro sizes ex p _
    show arraySum (Function.update sizes ex 0) = 0 + arraySum (Function.update sizes ex 0)
    omega
  | cons r rs ih =>
    intro sizes ex p hall
    have hnum : r.num ≤ 254 := hall r (List.mem_cons_self _ _)
    have hall2 : ∀ q ∈ rs, q.num ≤ 254 := fun q hq => hall q (List.mem_cons_of_mem _ hq)
    show arraySum (Function.update
        (specSizes g (p + entrySize g r) rs (Function.update sizes r.num (entrySize g r)))
        ex 0) = _
    rw [ih (Function.update sizes r.num (entrySize g r)) ex (p + entrySize g r) hall2]
    by_cases hskip : r.num = ex ∨ rs.any (fun q => q.num == r.num) = true
    · rw [dedupLatest_cons_skip hskip]
      have harr : ∀ m, m < 255 →
          Function.update (zeroNums rs (Function.update sizes r.num (entrySize g r))) ex 0 m
            = Function.update (zeroNums (r :: rs) sizes) ex 0 m := by
        intro m _
        rw [Function.update_apply, Function.update_apply]
        by_cases hex : m = ex
        · rw [if_pos hex, if_pos hex]
        · rw [if_neg hex, if_neg hex]
          show zeroNums rs (Function.update sizes r.num (entrySize g r)) m
            = zeroNums rs (Function.update sizes r.num 0) m
          rw [zeroNums_apply, zeroNums_apply]
          by_cases hm : m = r.num
          · rcases hskip with hex2 | hany
            · exact absurd (hm.trans hex2) hex
            · obtain ⟨q, hq, he⟩ := (any_num_iff rs r.num).mp hany
              exact foldl_num_acc_irrel _ m rs _ _ ⟨q, hq, he.trans hm.symm⟩
          · rw [Function.update_noteq hm _ _, Function.update_noteq hm _ _]
      rw [arraySum_congr harr]
    · rw [dedupLatest_cons_keep hskip]
      push_neg at hskip
      obtain ⟨hex, hany⟩ := hskip
      have hnomem : ∀ q ∈ rs, q.num ≠ r.num := by
        intro q hq hc
        exact absurd ((any_num_iff rs r.num).mpr ⟨q, hq, hc⟩) hany
      have hA : Function.update (zeroNums rs (Function.update sizes r.num (entrySize g r)))
          ex 0 r.num = entrySize g r := by
        rw [Function.update_noteq hex _ _, zeroNums_apply,
          foldl_num_skip _ _ rs _ hnomem, Function.update_same]
      have hB : Function.update (zeroNums (r :: rs) sizes) ex 0 r.num = 0 := by
        show Function.update (zeroNums rs (Function.update sizes r.num 0)) ex 0 r.num = 0
        rw [Function.update_noteq hex _ _, zeroNums_apply,
          foldl_num_skip _ _ rs _ hnomem, Function.update_same]
      have hagree : ∀ m, m < 255 →
          Function.update (Function.update (zeroNums rs
            (Function.update sizes r.num (entrySize g r))) ex 0) r.num 0 m
          = Function.update (Function.update (zeroNums (r :: rs) sizes) ex 0) r.num 0 m := by
        intro m _
        show _ = Function.update (Function.update (zeroNums rs
          (Function.update sizes r.num 0)) ex 0) r.num 0 m
        by_cases hm : m = r.num
        · rw [hm, Function.update_same, Function.update_same]
        · rw [Function.update_noteq hm _ _, Function.update_noteq hm _ _,
            Function.update_apply, Function.update_apply]
          by_cases hmex : m = ex
          · rw [if_pos hmex, if_pos hmex]
          · rw [if_neg hmex, if_neg hmex]
            show zeroNums rs (Function.update sizes r.num (entrySize g r)) m
              = zeroNums rs (Function.update sizes r.num 0) m
            rw [zeroNums_apply, zeroNums_apply,
              Function.update_noteq hm _ _, Function.update_noteq hm _ _]
      rw [arraySum_extract _ r.num (by omega), hA,
        arraySum_extract (Function.update (zeroNums (r :: rs) sizes) ex 0) r.num (by omega),
        hB, List.map_cons, List.sum_cons, arraySum_congr hagree]
      omega

theorem specIndex_skip (g : Geom) :
    ∀ (recs : List FileRec) (p : Nat) (pos : Nat → Option Nat) (m : Nat),
      (∀ q ∈ recs, q.num ≠ m) → specIndex g p recs pos m = pos m := by
  intro recs
  induction recs with
  | nil => intro p pos m _; rfl
  | cons r rs ih =>
    intro p pos m hall
    show specIndex g (p + entrySize g r) rs (Function.update pos r.num (some p)) m = pos m
    rw [ih _ _ m (fun q hq => hall q (List.mem_cons_of_mem _ hq)),
      Function.update_noteq (fun hc => hall r (List.mem_cons_self _ _) hc.symm) _ _]

theorem specIndex_mem_ge (g : Geom) :
    ∀ (recs : List FileRec) (p : Nat) (pos : Nat → Option Nat) (m : Nat),
      (∃ q ∈ recs, q.num = m) →
      ∃ pp, p ≤ pp ∧ specIndex g p recs pos m = some pp := by
  intro recs
  induction recs with
  | nil => intro p pos m h; simp at h
  | cons r rs ih =>
    intro p pos m h
    show ∃ pp, p ≤ pp ∧
      specIndex g (p + entrySize g r) rs (Function.update pos r.num (some p)) m = some pp
    by_cases hrs : ∃ q ∈ rs, q.num = m
    · obtain ⟨pp, hle, heq⟩ := ih (p + entrySize g r) (Function.update pos r.num (some p)) m hrs
      exact ⟨pp, by omega, heq⟩
    · push_neg at hrs
      have hr : r.num = m := by
        obtain ⟨q, hq, hqm⟩ := h
        rcases List.mem_cons.mp hq with rfl | hq2
        · exact hqm
        · exact absurd hqm (hrs q hq2)
      refine ⟨p, le_rfl, ?_⟩
      rw [specIndex_skip g rs _ _ m hrs, ← hr, Function.update_same]

theorem specIndex_pos_step (g : Geom) (r : FileRec) (p : Nat) (pos : Nat → Option Nat)
    (hpos : ∀ m pp, pos m = some pp → pp < p) :
    ∀ m pp, Function.update pos r.num (some p) m = some pp → pp < p + entrySize g r := by
  intro m pp hm
  have hes : 0 < entrySize g r := g.round_pos _
  rw [Function.update_apply] at hm
  by_cases hmr : m = r.num
  · rw [if_pos hmr] at hm
    have := Option.some.inj hm
    omega
  · rw [if_neg hmr] at hm
    have := hpos m pp hm
    omega

theorem keptBytes_length (g : Geom) (data0 : List Nat) (hlen0 : data0.length = g.SIZE)
    (ex : Nat) :
    ∀ (recs : List FileRec) (p : Nat) (pos : Nat → Option Nat),
      (∀ m pp, pos m = some pp → pp < p) →
      Laid g data0 p recs →
      (keptBytes g data0 (specIndex g p recs pos) ex p recs).length =
        ((dedupLatest ex recs).map (entrySize g)).sum := by
  intro recs
  induction recs with
  | nil => intro p pos _ _; rfl
  | cons r rs ih =>
    intro p pos hpos hlaid
    cases hlaid with
    | cons _ _ _ hnum hlen hfit hhdr hpay hrest =>
    have hes : 0 < entrySize g r := g.round_pos _
    have hples : p + entrySize g r ≤ g.SIZE :=
      le_trans (scanEnd_mono g rs _) (laid_scanEnd_le g data0 hrest)
    have hpos' := specIndex_pos_step g r p pos hpos
    have hfi : specIndex g p (r :: rs) pos =
        specIndex g (p + entrySize g r) rs (Function.update pos r.num (some p)) := rfl
    by_cases hany : ∃ q ∈ rs, q.num = r.num
    · obtain ⟨pp, hle, hfieq⟩ :=
        specIndex_mem_ge g rs (p + entrySize g r) (Function.update pos r.num (some p))
          r.num hany
      have hne : specIndex g p (r :: rs) pos r.num ≠ some p := by
        rw [hfi, hfieq]
        intro hc
        have := Option.some.inj hc
        omega
      show (if specIndex g p (r :: rs) pos r.num ≠ some p ∨ r.num = ex
          then keptBytes g data0 (specIndex g p (r :: rs) pos) ex (p + entrySize g r) rs
          else flashReadBytes data0 p (entrySize g r) ++
            keptBytes g data0 (specIndex g p (r :: rs) pos) ex (p + entrySize g r) rs).length
        = _
      rw [if_pos (Or.inl hne), dedupLatest_cons_skip (Or.inr ((any_num_iff rs r.num).mpr hany)),
        hfi]
      exact ih (p + entrySize g r) _ hpos' hrest
    · have hfirnum : specIndex g p (r :: rs) pos r.num = some p := by
        rw [hfi, specIndex_skip g rs _ _ r.num (by push_neg at hany; exact hany),
          Function.update_same]
      show (if specIndex g p (r :: rs) pos r.num ≠ some p ∨ r.num = ex
          then keptBytes g data0 (specIndex g p (r :: rs) pos) ex (p + entrySize g r) rs
          else flashReadBytes data0 p (entrySize g r) ++
            keptBytes g data0 (specIndex g p (r :: rs) pos) ex (p + entrySize g r) rs).length
        = _
      by_cases hex : r.num = ex
      · rw [if_pos (Or.inr hex), dedupLatest_cons_skip (Or.inl hex), hfi]
        exact ih (p + entrySize g r) _ hpos' hrest
      · rw [if_neg (by
            push_neg
            refine ⟨?_, hex⟩
            rw [hfirnum]),
          dedupLatest_cons_keep (by
            push_neg
            exact ⟨hex, fun hc => hany ((any_num_iff rs r.num).mp hc)⟩),
          List.length_append, List.map_cons, List.sum_cons, hfi,
          ih (p + entrySize g r) _ hpos' hrest, length_flashReadBytes_of_le _ _ _ (by omega)]

theorem keptBytes_laid (g : Geom) (data0 : List Nat)
    (hlen0 : data0.length = g.SIZE) (ex : Nat) :
    ∀ (recs : List FileRec) (p : Nat) (pos : Nat → Option Nat)
      (data' : List Nat) (q : Nat),
      (∀ m pp, pos m = some pp → pp < p) →
      Laid g data0 p recs →
      data'.length = g.SIZE →
      q ≤ p →
      (∀ i, i < (keptBytes g data0 (specIndex g p recs pos) ex p recs).length →
        byteAt data' (q + i) = byteAt (keptBytes g data0 (specIndex g p recs pos) ex p recs) i) →
      (∀ i, q + (keptBytes g data0 (specIndex g p recs pos) ex p recs).length ≤ i →
        i < g.SIZE → byteAt data' i = g.ERASED_VALUE) →
      Laid g data' q (dedupLatest ex recs) := by
  intro recs
  induction recs with
  | nil =>
    intro p pos data' q _ hlaid hlen' hqp _ herased
    cases hlaid with
    | nil _ hp he =>
      have hkb0 : (keptBytes g data0 (specIndex g p ([] : List FileRec) pos) ex p []).length
          = 0 := rfl
      exact Laid.nil q (by omega) (fun i h1 h2 => herased i (by omega) h2)
  | cons r rs ih =>
    intro p pos data' q hpos hlaid hlen' hqp hbytes herased
    cases hlaid with
    | cons _ _ _ hnum hlen hfit hhdr hpay hrest =>
    have h4 : HEADER_SIZE = 4 := rfl
    have hes : 0 < entrySize g r := g.round_pos _
    have hes4 : HEADER_SIZE + r.payload.length ≤ entrySize g r := four_le_entrySize g r
    have hples : p + entrySize g r ≤ g.SIZE :=
      le_trans (scanEnd_mono g rs _) (laid_scanEnd_le g data0 hrest)
    have hpos' := specIndex_pos_step g r p pos hpos
    have hfi : specIndex g p (r :: rs) pos =
        specIndex g (p + entrySize g r) rs (Function.update pos r.num (some p)) := rfl
    have hunf : keptBytes g data0 (specIndex g p (r :: rs) pos) ex p (r :: rs) =
        if specIndex g p (r :: rs) pos r.num ≠ some p ∨ r.num = ex
        then keptBytes g data0 (specIndex g p (r :: rs) pos) ex (p + entrySize g r) rs
        else flashReadBytes data0 p (entrySize g r) ++
          keptBytes g data0 (specIndex g p (r :: rs) pos) ex (p + entrySize g r) rs := rfl
    by_cases hskip : specIndex g p (r :: rs) pos r.num ≠ some p ∨ r.num = ex
    · rw [hunf, if_pos hskip, hfi] at hbytes herased
      have hdskip : dedupLatest ex (r :: rs) = dedupLatest ex rs := by
        apply dedupLatest_cons_skip
        rcases hskip with hne | hex
        · right
          by_contra hnotany
          have hnoq : ∀ q ∈ rs, q.num ≠ r.num := by
            intro q hq hc
            exact hnotany ((any_num_iff rs r.num).mpr ⟨q, hq, hc⟩)
          exact hne (by
            rw [hfi, specIndex_skip g rs _ _ r.num hnoq, Function.update_same])
        · exact Or.inl hex
      rw [hdskip]
      exact ih (p + entrySize g r) _ data' q hpos' hrest hlen' (by omega) hbytes herased
    · push_neg at hskip
      obtain ⟨hfirnum, hex⟩ := hskip
      have hnoq : ∀ qr ∈ rs, qr.num ≠ r.num := by
        intro qr hq hc
        obtain ⟨pp, hle, hfieq⟩ :=
          specIndex_mem_ge g rs (p + entrySize g r) (Function.update pos r.num (some p))
            r.num ⟨qr, hq, hc⟩
        rw [hfi, hfieq] at hfirnum
        have := Option.some.inj hfirnum
        omega
      have hdkeep : dedupLatest ex (r :: rs) = r :: dedupLatest ex rs := by
        apply dedupLatest_cons_keep
        push_neg
        exact ⟨hex, fun hc => by
          obtain ⟨qr, hq, hqc⟩ := (any_num_iff rs r.num).mp hc
          exact hnoq qr hq hqc⟩
      rw [hunf, if_neg (by push_neg; exact ⟨hfirnum, hex⟩), hfi] at hbytes herased
      have hchunklen : (flashReadBytes data0 p (entrySize g r)).length = entrySize g r :=
        length_flashReadBytes_of_le _ _ _ (by omega)
      have hkb := List.length_append (flashReadBytes data0 p (entrySize g r))
        (keptBytes g data0
          (specIndex g (p + entrySize g r) rs (Function.update pos r.num (some p)))
          ex (p + entrySize g r) rs)
      have hchunkbyte : ∀ i, i < entrySize g r →
          byteAt data' (q + i) = byteAt data0 (p + i) := by
        intro i hi
        rw [hbytes i (by omega), byteAt_append, hchunklen, if_pos hi,
          byteAt_flashReadBytes data0 p (entrySize g r) i hi]
      rw [hdkeep]
      refine Laid.cons q r (dedupLatest ex rs) hnum hlen (by omega) ?_ ?_ ?_
      · apply list_ext_byteAt
        · rw [length_flashReadBytes_of_le _ _ _ (by omega), ← hhdr,
            length_flashReadBytes_of_le _ _ _ (by omega)]
        · intro i hi
          rw [length_flashReadBytes_of_le _ _ _ (by omega)] at hi
          rw [byteAt_flashReadBytes _ _ _ _ hi, ← hhdr,
            byteAt_flashReadBytes _ _ _ _ hi]
          exact hchunkbyte i (by omega)
      · apply list_ext_byteAt
        · rw [length_flashReadBytes_of_le _ _ _ (by omega), ← hpay,
            length_flashReadBytes_of_le _ _ _ (by omega)]
        · intro i hi
          rw [length_flashReadBytes_of_le _ _ _ (by omega)] at hi
          rw [byteAt_flashReadBytes _ _ _ _ hi, ← hpay,
            byteAt_flashReadBytes _ _ _ _ hi]
          have := hchunkbyte (HEADER_SIZE + i) (by omega)
          rw [show q + HEADER_SIZE + i = q + (HEADER_SIZE + i) by omega,
            show p + HEADER_SIZE + i = p + (HEADER_SIZE + i) by omega]
          exact this
      · refine ih (p + entrySize g r) _ data' (q + entrySize g r) hpos' hrest hlen'
          (by omega) ?_ ?_
        · intro i hi
          have := hbytes (entrySize g r + i) (by omega)
          rw [show q + entrySize g r + i = q + (entrySize g r + i) by omega, this,
            byteAt_append, hchunklen, if_neg (by omega)]
          congr 1
          omega
        · intro i h1 h2
          exact herased i (by omega) h2

theorem write_data (dev : FlashDev) (a : Nat) (bs : List Nat) :
    (dev.write a bs).data = storeBytes dev.data a bs := rfl

theorem write_log (dev : FlashDev) (a : Nat) (bs : List Nat) :
    (dev.write a bs).log = dev.log ++ [FlashOp.write a bs] := rfl

theorem erasePage_data (g : Geom) (dev : FlashDev) (a : Nat) :
    (FlashDev.erasePage g dev a).data =
      storeBytes dev.data a (List.replicate g.PAGE_SIZE g.ERASED_VALUE) := rfl

theorem erasePage_log (g : Geom) (dev : FlashDev) (a : Nat) :
    (FlashDev.erasePage g dev a).log = dev.log ++ [FlashOp.erasePage a] := rfl

theorem flashReadBytes_drop_take (data0 : List Nat) (P n d k : Nat) (hk : k ≤ n - d) :
    ((flashReadBytes data0 P n).drop d).take k = flashReadBytes data0 (P + d) k := by
  unfold flashReadBytes
  rw [List.drop_take n d _, List.drop_drop, List.take_take, min_eq_left hk]

theorem compactInner_sim (g : Geom) (hg : ValidGeom g) (data0 : List Nat)
    (hlen0 : data0.length = g.SIZE) (fi : Nat → Option Nat) (ex P : Nat)
    (hP : P + g.PAGE_SIZE ≤ g.SIZE) (hPal : g.slot ∣ P) :
    ∀ (fuel : Nat) (rest : List FileRec) (dev : FlashDev) (rp wp : Nat)
      (pos : Nat → Option Nat),
      fi = specIndex g rp rest pos →
      (∀ m pp, pos m = some pp → pp < rp) →
      P ≤ rp → g.slot ∣ rp → g.slot ∣ wp → wp ≤ rp → wp ≤ P + g.PAGE_SIZE →
      dev.data.length = g.SIZE →
      P + g.PAGE_SIZE - rp < fuel →
      Laid g data0 rp rest →
      ∃ dev2 rp2 wp2 rem2 rest2 pos2 consumed,
        compactInner g (flashReadBytes data0 P g.PAGE_SIZE) P fi ex fuel dev rp wp 0 =
          some (dev2, rp2, wp2, rem2) ∧
        dev2.data.length = g.SIZE ∧
        (∀ i, i < wp → byteAt dev2.data i = byteAt dev.data i) ∧
        (∀ i, wp2 ≤ i → byteAt dev2.data i = byteAt dev.data i) ∧
        (∀ j, j < wp2 - wp →
          byteAt dev2.data (wp + j) = byteAt (keptBytes g data0 fi ex rp rest) j) ∧
        wp ≤ wp2 ∧ wp2 ≤ P + g.PAGE_SIZE ∧ g.slot ∣ wp2 ∧ g.slot ∣ rp2 ∧
        rest = consumed ++ rest2 ∧
        (wp2 - wp) + rem2 ≤ (keptBytes g data0 fi ex rp rest).length ∧
        (∀ j, j < rem2 →
          byteAt (keptBytes g data0 fi ex rp rest) ((wp2 - wp) + j) =
            byteAt data0 (P + g.PAGE_SIZE + j)) ∧
        (keptBytes g data0 fi ex rp rest).drop ((wp2 - wp) + rem2) =
          keptBytes g data0 fi ex rp2 rest2 ∧
        ((rp2 = scanEnd g rp consumed ∧ Laid g data0 rp2 rest2 ∧
            fi = specIndex g rp2 rest2 pos2 ∧
            (∀ m pp, pos2 m = some pp → pp < rp2) ∧
            P + g.PAGE_SIZE ≤ rp2 ∧ (rem2 = 0 ∨ rp2 = P + g.PAGE_SIZE + rem2)) ∨
          (rest2 = [] ∧ rem2 = 0 ∧ rp2 = g.SIZE ∧
            wp2 = wp + (keptBytes g data0 fi ex rp rest).length)) ∧
        (∃ ops, dev2.log = dev.log ++ ops ∧ ops.all (alignedOp g) = true) := by
  intro fuel
  induction fuel with
  | zero =>
    intro rest dev rp wp pos _ _ _ _ _ _ _ _ hfuel _
    omega
  | succ f ih =>
    intro rest dev rp wp pos hfi hpos hPrp hrpal hwpal hwprp hwpP hdlen hfuel hlaid
    by_cases hguard : rp < P + g.PAGE_SIZE
    · have hslot4 : 4 ≤ g.slot := g.four_le_slot
      have hgap : g.slot ∣ (P + g.PAGE_SIZE - rp) :=
        Nat.dvd_sub' (Nat.dvd_add hPal hg.slot_dvd_page) hrpal
      have hslotgap : rp + g.slot ≤ P + g.PAGE_SIZE := by
        have := Nat.le_of_dvd (by omega) hgap
        omega
      have hrpl : ((flashReadBytes data0 P g.PAGE_SIZE).drop (rp - P)).length
          = P + g.PAGE_SIZE - rp := by
        rw [List.length_drop, length_flashReadBytes_of_le _ _ _ (by omega)]
        omega
      have htake : ∀ k, k ≤ P + g.PAGE_SIZE - rp →
          ((flashReadBytes data0 P g.PAGE_SIZE).drop (rp - P)).take k
            = flashReadBytes data0 rp k := by
        intro k hk
        rw [flashReadBytes_drop_take data0 P g.PAGE_SIZE (rp - P) k (by omega),
          show P + (rp - P) = rp by omega]
      have h4 : HEADER_SIZE = 4 := rfl
      cases hlaid with
      | nil _ hple herased =>
        have hhdr0 : byteAt
            (((flashReadBytes data0 P g.PAGE_SIZE).drop (rp - P)).take HEADER_SIZE) 0
            = g.ERASED_VALUE := by
          rw [htake HEADER_SIZE (by omega),
            byteAt_flashReadBytes data0 rp HEADER_SIZE 0 (by omega)]
          exact herased rp le_rfl (by omega)
        have hp255 : (parse_header g
            (((flashReadBytes data0 P g.PAGE_SIZE).drop (rp - P)).take HEADER_SIZE)).1
            = 255 := parse_header_erased g _ hhdr0
        refine ⟨dev, g.SIZE, wp, 0, [], pos, [], ?_, hdlen, fun i _ => rfl, fun i _ => rfl,
          fun j hj => absurd hj (by omega), le_rfl, hwpP, hwpal, hg.slot_dvd_size, rfl,
          by omega, fun j hj => absurd hj (by omega), by simp [keptBytes],
          Or.inr ⟨rfl, rfl, rfl, by simp [keptBytes]⟩, [], by simp, rfl⟩
        simp only [compactInner]
        rw [if_pos hguard, if_neg (show ¬((0 : Nat) ≠ 0) by omega), if_pos hp255]
      | cons _ r rs hnum hlenr hfit hhdr hpay hrest =>
        have hes : 0 < entrySize g r := g.round_pos _
        have hes4 : HEADER_SIZE + r.payload.length ≤ entrySize g r := four_le_entrySize g r
        have hesal : g.slot ∣ entrySize g r := slot_dvd_entrySize g r
        have hesslot : g.slot ≤ entrySize g r := g.slot_le_round _
        have hrpSIZE : rp + entrySize g r ≤ g.SIZE :=
          le_trans (scanEnd_mono g rs _) (laid_scanEnd_le g data0 hrest)
        have hhdreq : ((flashReadBytes data0 P g.PAGE_SIZE).drop (rp - P)).take HEADER_SIZE
            = make_header g r.num r.payload.length := by
          rw [htake HEADER_SIZE (by omega)]
          exact hhdr
        have hnr1 : (parse_header g
            (((flashReadBytes data0 P g.PAGE_SIZE).drop (rp - P)).take HEADER_SIZE)).1
            = r.num := by
          rw [hhdreq, parse_make_header g _ _ hlenr]
        have hnr2 : (parse_header g
            (((flashReadBytes data0 P g.PAGE_SIZE).drop (rp - P)).take HEADER_SIZE)).2
            = r.payload.length := by
          rw [hhdreq, parse_make_header g _ _ hlenr]
        have hesdef : g.round (HEADER_SIZE + r.payload.length) = entrySize g r := rfl
        have hpos2 := specIndex_pos_step g r rp pos hpos
        have hfi2 : fi = specIndex g (rp + entrySize g r) rs
            (Function.update pos r.num (some rp)) := by
          rw [hfi]
          rfl
        have hchunklen : (flashReadBytes data0 rp (entrySize g r)).length = entrySize g r :=
          length_flashReadBytes_of_le _ _ _ (by omega)
        by_cases hany : ∃ q ∈ rs, q.num = r.num
        · -- stale version: the index points at a later occurrence, so skip
          have hfine : fi r.num ≠ some rp := by
            obtain ⟨pp, hple2, he⟩ := specIndex_mem_ge g rs (rp + entrySize g r)
              (Function.update pos r.num (some rp)) r.num hany
            rw [hfi2, he]
            intro hc
            have := Option.some.inj hc
            omega
          have hcond : fi r.num ≠ some rp ∨ r.num = ex := Or.inl hfine
          have hKB : keptBytes g data0 fi ex rp (r :: rs)
              = keptBytes g data0 fi ex (rp + entrySize g r) rs := by
            show (if fi r.num ≠ some rp ∨ r.num = ex
              then keptBytes g data0 fi ex (rp + entrySize g r) rs
              else flashReadBytes data0 rp (entrySize g r) ++
                keptBytes g data0 fi ex (rp + entrySize g r) rs) = _
            rw [if_pos hcond]
          obtain ⟨dev2, rp2, wp2, rem2, rest2, pos2, consumed, heq, hdl, hlow, hhigh, hmid,
            hwp12, hwpP2, hwal2, hral2, hsplitc, hacct, hpend, hdropKB, hF, hlog⟩ :=
            ih rs dev (rp + entrySize g r) wp (Function.update pos r.num (some rp)) hfi2
              hpos2 (by omega) (Nat.dvd_add hrpal hesal) hwpal (by omega) hwpP hdlen
              (by omega) hrest
          refine ⟨dev2, rp2, wp2, rem2, rest2, pos2, r :: consumed, ?_, hdl, hlow, hhigh,
            ?_, hwp12, hwpP2, hwal2, hral2, by rw [List.cons_append, ← hsplitc], ?_, ?_,
            ?_, ?_, hlog⟩
          · simp only [compactInner]
            rw [if_pos hguard, if_neg (show ¬((0 : Nat) ≠ 0) by omega), hnr1, hnr2,
              if_neg (show ¬(r.num = 255) by omega), hesdef, if_pos hcond]
            exact heq
          · rw [hKB]
            exact hmid
          · rw [hKB]
            exact hacct
          · rw [hKB]
            exact hpend
          · rw [hKB]
            exact hdropKB
          · rcases hF with ⟨hsc, hl2, hfi3, hpos3, hge, hor⟩ | ⟨he1, he2, he3, he4⟩
            · exact Or.inl ⟨hsc, hl2, hfi3, hpos3, hge, hor⟩
            · refine Or.inr ⟨he1, he2, he3, ?_⟩
              rw [hKB]
              exact he4
        · -- current version of this file: keep unless excepted
          have hnoq : ∀ q ∈ rs, q.num ≠ r.num := by
            intro q hq hc
            exact hany ⟨q, hq, hc⟩
          have hfieq : fi r.num = some rp := by
            rw [hfi2, specIndex_skip g rs _ _ r.num hnoq, Function.update_same]
          by_cases hex : r.num = ex
          · -- excepted: skip
            have hcond : fi r.num ≠ some rp ∨ r.num = ex := Or.inr hex
            have hKB : keptBytes g data0 fi ex rp (r :: rs)
                = keptBytes g data0 fi ex (rp + entrySize g r) rs := by
              show (if fi r.num ≠ some rp ∨ r.num = ex
                then keptBytes g data0 fi ex (rp + entrySize g r) rs
                else flashReadBytes data0 rp (entrySize g r) ++
                  keptBytes g data0 fi ex (rp + entrySize g r) rs) = _
              rw [if_pos hcond]
            obtain ⟨dev2, rp2, wp2, rem2, rest2, pos2, consumed, heq, hdl, hlow, hhigh, hmid,
              hwp12, hwpP2, hwal2, hral2, hsplitc, hacct, hpend, hdropKB, hF, hlog⟩ :=
              ih rs dev (rp + entrySize g r) wp (Function.update pos r.num (some rp)) hfi2
                hpos2 (by omega) (Nat.dvd_add hrpal hesal) hwpal (by omega) hwpP hdlen
                (by omega) hrest
            refine ⟨dev2, rp2, wp2, rem2, rest2, pos2, r :: consumed, ?_, hdl, hlow, hhigh,
              ?_, hwp12, hwpP2, hwal2, hral2, by rw [List.cons_append, ← hsplitc], ?_, ?_,
              ?_, ?_, hlog⟩
            · simp only [compactInner]
              rw [if_pos hguard, if_neg (show ¬((0 : Nat) ≠ 0) by omega), hnr1, hnr2,
                if_neg (show ¬(r.num = 255) by omega), hesdef, if_pos hcond]
              exact heq
            · rw [hKB]
              exact hmid
            · rw [hKB]
              exact hacct
            · rw [hKB]
              exact hpend
            · rw [hKB]
              exact hdropKB
            · rcases hF with ⟨hsc, hl2, hfi3, hpos3, hge, hor⟩ | ⟨he1, he2, he3, he4⟩
              · exact Or.inl ⟨hsc, hl2, hfi3, hpos3, hge, hor⟩
              · refine Or.inr ⟨he1, he2, he3, ?_⟩
                rw [hKB]
                exact he4
          · -- keep the record
            have hcond : ¬(fi r.num ≠ some rp ∨ r.num = ex) := by
              push_neg
              exact ⟨hfieq, hex⟩
            have hKB : keptBytes g data0 fi ex rp (r :: rs)
                = flashReadBytes data0 rp (entrySize g r) ++
                  keptBytes g data0 fi ex (rp + entrySize g r) rs := by
              show (if fi r.num ≠ some rp ∨ r.num = ex
                then keptBytes g data0 fi ex (rp + entrySize g r) rs
                else flashReadBytes data0 rp (entrySize g r) ++
                  keptBytes g data0 fi ex (rp + entrySize g r) rs) = _
              rw [if_neg hcond]
            have hKBlen : (keptBytes g data0 fi ex rp (r :: rs)).length
                = entrySize g r +
                  (keptBytes g data0 fi ex (rp + entrySize g r) rs).length := by
              rw [hKB, List.length_append, hchunklen]
            by_cases hinpage : entrySize g r ≤ P + g.PAGE_SIZE - rp
            · -- record lies entirely within this page
              have hwin : wp + entrySize g r ≤ g.SIZE := by omega
              have hdl1 : ((dev.write wp (flashReadBytes data0 rp (entrySize g r))).data).length
                  = g.SIZE := by
                rw [write_data, length_storeBytes _ _ _ (by rw [hchunklen]; omega)]
                exact hdlen
              obtain ⟨dev2, rp2, wp2, rem2, rest2, pos2, consumed, heq, hdl, hlow, hhigh,
                hmid, hwp12, hwpP2, hwal2, hral2, hsplitc, hacct, hpend, hdropKB, hF, hlog⟩ :=
                ih rs (dev.write wp (flashReadBytes data0 rp (entrySize g r)))
                  (rp + entrySize g r) (wp + entrySize g r)
                  (Function.update pos r.num (some rp)) hfi2 hpos2 (by omega)
                  (Nat.dvd_add hrpal hesal) (Nat.dvd_add hwpal hesal) (by omega)
                  (by omega) hdl1 (by omega) hrest
              have hsbin : wp + (flashReadBytes data0 rp (entrySize g r)).length
                  ≤ dev.data.length := by
                rw [hchunklen, hdlen]
                omega
              refine ⟨dev2, rp2, wp2, rem2, rest2, pos2, r :: consumed, ?_, hdl, ?_, ?_,
                ?_, by omega, hwpP2, hwal2, hral2, by rw [List.cons_append, ← hsplitc],
                ?_, ?_, ?_, ?_, ?_⟩
              · simp only [compactInner]
                rw [if_pos hguard, if_neg (show ¬((0 : Nat) ≠ 0) by omega), hnr1, hnr2,
                  if_neg (show ¬(r.num = 255) by omega), hesdef, if_neg hcond, hrpl,
                  min_eq_left hinpage, htake _ hinpage, Nat.sub_self]
                exact heq
              · intro i hi
                rw [hlow i (by omega), write_data,
                  byteAt_storeBytes_lt _ _ _ _ hsbin hi]
              · intro i hi
                rw [hhigh i hi, write_data,
                  byteAt_storeBytes_ge _ _ _ _ hsbin (by rw [hchunklen]; omega)]
              · intro j hj
                rw [hKB]
                by_cases hjes : j < entrySize g r
                · rw [hlow (wp + j) (by omega), write_data,
                    byteAt_storeBytes_mid _ _ _ _ hsbin (by omega) (by rw [hchunklen]; omega),
                    show wp + j - wp = j by omega, byteAt_append, hchunklen, if_pos hjes]
                · rw [show wp + j = (wp + entrySize g r) + (j - entrySize g r) by omega,
                    hmid (j - entrySize g r) (by omega), byteAt_append, hchunklen,
                    if_neg hjes]
              · rw [hKBlen]
                omega
              · intro j hj
                rw [hKB, byteAt_append, hchunklen,
                  if_neg (show ¬(wp2 - wp + j < entrySize g r) by omega),
                  show wp2 - wp + j - entrySize g r = (wp2 - (wp + entrySize g r)) + j
                    by omega]
                exact hpend j hj
              · rw [hKB, show (wp2 - wp) + rem2
                    = (flashReadBytes data0 rp (entrySize g r)).length
                      + ((wp2 - (wp + entrySize g r)) + rem2) by rw [hchunklen]; omega,
                  List.drop_append]
                exact hdropKB
              · rcases hF with ⟨hsc, hl2, hfi3, hpos3, hge, hor⟩ | ⟨he1, he2, he3, he4⟩
                · exact Or.inl ⟨hsc, hl2, hfi3, hpos3, hge, hor⟩
                · refine Or.inr ⟨he1, he2, he3, ?_⟩
                  rw [hKBlen]
                  omega
              · obtain ⟨ops, hlog1, hops1⟩ := hlog
                refine ⟨FlashOp.write wp (flashReadBytes data0 rp (entrySize g r)) :: ops,
                  ?_, ?_⟩
                · rw [hlog1, write_log]
                  simp
                · rw [List.all_cons, hops1, Bool.and_true]
                  show (wp % g.WORD_SIZE == 0) = true
                  rw [Nat.beq_eq_true_eq]
                  exact mod_eq_zero_of_dvd (dvd_trans hg.word_dvd_slot hwpal)
            · -- record straddles onto the next page
              have hX : min (entrySize g r) (P + g.PAGE_SIZE - rp) = P + g.PAGE_SIZE - rp :=
                min_eq_right (by omega)
              have hwlen : (flashReadBytes data0 rp (P + g.PAGE_SIZE - rp)).length
                  = P + g.PAGE_SIZE - rp :=
                length_flashReadBytes_of_le _ _ _ (by omega)
              have hsbin : wp + (flashReadBytes data0 rp (P + g.PAGE_SIZE - rp)).length
                  ≤ dev.data.length := by
                rw [hwlen, hdlen]
                omega
              have hf2 : 1 ≤ f := by omega
              obtain ⟨f2, rfl⟩ : ∃ f2, f = f2 + 1 := ⟨f - 1, by omega⟩
              have hret : compactInner g (flashReadBytes data0 P g.PAGE_SIZE) P fi ex
                  (f2 + 1) (dev.write wp (flashReadBytes data0 rp (P + g.PAGE_SIZE - rp)))
                  (rp + entrySize g r) (wp + (P + g.PAGE_SIZE - rp))
                  (entrySize g r - (P + g.PAGE_SIZE - rp)) =
                  some (dev.write wp (flashReadBytes data0 rp (P + g.PAGE_SIZE - rp)),
                    rp + entrySize g r, wp + (P + g.PAGE_SIZE - rp),
                    entrySize g r - (P + g.PAGE_SIZE - rp)) := by
                simp only [compactInner]
                rw [if_neg (show ¬(rp + entrySize g r < P + g.PAGE_SIZE) by omega)]
              refine ⟨dev.write wp (flashReadBytes data0 rp (P + g.PAGE_SIZE - rp)),
                rp + entrySize g r, wp + (P + g.PAGE_SIZE - rp),
                entrySize g r - (P + g.PAGE_SIZE - rp), rs,
                Function.update pos r.num (some rp), [r], ?_, ?_, ?_, ?_, ?_, by omega,
                by omega, Nat.dvd_add hwpal hgap, Nat.dvd_add hrpal hesal, rfl, ?_, ?_,
                ?_, ?_, ?_⟩
              · simp only [compactInner]
                rw [if_pos hguard, if_neg (show ¬((0 : Nat) ≠ 0) by omega), hnr1, hnr2,
                  if_neg (show ¬(r.num = 255) by omega), hesdef, if_neg hcond, hrpl, hX,
                  htake _ le_rfl]
                exact hret
              · rw [write_data, length_storeBytes _ _ _ (by rw [hwlen, hdlen]; omega)]
                exact hdlen
              · intro i hi
                rw [write_data, byteAt_storeBytes_lt _ _ _ _ hsbin hi]
              · intro i hi
                rw [write_data,
                  byteAt_storeBytes_ge _ _ _ _ hsbin (by rw [hwlen]; omega)]
              · intro j hj
                rw [write_data,
                  byteAt_storeBytes_mid _ _ _ _ hsbin (by omega)
                    (by rw [hwlen]; omega),
                  show wp + j - wp = j by omega,
                  byteAt_flashReadBytes _ _ _ _ (by omega), hKB, byteAt_append,
                  hchunklen, if_pos (by omega),
                  byteAt_flashReadBytes _ _ _ _ (by omega)]
              · rw [hKBlen]
                omega
              · intro j hj
                rw [hKB, byteAt_append, hchunklen, if_pos (by omega),
                  byteAt_flashReadBytes _ _ _ _ (by omega)]
                congr 1
                omega
              · rw [hKB, show (wp + (P + g.PAGE_SIZE - rp) - wp)
                    + (entrySize g r - (P + g.PAGE_SIZE - rp))
                    = (flashReadBytes data0 rp (entrySize g r)).length + 0
                    by rw [hchunklen]; omega,
                  List.drop_append, List.drop_zero]
              · refine Or.inl ⟨rfl, hrest, hfi2, hpos2, by omega, Or.inr (by omega)⟩
              · refine ⟨[FlashOp.write wp (flashReadBytes data0 rp (P + g.PAGE_SIZE - rp))],
                  write_log _ _ _, ?_⟩
                rw [List.all_cons, List.all_nil, Bool.and_true]
                show (wp % g.WORD_SIZE == 0) = true
                rw [Nat.beq_eq_true_eq]
                exact mod_eq_zero_of_dvd (dvd_trans hg.word_dvd_slot hwpal)
    · refine ⟨dev, rp, wp, 0, rest, pos, [], ?_, hdlen, fun i _ => rfl, fun i _ => rfl,
        fun j hj => absurd hj (by omega), le_rfl, hwpP, hwpal, hrpal, rfl, by omega,
        fun j hj => absurd hj (by omega), by simp,
        Or.inl ⟨rfl, hlaid, hfi, hpos, by omega, Or.inl rfl⟩, [], by simp, rfl⟩
      simp only [compactInner]
      rw [if_neg hguard]

theorem flashReadBytes_take (data0 : List Nat) (a n k : Nat) (hk : k ≤ n) :
    (flashReadBytes data0 a n).take k = flashReadBytes data0 a k := by
  unfold flashReadBytes
  rw [List.take_take, min_eq_left hk]

theorem byteAt_erasePage_lt (g : Geom) (dev : FlashDev) (P i : Nat)
    (hin : P + g.PAGE_SIZE ≤ dev.data.length) (h : i < P) :
    byteAt (FlashDev.erasePage g dev P).data i = byteAt dev.data i := by
  rw [erasePage_data]
  exact byteAt_storeBytes_lt _ _ _ _ (by rw [List.length_replicate]; omega) h

theorem byteAt_erasePage_mid (g : Geom) (dev : FlashDev) (P i : Nat)
    (hin : P + g.PAGE_SIZE ≤ dev.data.length) (h1 : P ≤ i) (h2 : i < P + g.PAGE_SIZE) :
    byteAt (FlashDev.erasePage g dev P).data i = g.ERASED_VALUE := by
  rw [erasePage_data,
    byteAt_storeBytes_mid _ _ _ _ (by rw [List.length_replicate]; omega)
      h1 (by rw [List.length_replicate]; omega),
    byteAt_replicate, if_pos (by omega)]

theorem byteAt_erasePage_ge (g : Geom) (dev : FlashDev) (P i : Nat)
    (hin : P + g.PAGE_SIZE ≤ dev.data.length) (h : P + g.PAGE_SIZE ≤ i) :
    byteAt (FlashDev.erasePage g dev P).data i = byteAt dev.data i := by
  rw [erasePage_data]
  exact byteAt_storeBytes_ge _ _ _ _ (by rw [List.length_replicate]; omega)
    (by rw [List.length_replicate]; omega)

theorem erasePage_length (g : Geom) (dev : FlashDev) (P : Nat)
    (hin : P + g.PAGE_SIZE ≤ dev.data.length) :
    (FlashDev.erasePage g dev P).data.length = dev.data.length := by
  rw [erasePage_data]
  exact length_storeBytes _ _ _ (by rw [List.length_replicate]; omega)

theorem compactPages_sim (g : Geom) (hg : ValidGeom g) (data0 : List Nat)
    (hlen0 : data0.length = g.SIZE) (fi : Nat → Option Nat) (ex : Nat) (KK : List Nat) :
    ∀ (k P : Nat) (dev : FlashDev) (rp wp rem : Nat),
      P + k * g.PAGE_SIZE = g.SIZE →
      g.PAGE_SIZE ∣ P →
      dev.data.length = g.SIZE →
      (∀ i, P ≤ i → i < g.SIZE → byteAt dev.data i = byteAt data0 i) →
      (∀ i, i < wp → byteAt dev.data i = byteAt KK i) →
      (∀ i, wp ≤ i → i < P → byteAt dev.data i = g.ERASED_VALUE) →
      wp ≤ P → g.slot ∣ wp → g.slot ∣ rp → P ≤ rp → wp + rem ≤ rp →
      wp + rem ≤ KK.length →
      (∀ j, j < rem → byteAt KK (wp + j) = byteAt data0 (P + j)) →
      (∃ rest pos,
        KK.drop (wp + rem) = keptBytes g data0 fi ex rp rest ∧
        ((Laid g data0 rp rest ∧ fi = specIndex g rp rest pos ∧
          (∀ m pp, pos m = some pp → pp < rp) ∧ (rem = 0 ∨ rp = P + rem)) ∨
         (rest = [] ∧ rem = 0 ∧ rp = g.SIZE ∧ wp = KK.length))) →
      ∃ dev' rp' wp' rem',
        compactPages g fi ex (List.range' P k g.PAGE_SIZE) dev rp wp rem =
          some (dev', rp', wp', rem') ∧
        dev'.data.length = g.SIZE ∧
        wp' = KK.length ∧
        (∀ i, i < wp' → byteAt dev'.data i = byteAt KK i) ∧
        (∀ i, wp' ≤ i → i < g.SIZE → byteAt dev'.data i = g.ERASED_VALUE) ∧
        (∃ ops, dev'.log = dev.log ++ ops ∧ ops.all (alignedOp g) = true) := by
  intro k
  induction k with
  | zero =>
    intro P dev rp wp rem hPk hPal hdlen hI2 hI3 hI4 hwpP hwal hral hPrp hcur hkk hpend hstate
    obtain ⟨rest, pos, hdropKK, hst⟩ := hstate
    have hPS : P = g.SIZE := by omega
    have h4 : HEADER_SIZE = 4 := rfl
    have hwpKK : wp = KK.length ∧ rem = 0 := by
      rcases hst with ⟨hlaidR, _, _, hor⟩ | ⟨_, hrem, hrp, hwp⟩
      · have hse := laid_scanEnd_le g data0 hlaidR
        have hsm := scanEnd_mono g rest rp
        have hrem : rem = 0 := by
          rcases hor with h0 | hre
          · exact h0
          · omega
        cases hlaidR with
        | nil _ hp _ =>
          rw [hrem] at hdropKK
          have hlen2 := congrArg List.length hdropKK
          rw [List.length_drop] at hlen2
          have hkb0 : (keptBytes g data0 fi ex rp ([] : List FileRec)).length = 0 := rfl
          exact ⟨by omega, hrem⟩
        | cons _ r rs hnum hlenr hfit _ _ _ =>
          exact absurd hfit (by omega)
      · exact ⟨hwp, hrem⟩
    refine ⟨dev, rp, wp, rem, rfl, hdlen, hwpKK.1, hI3, ?_, [], by simp, rfl⟩
    intro i h1 h2
    exact hI4 i h1 (by omega)
  | succ k ih =>
    intro P dev rp wp rem hPk hPal hdlen hI2 hI3 hI4 hwpP hwal hral hPrp hcur hkk hpend hstate
    obtain ⟨rest, pos, hdropKK, hst⟩ := hstate
    have h4 : HEADER_SIZE = 4 := rfl
    have hpagepos : 0 < g.PAGE_SIZE := hg.2.2.2.2.1
    have hPP : P + g.PAGE_SIZE ≤ g.SIZE := by
      have h1 : 1 * g.PAGE_SIZE ≤ (k + 1) * g.PAGE_SIZE := Nat.mul_le_mul_right _ (by omega)
      omega
    have hPal2 : g.PAGE_SIZE ∣ (P + g.PAGE_SIZE) := Nat.dvd_add hPal dvd_rfl
    have hPk2 : (P + g.PAGE_SIZE) + k * g.PAGE_SIZE = g.SIZE := by
      have hmul : (k + 1) * g.PAGE_SIZE = g.PAGE_SIZE + k * g.PAGE_SIZE := by ring
      omega
    have hslotP : g.slot ∣ P := dvd_trans hg.slot_dvd_page hPal
    have hslotpage : g.slot ∣ g.PAGE_SIZE := hg.slot_dvd_page
    have hpb : flashReadBytes dev.data P g.PAGE_SIZE = flashReadBytes data0 P g.PAGE_SIZE :=
      flashReadBytes_congr data0 dev.data P g.PAGE_SIZE (by omega) (by omega)
        (fun i hi1 hi2 => hI2 i hi1 (by omega))
    have hlistunf : List.range' P (k + 1) g.PAGE_SIZE
        = P :: List.range' (P + g.PAGE_SIZE) k g.PAGE_SIZE := rfl
    have hdl1 : (FlashDev.erasePage g dev P).data.length = g.SIZE := by
      rw [erasePage_length g dev P (by omega)]
      exact hdlen
    have hkbdroplen : (keptBytes g data0 fi ex rp rest).length = KK.length - (wp + rem) := by
      rw [← hdropKK, List.length_drop]
    rcases hst with ⟨hlaidR, hfiR, hposR, horR⟩ | ⟨hre1, hre2, hre3, hre4⟩
    · -- scanning state
      by_cases hrem0 : rem = 0
      · subst hrem0
        rw [Nat.add_zero] at hdropKK hcur hkk
        -- inner loop on the erased page, reading the snapshot
        obtain ⟨dev3, rp3, wp3, rem3, rest3, pos3, consumed, heqI, hdl3, hlow3, hhigh3,
          hmid3, hwp3a, hwp3b, hwal3, hral3, hsplit3, hacct3, hpend3, hdrop3, hF3, hlog3⟩ :=
          compactInner_sim g hg data0 hlen0 fi ex P hPP hslotP (g.PAGE_SIZE + 1) rest
            (FlashDev.erasePage g dev P) rp wp pos hfiR hposR hPrp hral hwal hcur
            (by omega) hdl1 (by omega) hlaidR
        have hgerp3 : P + g.PAGE_SIZE ≤ rp3 := by
          rcases hF3 with ⟨_, _, _, _, hge, _⟩ | ⟨_, _, hsz, _⟩
          · exact hge
          · omega
        have hcur3 : wp3 + rem3 ≤ rp3 := by
          rcases hF3 with ⟨_, _, _, _, hge, hor⟩ | ⟨_, hr0, hsz, _⟩
          · rcases hor with h0 | hre
            · omega
            · omega
          · omega
        have hstep : compactPages g fi ex
            (P :: List.range' (P + g.PAGE_SIZE) k g.PAGE_SIZE) dev rp wp 0
            = compactPages g fi ex (List.range' (P + g.PAGE_SIZE) k g.PAGE_SIZE)
              dev3 rp3 wp3 rem3 := by
          simp only [compactPages]
          rw [if_neg (show ¬(0 < 0) by omega)]
          dsimp only
          rw [hpb, heqI]
        obtain ⟨dev', rp', wp', rem', heqF, hdlF, hwpF, hI3F, hI4F, opsF, hlogF, hopsF⟩ :=
          ih (P + g.PAGE_SIZE) dev3 rp3 wp3 rem3 hPk2 hPal2 hdl3
            (fun i hi1 hi2 => by
              rw [hhigh3 i (by omega), byteAt_erasePage_ge g dev P i (by omega) (by omega)]
              exact hI2 i (by omega) hi2)
            (fun i hi => by
              by_cases hiw : i < wp
              · rw [hlow3 i hiw, byteAt_erasePage_lt g dev P i (by omega) (by omega)]
                exact hI3 i hiw
              · have hmm := hmid3 (i - wp) (by omega)
                rw [show wp + (i - wp) = i by omega] at hmm
                rw [hmm, ← hdropKK, byteAt_drop, show wp + (i - wp) = i by omega])
            (fun i hi1 hi2 => by
              rw [hhigh3 i hi1]
              by_cases hiP : i < P
              · rw [byteAt_erasePage_lt g dev P i (by omega) hiP]
                exact hI4 i (by omega) hiP
              · exact byteAt_erasePage_mid g dev P i (by omega) (by omega) hi2)
            hwp3b hwal3 hral3 hgerp3 hcur3
            (by omega)
            (fun j hj => by
              have hpp := hpend3 j hj
              rw [← hdropKK, byteAt_drop, show wp + ((wp3 - wp) + j) = wp3 + j by omega]
                at hpp
              exact hpp)
            ⟨rest3, pos3, by
              rw [show wp3 + rem3 = wp + ((wp3 - wp) + rem3) by omega, ← List.drop_drop,
                hdropKK, hdrop3], by
              rcases hF3 with ⟨hsc3, hlaid3, hfi3, hpos3b, hge3, hor3⟩ | ⟨hr1, hr2, hr3, hr4⟩
              · exact Or.inl ⟨hlaid3, hfi3, hpos3b, hor3⟩
              · exact Or.inr ⟨hr1, hr2, hr3, by omega⟩⟩
        refine ⟨dev', rp', wp', rem', ?_, hdlF, hwpF, hI3F, hI4F, ?_⟩
        · rw [hlistunf, hstep]
          exact heqF
        · obtain ⟨ops3, hlog3e, hops3⟩ := hlog3
          refine ⟨FlashOp.erasePage P :: (ops3 ++ opsF), ?_, ?_⟩
          · rw [hlogF, hlog3e, erasePage_log]
            simp
          · have he1 : alignedOp g (FlashOp.erasePage P) = true := by
              show (P % g.PAGE_SIZE == 0) = true
              rw [Nat.beq_eq_true_eq]
              exact mod_eq_zero_of_dvd hPal
            rw [List.all_cons, he1, Bool.true_and, List.all_append, hops3, hopsF]
            rfl
      · -- pending tail copy from this page
        have hrppr : rp = P + rem := by
          rcases horR with h0 | hre
          · exact absurd h0 hrem0
          · exact hre
        have hremal : g.slot ∣ rem := by
          have hd := Nat.dvd_sub' hral hslotP
          rwa [show rp - P = rem by omega] at hd
        by_cases hrPAGE : rem ≤ g.PAGE_SIZE
        · -- the tail ends on this page; then the inner loop runs
          have hmin : min rem g.PAGE_SIZE = rem := min_eq_left hrPAGE
          have hwrt : (flashReadBytes data0 P g.PAGE_SIZE).take rem
              = flashReadBytes data0 P rem := flashReadBytes_take data0 P _ _ hrPAGE
          have hwlen : (flashReadBytes data0 P rem).length = rem :=
            length_flashReadBytes_of_le _ _ _ (by omega)
          have hsbin : wp + (flashReadBytes data0 P rem).length
              ≤ (FlashDev.erasePage g dev P).data.length := by
            rw [hwlen, hdl1]
            omega
          have hdlA : ((FlashDev.erasePage g dev P).write wp
              (flashReadBytes data0 P rem)).data.length = g.SIZE := by
            rw [write_data, length_storeBytes _ _ _ hsbin]
            exact hdl1
          obtain ⟨dev3, rp3, wp3, rem3, rest3, pos3, consumed, heqI, hdl3, hlow3, hhigh3,
            hmid3, hwp3a, hwp3b, hwal3, hral3, hsplit3, hacct3, hpend3, hdrop3, hF3,
            hlog3⟩ :=
            compactInner_sim g hg data0 hlen0 fi ex P hPP hslotP (g.PAGE_SIZE + 1) rest
              ((FlashDev.erasePage g dev P).write wp (flashReadBytes data0 P rem)) rp
              (wp + rem) pos hfiR hposR hPrp hral (Nat.dvd_add hwal hremal) hcur
              (by omega) hdlA (by omega) hlaidR
          have hgerp3 : P + g.PAGE_SIZE ≤ rp3 := by
            rcases hF3 with ⟨_, _, _, _, hge, _⟩ | ⟨_, _, hsz, _⟩
            · exact hge
            · omega
          have hcur3 : wp3 + rem3 ≤ rp3 := by
            rcases hF3 with ⟨_, _, _, _, hge, hor⟩ | ⟨_, hr0, hsz, _⟩
            · rcases hor with h0 | hre
              · omega
              · omega
            · omega
          have hstep : compactPages g fi ex
              (P :: List.range' (P + g.PAGE_SIZE) k g.PAGE_SIZE) dev rp wp rem
              = compactPages g fi ex (List.range' (P + g.PAGE_SIZE) k g.PAGE_SIZE)
                dev3 rp3 wp3 rem3 := by
            simp only [compactPages]
            rw [if_pos (show 0 < rem by omega)]
            dsimp only
            rw [hpb, hmin, hwrt, Nat.sub_self, heqI]
          obtain ⟨dev', rp', wp', rem', heqF, hdlF, hwpF, hI3F, hI4F, opsF, hlogF,
            hopsF⟩ :=
            ih (P + g.PAGE_SIZE) dev3 rp3 wp3 rem3 hPk2 hPal2 hdl3
              (fun i hi1 hi2 => by
                rw [hhigh3 i (by omega), write_data,
                  byteAt_storeBytes_ge _ _ _ _ hsbin (by rw [hwlen]; omega),
                  byteAt_erasePage_ge g dev P i (by omega) (by omega)]
                exact hI2 i (by omega) hi2)
              (fun i hi => by
                by_cases hiw : i < wp
                · rw [hlow3 i (by omega), write_data,
                    byteAt_storeBytes_lt _ _ _ _ hsbin hiw,
                    byteAt_erasePage_lt g dev P i (by omega) (by omega)]
                  exact hI3 i hiw
                · by_cases hiw2 : i < wp + rem
                  · rw [hlow3 i (by omega), write_data,
                      byteAt_storeBytes_mid _ _ _ _ hsbin (by omega) (by rw [hwlen]; omega),
                      byteAt_flashReadBytes _ _ _ _ (by rw [← hwlen]; omega)]
                    have hpp := hpend (i - wp) (by omega)
                    rw [show wp + (i - wp) = i by omega] at hpp
                    rw [show P + (i - wp) = P + (i - wp) by rfl]
                    exact hpp.symm
                  · have hmm := hmid3 (i - (wp + rem)) (by omega)
                    rw [show (wp + rem) + (i - (wp + rem)) = i by omega] at hmm
                    rw [hmm, ← hdropKK, byteAt_drop,
                      show (wp + rem) + (i - (wp + rem)) = i by omega])
              (fun i hi1 hi2 => by
                rw [hhigh3 i hi1, write_data,
                  byteAt_storeBytes_ge _ _ _ _ hsbin (by rw [hwlen]; omega)]
                by_cases hiP : i < P
                · rw [byteAt_erasePage_lt g dev P i (by omega) hiP]
                  exact hI4 i (by omega) hiP
                · exact byteAt_erasePage_mid g dev P i (by omega) (by omega) hi2)
              hwp3b hwal3 hral3 hgerp3 hcur3
              (by omega)
              (fun j hj => by
                have hpp := hpend3 j hj
                rw [← hdropKK, byteAt_drop,
                  show (wp + rem) + ((wp3 - (wp + rem)) + j) = wp3 + j by omega] at hpp
                exact hpp)
              ⟨rest3, pos3, by
                rw [show wp3 + rem3 = (wp + rem) + ((wp3 - (wp + rem)) + rem3) by omega,
                  ← List.drop_drop, hdropKK, hdrop3], by
                rcases hF3 with ⟨hsc3, hlaid3, hfi3, hpos3b, hge3, hor3⟩ |
                  ⟨hr1, hr2, hr3, hr4⟩
                · exact Or.inl ⟨hlaid3, hfi3, hpos3b, hor3⟩
                · exact Or.inr ⟨hr1, hr2, hr3, by omega⟩⟩
          refine ⟨dev', rp', wp', rem', ?_, hdlF, hwpF, hI3F, hI4F, ?_⟩
          · rw [hlistunf, hstep]
            exact heqF
          · obtain ⟨ops3, hlog3e, hops3⟩ := hlog3
            refine ⟨FlashOp.erasePage P ::
              FlashOp.write wp (flashReadBytes data0 P rem) :: (ops3 ++ opsF), ?_, ?_⟩
            · rw [hlogF, hlog3e, write_log, erasePage_log]
              simp
            · have he1 : alignedOp g (FlashOp.erasePage P) = true := by
                show (P % g.PAGE_SIZE == 0) = true
                rw [Nat.beq_eq_true_eq]
                exact mod_eq_zero_of_dvd hPal
              have he2 : alignedOp g (FlashOp.write wp (flashReadBytes data0 P rem))
                  = true := by
                show (wp % g.WORD_SIZE == 0) = true
                rw [Nat.beq_eq_true_eq]
                exact mod_eq_zero_of_dvd (dvd_trans hg.word_dvd_slot hwal)
              rw [List.all_cons, he1, Bool.true_and, List.all_cons, he2, Bool.true_and,
                List.all_append, hops3, hopsF]
              rfl
        · -- the tail spans past this page: copy a full page and move on
          have hmin : min rem g.PAGE_SIZE = g.PAGE_SIZE := min_eq_right (by omega)
          have hwrt : (flashReadBytes data0 P g.PAGE_SIZE).take g.PAGE_SIZE
              = flashReadBytes data0 P g.PAGE_SIZE :=
            flashReadBytes_take data0 P _ _ le_rfl
          have hwlen : (flashReadBytes data0 P g.PAGE_SIZE).length = g.PAGE_SIZE :=
            length_flashReadBytes_of_le _ _ _ (by omega)
          have hsbin : wp + (flashReadBytes data0 P g.PAGE_SIZE).length
              ≤ (FlashDev.erasePage g dev P).data.length := by
            rw [hwlen, hdl1]
            omega
          have hdlA : ((FlashDev.erasePage g dev P).write wp
              (flashReadBytes data0 P g.PAGE_SIZE)).data.length = g.SIZE := by
            rw [write_data, length_storeBytes _ _ _ hsbin]
            exact hdl1
          have heqI : compactInner g (flashReadBytes data0 P g.PAGE_SIZE) P fi ex
              (g.PAGE_SIZE + 1)
              ((FlashDev.erasePage g dev P).write wp (flashReadBytes data0 P g.PAGE_SIZE))
              rp (wp + g.PAGE_SIZE) (rem - g.PAGE_SIZE) =
              some ((FlashDev.erasePage g dev P).write wp
                  (flashReadBytes data0 P g.PAGE_SIZE),
                rp, wp + g.PAGE_SIZE, rem - g.PAGE_SIZE) := by
            simp only [compactInner]
            rw [if_neg (show ¬(rp < P + g.PAGE_SIZE) by omega)]
          have hstep : compactPages g fi ex
              (P :: List.range' (P + g.PAGE_SIZE) k g.PAGE_SIZE) dev rp wp rem
              = compactPages g fi ex (List.range' (P + g.PAGE_SIZE) k g.PAGE_SIZE)
                ((FlashDev.erasePage g dev P).write wp (flashReadBytes data0 P g.PAGE_SIZE))
                rp (wp + g.PAGE_SIZE) (rem - g.PAGE_SIZE) := by
            simp only [compactPages]
            rw [if_pos (show 0 < rem by omega)]
            dsimp only
            rw [hpb, hmin, hwrt, heqI]
          obtain ⟨dev', rp', wp', rem', heqF, hdlF, hwpF, hI3F, hI4F, opsF, hlogF,
            hopsF⟩ :=
            ih (P + g.PAGE_SIZE)
              ((FlashDev.erasePage g dev P).write wp (flashReadBytes data0 P g.PAGE_SIZE))
              rp (wp + g.PAGE_SIZE) (rem - g.PAGE_SIZE) hPk2 hPal2 hdlA
              (fun i hi1 hi2 => by
                rw [write_data, byteAt_storeBytes_ge _ _ _ _ hsbin (by rw [hwlen]; omega),
                  byteAt_erasePage_ge g dev P i (by omega) (by omega)]
                exact hI2 i (by omega) hi2)
              (fun i hi => by
                by_cases hiw : i < wp
                · rw [write_data, byteAt_storeBytes_lt _ _ _ _ hsbin hiw,
                    byteAt_erasePage_lt g dev P i (by omega) (by omega)]
                  exact hI3 i hiw
                · rw [write_data,
                    byteAt_storeBytes_mid _ _ _ _ hsbin (by omega) (by rw [hwlen]; omega),
                    byteAt_flashReadBytes _ _ _ _ (by rw [← hwlen]; omega)]
                  have hpp := hpend (i - wp) (by omega)
                  rw [show wp + (i - wp) = i by omega] at hpp
                  exact hpp.symm)
              (fun i hi1 hi2 => by
                rw [write_data, byteAt_storeBytes_ge _ _ _ _ hsbin (by rw [hwlen]; omega)]
                by_cases hiP : i < P
                · rw [byteAt_erasePage_lt g dev P i (by omega) hiP]
                  exact hI4 i (by omega) hiP
                · exact byteAt_erasePage_mid g dev P i (by omega) (by omega) hi2)
              (by omega) (Nat.dvd_add hwal hslotpage) hral (by omega) (by omega)
              (by omega)
              (fun j hj => by
                have hpp := hpend (g.PAGE_SIZE + j) (by omega)
                rw [show wp + (g.PAGE_SIZE + j) = wp + g.PAGE_SIZE + j by omega,
                  show P + (g.PAGE_SIZE + j) = P + g.PAGE_SIZE + j by omega] at hpp
                exact hpp)
              ⟨rest, pos, by
                rw [show (wp + g.PAGE_SIZE) + (rem - g.PAGE_SIZE) = wp + rem by omega]
                exact hdropKK, Or.inl ⟨hlaidR, hfiR, hposR, Or.inr (by omega)⟩⟩
          refine ⟨dev', rp', wp', rem', ?_, hdlF, hwpF, hI3F, hI4F, ?_⟩
          · rw [hlistunf, hstep]
            exact heqF
          · refine ⟨FlashOp.erasePage P ::
              FlashOp.write wp (flashReadBytes data0 P g.PAGE_SIZE) :: opsF, ?_, ?_⟩
            · rw [hlogF, write_log, erasePage_log]
              simp
            · have he1 : alignedOp g (FlashOp.erasePage P) = true := by
                show (P % g.PAGE_SIZE == 0) = true
                rw [Nat.beq_eq_true_eq]
                exact mod_eq_zero_of_dvd hPal
              have he2 : alignedOp g
                  (FlashOp.write wp (flashReadBytes data0 P g.PAGE_SIZE)) = true := by
                show (wp % g.WORD_SIZE == 0) = true
                rw [Nat.beq_eq_true_eq]
                exact mod_eq_zero_of_dvd (dvd_trans hg.word_dvd_slot hwal)
              rw [List.all_cons, he1, Bool.true_and, List.all_cons, he2, Bool.true_and,
                hopsF]
    · -- sentinel already seen: the remaining pages are only erased
      subst hre1
      subst hre2
      have heqI : compactInner g (flashReadBytes data0 P g.PAGE_SIZE) P fi ex
          (g.PAGE_SIZE + 1) (FlashDev.erasePage g dev P) rp wp 0 =
          some (FlashDev.erasePage g dev P, rp, wp, 0) := by
        simp only [compactInner]
        rw [if_neg (show ¬(rp < P + g.PAGE_SIZE) by omega)]
      have hstep : compactPages g fi ex
          (P :: List.range' (P + g.PAGE_SIZE) k g.PAGE_SIZE) dev rp wp 0
          = compactPages g fi ex (List.range' (P + g.PAGE_SIZE) k g.PAGE_SIZE)
            (FlashDev.erasePage g dev P) rp wp 0 := by
        simp only [compactPages]
        rw [if_neg (show ¬(0 < 0) by omega)]
        dsimp only
        rw [hpb, heqI]
      obtain ⟨dev', rp', wp', rem', heqF, hdlF, hwpF, hI3F, hI4F, opsF, hlogF, hopsF⟩ :=
        ih (P + g.PAGE_SIZE) (FlashDev.erasePage g dev P) rp wp 0 hPk2 hPal2 hdl1
          (fun i hi1 hi2 => by
            rw [byteAt_erasePage_ge g dev P i (by omega) (by omega)]
            exact hI2 i (by omega) hi2)
          (fun i hi => by
            rw [byteAt_erasePage_lt g dev P i (by omega) (by omega)]
            exact hI3 i hi)
          (fun i hi1 hi2 => by
            by_cases hiP : i < P
            · rw [byteAt_erasePage_lt g dev P i (by omega) hiP]
              exact hI4 i (by omega) hiP
            · exact byteAt_erasePage_mid g dev P i (by omega) (by omega) hi2)
          (by omega) hwal hral (by omega) (by omega) (by omega)
          (fun j hj => absurd hj (by omega))
          ⟨[], pos, by
            rw [Nat.add_zero] at hdropKK ⊢
            exact hdropKK, Or.inr ⟨rfl, rfl, hre3, hre4⟩⟩
      refine ⟨dev', rp', wp', rem', ?_, hdlF, hwpF, hI3F, hI4F, ?_⟩
      · rw [hlistunf, hstep]
        exact heqF
      · refine ⟨FlashOp.erasePage P :: opsF, ?_, ?_⟩
        · rw [hlogF, erasePage_log]
          simp
        · have he1 : alignedOp g (FlashOp.erasePage P) = true := by
            show (P % g.PAGE_SIZE == 0) = true
            rw [Nat.beq_eq_true_eq]
            exact mod_eq_zero_of_dvd hPal
          rw [List.all_cons, he1, Bool.true_and, hopsF]

theorem pagesList_eq (g : Geom) (hg : ValidGeom g) :
    pagesList g = List.range' 0 (g.SIZE / g.PAGE_SIZE) g.PAGE_SIZE := by
  unfold pagesList
  congr 1
  have hpos : 0 < g.PAGE_SIZE := hg.2.2.2.2.1
  obtain ⟨q, hq⟩ := hg.page_dvd_size
  rw [hq, show g.PAGE_SIZE * q + g.PAGE_SIZE - 1 = (g.PAGE_SIZE - 1) + g.PAGE_SIZE * q
      by omega,
    Nat.add_mul_div_left _ _ hpos, Nat.div_eq_of_lt (by omega),
    Nat.mul_div_cancel_left _ hpos]
  omega

theorem compact_represents (g : Geom) (hg : ValidGeom g) (dev : FlashDev)
    {recs : List FileRec} (hrep : Represents g dev.data recs) (ex : Nat) :
    ∃ dev', compact_flash_except g dev ex =
        some (dev', Except.ok (scanEnd g 0 (dedupLatest ex recs))) ∧
      Represents g dev'.data (dedupLatest ex recs) ∧
      ∃ ops, dev'.log = dev.log ++ ops ∧ ops.all (alignedOp g) = true := by
  have hlen0 : dev.data.length = g.SIZE := hrep.1
  have hgfi := generate_file_index_represents g hrep
  have hposinv : ∀ (m pp : Nat), (fun (_ : Nat) => (none : Option Nat)) m = some pp →
      pp < 0 := by
    intro m pp h
    simp at h
  have hk : 0 + (g.SIZE / g.PAGE_SIZE) * g.PAGE_SIZE = g.SIZE := by
    rw [Nat.zero_add, Nat.div_mul_cancel hg.page_dvd_size]
  obtain ⟨dev', rp', wp', rem', heqP, hdlF, hwpF, hI3F, hI4F, ops, hlogF, hopsF⟩ :=
    compactPages_sim g hg dev.data hlen0 (specIndex g 0 recs (fun _ => none)) ex
      (keptBytes g dev.data (specIndex g 0 recs (fun _ => none)) ex 0 recs)
      (g.SIZE / g.PAGE_SIZE) 0 dev 0 0 0 hk (dvd_zero _) hlen0
      (fun i _ _ => rfl) (fun i hi => absurd hi (by omega))
      (fun i _ hi => absurd hi (by omega)) le_rfl (dvd_zero _) (dvd_zero _) le_rfl
      le_rfl (Nat.zero_le _) (fun j hj => absurd hj (by omega))
      ⟨recs, fun _ => none, by simp, Or.inl ⟨hrep.2, rfl, hposinv, Or.inl rfl⟩⟩
  have hkklen : (keptBytes g dev.data (specIndex g 0 recs (fun _ => none)) ex 0 recs).length
      = ((dedupLatest ex recs).map (entrySize g)).sum :=
    keptBytes_length g dev.data hlen0 ex recs 0 (fun _ => none) hposinv hrep.2
  have hscan : scanEnd g 0 (dedupLatest ex recs)
      = 0 + ((dedupLatest ex recs).map (entrySize g)).sum := scanEnd_eq_sum g _ _
  have hwps : wp' = scanEnd g 0 (dedupLatest ex recs) := by omega
  have heqC : compact_flash_except g dev ex = some (dev', Except.ok wp') := by
    unfold compact_flash_except
    rw [hgfi]
    dsimp only
    rw [pagesList_eq g hg, heqP]
  refine ⟨dev', by rw [heqC, hwps], ⟨hdlF, ?_⟩, ops, hlogF, hopsF⟩
  refine keptBytes_laid g dev.data hlen0 ex recs 0 (fun _ => none) dev'.data 0 hposinv
    hrep.2 hdlF le_rfl ?_ ?_
  · intro i hi
    rw [Nat.zero_add]
    exact hI3F i (by omega)
  · intro i h1 h2
    exact hI4F i (by omega) h2

theorem latestPayload_append (l : List FileRec) (r : FileRec) (n : Nat) :
    latestPayload (l ++ [r]) n =
      if r.num = n then some r.payload else latestPayload l n := by
  unfold latestPayload
  rw [List.foldl_append]
  rfl

theorem dedup_sum_le (g : Geom) (ex : Nat) (recs : List FileRec) :
    ((dedupLatest ex recs).map (entrySize g)).sum ≤ (recs.map (entrySize g)).sum :=
  ((dedupLatest_sublist ex recs).map (entrySize g)).sum_le_sum (by simp)

theorem foldl_erase_range (g : Geom) :
    ∀ (k P : Nat) (dev : FlashDev),
      P + k * g.PAGE_SIZE ≤ dev.data.length →
      ∃ devE, (List.range' P k g.PAGE_SIZE).foldl
          (fun d page => FlashDev.erasePage g d page) dev = devE ∧
        devE.data.length = dev.data.length ∧
        (∀ i, i < P → byteAt devE.data i = byteAt dev.data i) ∧
        (∀ i, P + k * g.PAGE_SIZE ≤ i → byteAt devE.data i = byteAt dev.data i) ∧
        (∀ i, P ≤ i → i < P + k * g.PAGE_SIZE → byteAt devE.data i = g.ERASED_VALUE) ∧
        devE.log = dev.log ++ (List.range' P k g.PAGE_SIZE).map FlashOp.erasePage := by
  intro k
  induction k with
  | zero =>
    intro P dev _
    exact ⟨dev, rfl, rfl, fun i _ => rfl, fun i _ => rfl,
      fun i h1 h2 => absurd h2 (by omega), by simp⟩
  | succ kk ih =>
    intro P dev hk
    have hmul : (kk + 1) * g.PAGE_SIZE = g.PAGE_SIZE + kk * g.PAGE_SIZE := by ring
    have hin : P + g.PAGE_SIZE ≤ dev.data.length := by omega
    have hdl1 : (FlashDev.erasePage g dev P).data.length = dev.data.length :=
      erasePage_length g dev P hin
    obtain ⟨devE, heq, hlen, hlow, hhigh, hmid, hlog⟩ :=
      ih (P + g.PAGE_SIZE) (FlashDev.erasePage g dev P) (by omega)
    refine ⟨devE, ?_, by omega, ?_, ?_, ?_, ?_⟩
    · show (List.range' (P + g.PAGE_SIZE) kk g.PAGE_SIZE).foldl
        (fun d page => FlashDev.erasePage g d page) (FlashDev.erasePage g dev P) = devE
      exact heq
    · intro i hi
      rw [hlow i (by omega), byteAt_erasePage_lt g dev P i hin hi]
    · intro i hi
      rw [hhigh i (by omega), byteAt_erasePage_ge g dev P i hin (by omega)]
    · intro i h1 h2
      by_cases hiP : i < P + g.PAGE_SIZE
      · rw [hlow i hiP]
        exact byteAt_erasePage_mid g dev P i hin h1 hiP
      · exact hmid i (by omega) (by omega)
    · rw [hlog, erasePage_log,
        show List.range' P (kk + 1) g.PAGE_SIZE
          = P :: List.range' (P + g.PAGE_SIZE) kk g.PAGE_SIZE from rfl]
      simp

theorem initialize_represents (g : Geom) (hg : ValidGeom g) (data : List Nat)
    (hlen : data.length = g.SIZE) :
    Represents g (initialize_flash g ⟨data, []⟩).data [] ∧
    AlignedLog g (initialize_flash g ⟨data, []⟩).log := by
  have hk : 0 + (g.SIZE / g.PAGE_SIZE) * g.PAGE_SIZE = g.SIZE := by
    rw [Nat.zero_add, Nat.div_mul_cancel hg.page_dvd_size]
  obtain ⟨devE, heq, hlenE, hlow, hhigh, hmid, hlog⟩ :=
    foldl_erase_range g (g.SIZE / g.PAGE_SIZE) 0 ⟨data, []⟩ (by simp [hlen]; omega)
  have heq2 : initialize_flash g ⟨data, []⟩ = devE := by
    unfold initialize_flash
    rw [pagesList_eq g hg]
    exact heq
  rw [heq2]
  refine ⟨⟨by simp [hlenE, hlen], Laid.nil 0 (Nat.zero_le _) ?_⟩, ?_⟩
  · intro i h1 h2
    exact hmid i (Nat.zero_le _) (by simp at hlenE ⊢; omega)
  · rw [hlog]
    show (([] : List FlashOp) ++ _).all (alignedOp g) = true
    rw [List.nil_append, List.all_eq_true]
    intro op hop
    obtain ⟨page, hpage, rfl⟩ := List.mem_map.mp hop
    show (page % g.PAGE_SIZE == 0) = true
    rw [Nat.beq_eq_true_eq]
    apply mod_eq_zero_of_dvd
    obtain ⟨j, hj1, hj2⟩ := List.mem_range'.mp hpage
    exact hj2 ▸ Dvd.intro j (by ring)

theorem foldl_if_zero (m : Nat) :
    ∀ rs : List FileRec, rs.foldl (fun v r => if r.num = m then 0 else v) 0 = 0 := by
  intro rs
  induction rs with
  | nil => rfl
  | cons r rs ih =>
    show rs.foldl _ (if r.num = m then 0 else 0) = 0
    rw [if_congr (Iff.rfl) rfl rfl]
    by_cases hr : r.num = m
    · rw [if_pos hr]
      exact ih
    · rw [if_neg hr]
      exact ih

theorem sum_map_zero : ∀ l : List Nat, (l.map (fun _ => (0 : Nat))).sum = 0 := by
  intro l
  induction l with
  | nil => rfl
  | cons a t ih => rw [List.map_cons, List.sum_cons, ih]

theorem arraySum_zero : arraySum (fun _ => 0) = 0 := sum_map_zero _

theorem used_space_value (g : Geom) {data : List Nat} {recs : List FileRec}
    (hrep : Represents g data recs) (n : Nat) :
    used_space_except g data (some n) =
      some (Except.ok (((dedupLatest n recs).map (entrySize g)).sum)) := by
  rw [used_space_except_represents g hrep (some n)]
  have hall : ∀ r ∈ recs, r.num ≤ 254 := laid_nums g data hrep.2
  have hspec := arraySum_specSizes g recs (fun _ => 0) n 0 hall
  have hzero : arraySum (Function.update (zeroNums recs (fun _ => 0)) n 0) = 0 := by
    rw [arraySum_congr (h := fun _ => 0), arraySum_zero]
    intro m _
    rw [Function.update_apply]
    by_cases hm : m = n
    · rw [if_pos hm]
    · rw [if_neg hm, zeroNums_apply]
      exact foldl_if_zero m recs
  show some (Except.ok (arraySum
      (Function.update (specSizes g 0 recs (fun _ => 0)) n 0))) = _
  rw [hspec, hzero, Nat.add_zero]

theorem write_file_cases (g : Geom) (hg : ValidGeom g) (dev : FlashDev)
    {recs : List FileRec} (hrep : Represents g dev.data recs) (n : Nat) (hn : n ≤ 254)
    (buffer : List Nat) (hblen : buffer.length ≤ 0xFFFFFF) :
    (scanEnd g 0 recs + HEADER_SIZE + buffer.length ≤ g.SIZE ∧
      ∃ dev', write_file g dev n buffer = some (dev', Except.ok ()) ∧
        Represents g dev'.data (recs ++ [⟨n, buffer⟩]) ∧
        ∃ ops, dev'.log = dev.log ++ ops ∧ ops.all (alignedOp g) = true) ∨
    (scanEnd g 0 recs + HEADER_SIZE + buffer.length > g.SIZE ∧
      HEADER_SIZE + buffer.length >
        g.SIZE - ((dedupLatest n recs).map (entrySize g)).sum ∧
      write_file g dev n buffer = some (dev, Except.error FlashStoreError.NoSpaceLeft)) ∨
    (scanEnd g 0 recs + HEADER_SIZE + buffer.length > g.SIZE ∧
      HEADER_SIZE + buffer.length ≤
        g.SIZE - ((dedupLatest n recs).map (entrySize g)).sum ∧
      ∃ devC dev', compact_flash_except g dev n =
          some (devC, Except.ok (scanEnd g 0 (dedupLatest n recs))) ∧
        appendRecord g devC (scanEnd g 0 (dedupLatest n recs)) n buffer
          = some (dev', Except.ok ()) ∧
        write_file g dev n buffer = some (dev', Except.ok ()) ∧
        Represents g dev'.data (dedupLatest n recs ++ [⟨n, buffer⟩]) ∧
        ∃ ops, dev'.log = dev.log ++ ops ∧ ops.all (alignedOp g) = true) := by
  have hn255 : ¬(n = 255) := by omega
  have heos := end_of_store_represents g hrep
  by_cases hfits : scanEnd g 0 recs + HEADER_SIZE + buffer.length ≤ g.SIZE
  · left
    have hwf : write_file g dev n buffer =
        appendRecord g dev (scanEnd g 0 recs) n buffer := by
      unfold write_file
      rw [if_neg hn255, heos]
      dsimp only
      rw [if_neg (by omega)]
    obtain ⟨dev', happ, hrep', ops, hlog, hops⟩ :=
      append_represents g hg dev hrep n hn buffer hblen hfits
    exact ⟨hfits, dev', by rw [hwf]; exact happ, hrep', ops, hlog, hops⟩
  · have hused := used_space_value g hrep n
    by_cases hno : HEADER_SIZE + buffer.length >
        g.SIZE - ((dedupLatest n recs).map (entrySize g)).sum
    · right
      left
      refine ⟨by omega, hno, ?_⟩
      unfold write_file
      rw [if_neg hn255, heos]
      dsimp only
      rw [if_pos (by omega), hused]
      dsimp only
      rw [if_pos hno]
    · right
      right
      obtain ⟨devC, hceq, hrepC, opsC, hlogC, hopsC⟩ :=
        compact_represents g hg dev hrep n
      have hUeq : scanEnd g 0 (dedupLatest n recs)
          = ((dedupLatest n recs).map (entrySize g)).sum := by
        have := scanEnd_eq_sum g (dedupLatest n recs) 0
        omega
      have hle : scanEnd g 0 (dedupLatest n recs) ≤ g.SIZE :=
        laid_scanEnd_le g devC.data hrepC.2
      have hfitC : scanEnd g 0 (dedupLatest n recs) + HEADER_SIZE + buffer.length
          ≤ g.SIZE := by omega
      obtain ⟨dev', happ, hrep', opsA, hlogA, hopsA⟩ :=
        append_represents g hg devC hrepC n hn buffer hblen hfitC
      have hwf : write_file g dev n buffer =
          appendRecord g devC (scanEnd g 0 (dedupLatest n recs)) n buffer := by
        unfold write_file
        rw [if_neg hn255, heos]
        dsimp only
        rw [if_pos (by omega), hused]
        dsimp only
        rw [if_neg hno, hceq]
      refine ⟨by omega, by omega, devC, dev', hceq, happ, by rw [hwf]; exact happ,
        hrep', opsC ++ opsA, ?_, ?_⟩
      · rw [hlogA, hlogC, List.append_assoc]
      · rw [List.all_append, hopsC, hopsA]
        rfl

theorem reachW_represents (g : Geom) (hg : ValidGeom g) :
    ∀ {dev : FlashDev} {m : Nat → Option (List Nat)}, ReachW g dev m →
      ∃ recs, Represents g dev.data recs ∧
        (∀ n, n ≤ 254 → latestPayload recs n = m n) ∧
        AlignedLog g dev.log := by
  intro dev m h
  induction h with
  | init data hlen =>
    obtain ⟨hrep, halog⟩ := initialize_represents g hg data hlen
    exact ⟨[], hrep, fun n _ => rfl, halog⟩
  | write dev m n buffer dev' hr hn hblen hw ih =>
    obtain ⟨recs, hrep, hmap, halog⟩ := ih
    rcases write_file_cases g hg dev hrep n hn buffer hblen with
      ⟨hfit, devA, hweq, hrepA, ops, hlogA, hopsA⟩ |
      ⟨h1, h2, hweq⟩ |
      ⟨h1, h2, devC, devA, hceq, happ, hweq, hrepA, ops, hlogA, hopsA⟩
    · rw [hw] at hweq
      have hda : dev' = devA := (Prod.ext_iff.mp (Option.some.inj hweq)).1
      refine ⟨recs ++ [⟨n, buffer⟩], by rw [hda]; exact hrepA, ?_, ?_⟩
      · intro n' hn'
        rw [latestPayload_append, Function.update_apply]
        by_cases hnn : n = n'
        · rw [if_pos (show (⟨n, buffer⟩ : FileRec).num = n' from hnn),
            if_pos hnn.symm]
        · rw [if_neg (show ¬((⟨n, buffer⟩ : FileRec).num = n') from hnn),
            if_neg (fun hc => hnn hc.symm)]
          exact hmap n' hn'
      · show dev'.log.all (alignedOp g) = true
        rw [hda, hlogA, List.all_append, halog, hopsA]
        rfl
    · rw [hw] at hweq
      simp at hweq
    · rw [hw] at hweq
      have hda : dev' = devA := (Prod.ext_iff.mp (Option.some.inj hweq)).1
      refine ⟨dedupLatest n recs ++ [⟨n, buffer⟩], by rw [hda]; exact hrepA, ?_, ?_⟩
      · intro n' hn'
        rw [latestPayload_append, Function.update_apply]
        by_cases hnn : n = n'
        · rw [if_pos (show (⟨n, buffer⟩ : FileRec).num = n' from hnn),
            if_pos hnn.symm]
        · rw [if_neg (show ¬((⟨n, buffer⟩ : FileRec).num = n') from hnn),
            if_neg (fun hc => hnn hc.symm),
            latestPayload_dedup n n' (fun hc => hnn hc.symm) recs]
          exact hmap n' hn'
      · show dev'.log.all (alignedOp g) = true
        rw [hda, hlogA, List.all_append, halog, hopsA]
        rfl

theorem livePayload_represents (g : Geom) {data : List Nat} {recs : List FileRec}
    (hrep : Represents g data recs) (n : Nat) :
    livePayload g data n = latestPayload recs n := by
  unfold livePayload
  rw [find_represents g hrep (some n)]
  simp only [Option.getD_some]
  have hR := scanFound_payload g data n hrep.2 none none (Or.inl ⟨rfl, rfl⟩)
  rcases hR with ⟨h1, h2⟩ | ⟨q, s, pl, h1, h2, h3, h4⟩
  · rw [h1]
    show (none : Option (List Nat)) = latestPayload recs n
    unfold latestPayload
    exact h2.symm
  · rw [h1]
    show some (flashReadBytes data (q + HEADER_SIZE) s) = latestPayload recs n
    rw [h4]
    unfold latestPayload
    rw [h2]

/-- C1: last-write-wins round trip at the store facade.  For every device
reached from `initialize_flash` by a sequence of successful `write_file`
calls (tracked by the abstract map `m`), if the most recent successful write
for file number `n ≤ 254` stored payload `D`, then `read_file(n, buf)` with
`len(buf) ≥ len(D)` returns exactly `D`; the one-write special case is the
instance where the write of `D` is the last operation of the sequence. -/
theorem last_write_wins (g : Geom) (hg : ValidGeom g) (dev : FlashDev)
    (m : Nat → Option (List Nat)) (hreach : ReachW g dev m) (n : Nat) (hn : n ≤ 254)
    (D : List Nat) (hm : m n = some D) (bufLen : Nat) (hbuf : D.length ≤ bufLen) :
    read_file g dev.data n bufLen = some (Except.ok D) := by
  obtain ⟨recs, hrep, hmap, _⟩ := reachW_represents g hg hreach
  rw [read_file_represents g hrep n (by omega) bufLen, hmap n hn, hm]
  show some (if bufLen < D.length then Except.error FlashStoreError.BufferTooSmall
    else Except.ok D) = some (Except.ok D)
  rw [if_neg (by omega)]

theorem last_write_wins_witness :
    ValidGeom ⟨16, 8, 4, 255⟩ ∧
    read_file ⟨16, 8, 4, 255⟩
      (⟨[0, 1, 0, 0, 7, 255, 255, 255, 255, 255, 255, 255, 255, 255, 255, 255],
        [FlashOp.erasePage 0, FlashOp.erasePage 8,
         FlashOp.write 0 [0, 1, 0, 0], FlashOp.write 4 [7]]⟩ : FlashDev).data 0 1
      = some (Except.ok [7]) :=
  ⟨by decide,
   last_write_wins ⟨16, 8, 4, 255⟩ (by decide)
     ⟨[0, 1, 0, 0, 7, 255, 255, 255, 255, 255, 255, 255, 255, 255, 255, 255],
      [FlashOp.erasePage 0, FlashOp.erasePage 8,
       FlashOp.write 0 [0, 1, 0, 0], FlashOp.write 4 [7]]⟩
     (Function.update (fun _ => none) 0 (some [7]))
     (ReachW.write (initialize_flash ⟨16, 8, 4, 255⟩ ⟨List.replicate 16 0, []⟩)
       (fun _ => none) 0 [7]
       ⟨[0, 1, 0, 0, 7, 255, 255, 255, 255, 255, 255, 255, 255, 255, 255, 255],
        [FlashOp.erasePage 0, FlashOp.erasePage 8,
         FlashOp.write 0 [0, 1, 0, 0], FlashOp.write 4 [7]]⟩
       (ReachW.init (List.replicate 16 0) (by decide)) (by decide) (by decide)
       (by decide))
     0 (by decide) [7] (by decide) 1 (by decide)⟩

/-- C2: compaction preserves content and deduplicates.  For every reachable
pre-compaction device state and every file number `n` distinct from the
`except` argument, the live payload of `n` (as read through `find`) after
`compact_flash_except` equals its live payload before; and the compacted
device lays out a record list holding at most one record per file number. -/
theorem compaction_preserves_content (g : Geom) (hg : ValidGeom g) (dev : FlashDev)
    (hreach : Reach g dev) (ex : Nat) :
    ∃ dev' eos, compact_flash_except g dev ex = some (dev', Except.ok eos) ∧
      (∀ n, n ≠ ex → livePayload g dev'.data n = livePayload g dev.data n) ∧
      (∃ recs', Represents g dev'.data recs' ∧
        ∀ n, (recs'.filter (fun r => r.num == n)).length ≤ 1) := by
  obtain ⟨m, hr⟩ := hreach
  obtain ⟨recs, hrep, _, _⟩ := reachW_represents g hg hr
  obtain ⟨dev', hceq, hrepC, _⟩ := compact_represents g hg dev hrep ex
  refine ⟨dev', scanEnd g 0 (dedupLatest ex recs), hceq, ?_,
    dedupLatest ex recs, hrepC, fun n => dedupLatest_count ex recs n⟩
  intro n hne
  rw [livePayload_represents g hrepC n, livePayload_represents g hrep n,
    latestPayload_dedup ex n hne recs]

theorem compaction_preserves_content_witness :
    ∃ dev' eos,
      compact_flash_except ⟨16, 8, 4, 255⟩
          (initialize_flash ⟨16, 8, 4, 255⟩ ⟨List.replicate 16 0, []⟩) 3
        = some (dev', Except.ok eos) ∧
      (∀ n, n ≠ 3 → livePayload ⟨16, 8, 4, 255⟩ dev'.data n =
        livePayload ⟨16, 8, 4, 255⟩
          (initialize_flash ⟨16, 8, 4, 255⟩ ⟨List.replicate 16 0, []⟩).data n) ∧
      (∃ recs', Represents ⟨16, 8, 4, 255⟩ dev'.data recs' ∧
        ∀ n, (recs'.filter (fun r => r.num == n)).length ≤ 1) :=
  compaction_preserves_content ⟨16, 8, 4, 255⟩ (by decide)
    (initialize_flash ⟨16, 8, 4, 255⟩ ⟨List.replicate 16 0, []⟩)
    ⟨fun _ => none, ReachW.init (List.replicate 16 0) (by decide)⟩ 3

/-- C3: the NoSpaceLeft condition.  On every reachable device state,
`write_file(n, data)` returns NoSpaceLeft exactly when
`4 + len(data) > SIZE - used_space_except(n)`; when the record fits at the
current end-of-store tail the call succeeds (never NoSpaceLeft), and when it
does not fit at the tail but the inequality is satisfied, compaction with
`except = n` runs and the subsequent append succeeds. -/
theorem no_space_left_iff (g : Geom) (hg : ValidGeom g) (dev : FlashDev)
    (hreach : Reach g dev) (n : Nat) (hn : n ≤ 254) (data : List Nat)
    (hdlen : data.length ≤ 0xFFFFFF) :
    ∃ eos used dev' res,
      end_of_store g dev.data = some (Except.ok eos) ∧
      used_space_except g dev.data (some n) = some (Except.ok used) ∧
      write_file g dev n data = some (dev', res) ∧
      (res = Except.error FlashStoreError.NoSpaceLeft ↔
        HEADER_SIZE + data.length > g.SIZE - used) ∧
      (eos + HEADER_SIZE + data.length ≤ g.SIZE → res = Except.ok ()) ∧
      (eos + HEADER_SIZE + data.length > g.SIZE →
        HEADER_SIZE + data.length ≤ g.SIZE - used →
        ∃ devC, compact_flash_except g dev n = some (devC, Except.ok used) ∧
          appendRecord g devC used n data = some (dev', Except.ok ()) ∧
          res = Except.ok ()) := by
  obtain ⟨m, hr⟩ := hreach
  obtain ⟨recs, hrep, _, _⟩ := reachW_represents g hg hr
  have heos := end_of_store_represents g hrep
  have hused := used_space_value g hrep n
  have hUeq : scanEnd g 0 (dedupLatest n recs)
      = ((dedupLatest n recs).map (entrySize g)).sum := by
    have := scanEnd_eq_sum g (dedupLatest n recs) 0
    omega
  have hUle : ((dedupLatest n recs).map (entrySize g)).sum ≤ scanEnd g 0 recs := by
    have h1 := dedup_sum_le g n recs
    have h2 := scanEnd_eq_sum g recs 0
    omega
  rcases write_file_cases g hg dev hrep n hn data hdlen with
    ⟨hfit, devA, hweq, _, _⟩ |
    ⟨h1, h2, hweq⟩ |
    ⟨h1, h2, devC, devA, hceq, happ, hweq, _, _⟩
  · refine ⟨scanEnd g 0 recs, ((dedupLatest n recs).map (entrySize g)).sum, devA,
      Except.ok (), heos, hused, hweq, ?_, fun _ => rfl, fun hc _ => absurd hfit (by omega)⟩
    constructor
    · intro hc
      exact absurd hc (by simp)
    · intro hc
      exact absurd hc (by omega)
  · refine ⟨scanEnd g 0 recs, ((dedupLatest n recs).map (entrySize g)).sum, dev,
      Except.error FlashStoreError.NoSpaceLeft, heos, hused, hweq,
      ⟨fun _ => h2, fun _ => rfl⟩, fun hc => absurd hc (by omega),
      fun _ hc => absurd hc (by omega)⟩
  · refine ⟨scanEnd g 0 recs, ((dedupLatest n recs).map (entrySize g)).sum, devA,
      Except.ok (), heos, hused, hweq, ?_, fun _ => rfl, ?_⟩
    · constructor
      · intro hc
        exact absurd hc (by simp)
      · intro hc
        exact absurd hc (by omega)
    · intro _ _
      refine ⟨devC, ?_, ?_, rfl⟩
      · rw [hceq, hUeq]
      · rw [← hUeq]
        exact happ

theorem no_space_left_iff_witness :
    ∃ eos used dev' res,
      end_of_store ⟨16, 8, 4, 255⟩
          (initialize_flash ⟨16, 8, 4, 255⟩ ⟨List.replicate 16 0, []⟩).data
        = some (Except.ok eos) ∧
      used_space_except ⟨16, 8, 4, 255⟩
          (initialize_flash ⟨16, 8, 4, 255⟩ ⟨List.replicate 16 0, []⟩).data (some 0)
        = some (Except.ok used) ∧
      write_file ⟨16, 8, 4, 255⟩
          (initialize_flash ⟨16, 8, 4, 255⟩ ⟨List.replicate 16 0, []⟩) 0 [7]
        = some (dev', res) ∧
      (res = Except.error FlashStoreError.NoSpaceLeft ↔
        HEADER_SIZE + [7].length > (16 : Nat) - used) ∧
      (eos + HEADER_SIZE + [7].length ≤ 16 → res = Except.ok ()) ∧
      (eos + HEADER_SIZE + [7].length > 16 →
        HEADER_SIZE + [7].length ≤ 16 - used →
        ∃ devC, compact_flash_except ⟨16, 8, 4, 255⟩
            (initialize_flash ⟨16, 8, 4, 255⟩ ⟨List.replicate 16 0, []⟩) 0
          = some (devC, Except.ok used) ∧
          appendRecord ⟨16, 8, 4, 255⟩ devC used 0 [7] = some (dev', Except.ok ()) ∧
          res = Except.ok ()) :=
  no_space_left_iff ⟨16, 8, 4, 255⟩ (by decide)
    (initialize_flash ⟨16, 8, 4, 255⟩ ⟨List.replicate 16 0, []⟩)
    ⟨fun _ => none, ReachW.init (List.replicate 16 0) (by decide)⟩
    0 (by decide) [7] (by decide)

/-- C9: alignment of issued flash operations.  On every device reached by
valid operations (`initialize_flash` followed by successful `write_file`
calls, which cover the appender, the compactor and the page eraser), every
`write` in the operation log has an address that is a multiple of
`WORD_SIZE` and every `erase_page` has an address that is a multiple of
`PAGE_SIZE`. -/
theorem ops_alignment (g : Geom) (hg : ValidGeom g) (dev : FlashDev)
    (hreach : Reach g dev) :
    ∀ op ∈ dev.log,
      (∀ a bs, op = FlashOp.write a bs → a % g.WORD_SIZE = 0) ∧
      (∀ a, op = FlashOp.erasePage a → a % g.PAGE_SIZE = 0) := by
  obtain ⟨m, hr⟩ := hreach
  obtain ⟨recs, _, _, halog⟩ := reachW_represents g hg hr
  intro op hop
  have hal := List.all_eq_true.mp halog op hop
  constructor
  · intro a bs hopeq
    rw [hopeq] at hal
    have : (a % g.WORD_SIZE == 0) = true := hal
    rwa [Nat.beq_eq_true_eq] at this
  · intro a hopeq
    rw [hopeq] at hal
    have : (a % g.PAGE_SIZE == 0) = true := hal
    rwa [Nat.beq_eq_true_eq] at this

theorem ops_alignment_witness :
    (4 : Nat) % (⟨16, 8, 4, 255⟩ : Geom).WORD_SIZE = 0 ∧
    (8 : Nat) % (⟨16, 8, 4, 255⟩ : Geom).PAGE_SIZE = 0 :=
  ⟨(ops_alignment ⟨16, 8, 4, 255⟩ (by decide)
      ⟨[0, 1, 0, 0, 7, 255, 255, 255, 255, 255, 255, 255, 255, 255, 255, 255],
       [FlashOp.erasePage 0, FlashOp.erasePage 8,
        FlashOp.write 0 [0, 1, 0, 0], FlashOp.write 4 [7]]⟩
      ⟨Function.update (fun _ => none) 0 (some [7]),
       ReachW.write (initialize_flash ⟨16, 8, 4, 255⟩ ⟨List.replicate 16 0, []⟩)
         (fun _ => none) 0 [7]
         ⟨[0, 1, 0, 0, 7, 255, 255, 255, 255, 255, 255, 255, 255, 255, 255, 255],
          [FlashOp.erasePage 0, FlashOp.erasePage 8,
           FlashOp.write 0 [0, 1, 0, 0], FlashOp.write 4 [7]]⟩
         (ReachW.init (List.replicate 16 0) (by decide)) (by decide) (by decide)
         (by decide)⟩
      (FlashOp.write 4 [7]) (by decide)).1 4 [7] rfl,
   (ops_alignment ⟨16, 8, 4, 255⟩ (by decide)
      ⟨[0, 1, 0, 0, 7, 255, 255, 255, 255, 255, 255, 255, 255, 255, 255, 255],
       [FlashOp.erasePage 0, FlashOp.erasePage 8,
        FlashOp.write 0 [0, 1, 0, 0], FlashOp.write 4 [7]]⟩
      ⟨Function.update (fun _ => none) 0 (some [7]),
       ReachW.write (initialize_flash ⟨16, 8, 4, 255⟩ ⟨List.replicate 16 0, []⟩)
         (fun _ => none) 0 [7]
         ⟨[0, 1, 0, 0, 7, 255, 255, 255, 255, 255, 255, 255, 255, 255, 255, 255],
          [FlashOp.erasePage 0, FlashOp.erasePage 8,
           FlashOp.write 0 [0, 1, 0, 0], FlashOp.write 4 [7]]⟩
         (ReachW.init (List.replicate 16 0) (by decide)) (by decide) (by decide)
         (by decide)⟩
      (FlashOp.erasePage 8) (by decide)).2 8 rfl⟩
